import Mathlib

/-! Maze generation and solving (`src/wasm/maze.c`)

A shallow embedding of the C program: the xoshiro128** generator seeded by
splitmix32, the Fisher-Yates shuffle of the four directions, the Aldous-Broder
random walk that carves the maze, the recursive solver and the renderer.

Conventions of the embedding

* `uint32_t` values are natural numbers, reduced with `wrap32` wherever the C
  operation can overflow; `short` values are integers, converted with
  `toShort`; `unsigned short` values are integers converted with `toU16`.
* `rand_state` (a global array of four words) is the record `RandState`,
  passed explicitly.
* `maze[y][x]` is a function from row and column to the cell byte; every
  access goes through `readCell` / `writeCell`, which report an index outside
  the `MAX_HEIGHT x MAX_WIDTH` array or outside the rows and columns of the
  requested size as an `Abort`.
* Loops that may run forever (`while (remain > 0)`) and the recursion of the
  solver take a fuel argument; running out of fuel is `Abort.outOfFuel`.
* The `extern` render callbacks are recorded as a list of `Event`s.
-/

namespace Maze

/-! ## Machine integers -/

/-- Reduction of a natural number to 32 bits (`uint32_t` arithmetic). -/
def wrap32 (n : Nat) : Nat := n % 4294967296

/-- Conversion of an integer to `short` (two's complement, 16 bits). -/
def toShort (v : Int) : Int := (v + 32768) % 65536 - 32768

/-- Conversion of an integer to `unsigned short`. -/
def toU16 (v : Int) : Int := v % 65536

/-- Conversion of an `int` to `uint32_t`. -/
def toU32 (v : Int) : Nat := (v % 4294967296).toNat

/-! ## The random number generator -/

/-- Source: `rotl`, `(x << k) | (x >> (32 - k))` on `uint32_t`. -/
def rotl (x k : Nat) : Nat := wrap32 (x <<< k) ||| (x >>> (32 - k))

/-- Source: `splitmix32`; returns the output and the updated accumulator `*in`. -/
def splitmix32 (acc : Nat) : Nat × Nat :=
  let acc1 := wrap32 (acc + 0x9e3779b9)
  let z := acc1
  let z := wrap32 ((z ^^^ (z >>> 16)) * 0x85ebca6b)
  let z := wrap32 ((z ^^^ (z >>> 13)) * 0xc2b2ae35)
  (z ^^^ (z >>> 16), acc1)

/-- Source: `static uint32_t rand_state[4]`. -/
structure RandState where
  s0 : Nat
  s1 : Nat
  s2 : Nat
  s3 : Nat
deriving DecidableEq, Repr

/-- Source: `rand_seed`; the four words of the state are assigned in turn. -/
def rand_seed (st : RandState) (seed : Nat) : RandState :=
  let mixer := seed
  let r0 := splitmix32 mixer
  let st := { st with s0 := r0.1 }
  let r1 := splitmix32 r0.2
  let st := { st with s1 := r1.1 }
  let r2 := splitmix32 r1.2
  let st := { st with s2 := r2.1 }
  let r3 := splitmix32 r2.2
  let st := { st with s3 := r3.1 }
  st

/-- Source: `rand_next`; returns the output and the updated state. -/
def rand_next (st : RandState) : Nat × RandState :=
  let result := wrap32 (rotl (wrap32 (st.s1 * 5)) 7 * 9)
  let t := wrap32 (st.s1 <<< 9)
  let st := { st with s2 := st.s2 ^^^ st.s0 }
  let st := { st with s3 := st.s3 ^^^ st.s1 }
  let st := { st with s1 := st.s1 ^^^ st.s2 }
  let st := { st with s0 := st.s0 ^^^ st.s3 }
  let st := { st with s2 := st.s2 ^^^ t }
  let st := { st with s3 := rotl st.s3 11 }
  (result, st)

/-! ### The generator as the specification words it -/

/-- The splitmix32 finalizer: shifts 16, 13, 16 and multipliers
`0x85ebca6b`, `0xc2b2ae35`. -/
def specMix (a : Nat) : Nat :=
  let z := ((a ^^^ (a >>> 16)) * 0x85ebca6b) % 2 ^ 32
  let z := ((z ^^^ (z >>> 13)) * 0xc2b2ae35) % 2 ^ 32
  z ^^^ (z >>> 16)

/-- The accumulator of the `k`-th splitmix32 call: `seed + k * 0x9e3779b9` modulo `2^32`. -/
def specAcc (seed k : Nat) : Nat := (seed + k * 0x9e3779b9) % 2 ^ 32

/-- Rotation to the left of a 32-bit word. -/
def specRotl32 (x k : Nat) : Nat := ((x <<< k) % 2 ^ 32) ||| (x >>> (32 - k))

/-- The state after one xoshiro128** step, in closed form. -/
def specNextState (st : RandState) : RandState :=
  { s0 := st.s0 ^^^ st.s3 ^^^ st.s1
    s1 := st.s1 ^^^ st.s2 ^^^ st.s0
    s2 := st.s2 ^^^ st.s0 ^^^ ((st.s1 <<< 9) % 2 ^ 32)
    s3 := specRotl32 (st.s3 ^^^ st.s1) 11 }

/-- The output of one xoshiro128** step, in closed form. -/
def specNextOutput (st : RandState) : Nat :=
  (specRotl32 ((st.s1 * 5) % 2 ^ 32) 7 * 9) % 2 ^ 32

/-- The `n`-th state reached from `st` by repeated `rand_next`. -/
def randIter : Nat → RandState → RandState
  | 0, st => st
  | n + 1, st => randIter n (rand_next st).2

/-- The first `n` outputs of `rand_next` from state `st`. -/
def randOutputs : Nat → RandState → List Nat
  | 0, _ => []
  | n + 1, st => (rand_next st).1 :: randOutputs n (rand_next st).2

/-! ## Points, cells and the grid -/

/-- Source: `typedef struct { short x; short y; } point`. -/
structure Point where
  x : Int
  y : Int
deriving DecidableEq, Repr, Inhabited

/-- Source: `#define MAX_WIDTH 254`. -/
def MAX_WIDTH : Int := 254
/-- Source: `#define MAX_HEIGHT 254`. -/
def MAX_HEIGHT : Int := 254

/-- Source: `#define PASSAGE 0`. -/
def PASSAGE : Nat := 0
/-- Source: `#define WALL 1`. -/
def WALL : Nat := 1
/-- Source: `#define UNVISITED 2`. -/
def UNVISITED : Nat := 2
/-- Source: `#define SOLUTION 3`. -/
def SOLUTION : Nat := 3

/-- Source: `#define NORTH { 0, -1 }`. -/
def NORTH : Point := ⟨0, -1⟩
/-- Source: `#define EAST { -1, 0 }`. -/
def EAST : Point := ⟨-1, 0⟩
/-- Source: `#define SOUTH { 0, 1 }`. -/
def SOUTH : Point := ⟨0, 1⟩
/-- Source: `#define WEST { 1, 0 }`. -/
def WEST : Point := ⟨1, 0⟩

/-- Source: `points_eql`; a null pointer is `none`. -/
def points_eql (a b : Option Point) : Bool :=
  match a, b with
  | some a, some b => a.x == b.x && a.y == b.y
  | _, _ => false

/-- The array `maze[MAX_HEIGHT][MAX_WIDTH]`, read as `maze y x`. -/
abbrev Grid := Int → Int → Nat

/-- Ways a run of the embedded program stops without a result. -/
inductive Abort where
  | remainderByZero
  | indexOutsideArray (x y : Int)
  | indexOutsideSize (x y : Int)
  | outOfFuel
deriving DecidableEq, Repr

/-- A runtime failure: everything but running out of fuel. -/
def Abort.isRuntimeFailure : Abort → Bool
  | .outOfFuel => false
  | _ => true

/-- The index `[y][x]` lies inside the declared array. -/
def inArray (y x : Int) : Prop := 0 ≤ y ∧ y < MAX_HEIGHT ∧ 0 ≤ x ∧ x < MAX_WIDTH

instance (y x : Int) : Decidable (inArray y x) := by unfold inArray; infer_instance

/-- The index `[y][x]` lies inside rows `0..size.y-1` and columns `0..size.x-1`. -/
def inSize (size : Point) (y x : Int) : Prop := 0 ≤ y ∧ y < size.y ∧ 0 ≤ x ∧ x < size.x

instance (size : Point) (y x : Int) : Decidable (inSize size y x) := by
  unfold inSize; infer_instance

/-- The grid with `maze[y][x]` replaced by `v`. -/
def setCell (maze : Grid) (y x : Int) (v : Nat) : Grid :=
  fun y1 x1 => if y1 = y ∧ x1 = x then v else maze y1 x1

/-- A checked read of `maze[y][x]`. -/
def readCell (maze : Grid) (size : Point) (y x : Int) : Except Abort Nat :=
  if ¬ inArray y x then .error (.indexOutsideArray x y)
  else if ¬ inSize size y x then .error (.indexOutsideSize x y)
  else .ok (maze y x)

/-- A checked write `maze[y][x] = v`. -/
def writeCell (maze : Grid) (size : Point) (y x : Int) (v : Nat) : Except Abort Grid :=
  if ¬ inArray y x then .error (.indexOutsideArray x y)
  else if ¬ inSize size y x then .error (.indexOutsideSize x y)
  else .ok (setCell maze y x v)

/-! ## The shuffle -/

/-- The body of the loop of `randomize_directions`: exchange `directions[i]`
and `directions[j]` through `temp`. -/
def swapDirections (directions : List Point) (i j : Nat) : List Point :=
  let temp := directions.getD i default
  let directions := directions.set i (directions.getD j default)
  directions.set j temp

/-- The loop `for (i = 3; i > 0; i--)` of `randomize_directions`, entered with
loop variable `i`. -/
def randomizeLoop : Nat → RandState → List Point → RandState × List Point
  | 0, st, directions => (st, directions)
  | i + 1, st, directions =>
    let r := rand_next st
    let j := r.1 % (i + 1 + 1)
    randomizeLoop i r.2 (swapDirections directions (i + 1) j)

/-- Source: `randomize_directions`. -/
def randomize_directions (st : RandState) (directions : List Point) :
    RandState × List Point :=
  randomizeLoop 3 st directions

/-- The three exchanges of the shuffle for given reduced draws: `j3` is used at
`i = 3`, `j2` at `i = 2`, `j1` at `i = 1`. -/
def shuffleWith (directions : List Point) (j3 j2 j1 : Nat) : List Point :=
  swapDirections (swapDirections (swapDirections directions 3 j3) 2 j2) 1 j1

/-! ## The generator -/

/-- The expression `rand_next() % d` for an `int` divisor `d`. -/
def randMod (st : RandState) (d : Int) : Except Abort (Nat × RandState) :=
  let r := rand_next st
  if toU32 d = 0 then .error .remainderByZero else .ok (r.1 % toU32 d, r.2)

/-- The expression `1 + (r * 2)` in `uint32_t`, stored into a `short`. -/
def oddCoord (r : Nat) : Int := toShort (wrap32 (1 + wrap32 (r * 2)) : Nat)

/-- The first loop nest of `generate_maze`: every cell becomes `WALL`. -/
def fillWalls (maze : Grid) (size : Point) : Except Abort Grid :=
  (List.range size.x.toNat).foldlM
    (fun m (x : Nat) => (List.range size.y.toNat).foldlM
      (fun m (y : Nat) => writeCell m size (y : Int) (x : Int) WALL) m) maze

/-- The second loop nest of `generate_maze`: cells at odd `x` and odd `y`
become `UNVISITED`. The loop variable `x = 1, 3, ..` below `size->x` is
`2 * i + 1` for `i` below `size->x / 2`, and likewise `y`. -/
def markUnvisited (maze : Grid) (size : Point) : Except Abort Grid :=
  (List.range (size.x.toNat / 2)).foldlM
    (fun m (i : Nat) => (List.range (size.y.toNat / 2)).foldlM
      (fun m (j : Nat) =>
        writeCell m size (2 * (j : Int) + 1) (2 * (i : Int) + 1) UNVISITED) m) maze

/-- The loop `for (i = 0; i < 4; i++)` inside the walk, over the remaining
directions; returns the grid, the position `p` and `remain`. -/
def scanDirections (maze : Grid) (size p : Point) (remain : Int) :
    List Point → Except Abort (Grid × Point × Int)
  | [] => .ok (maze, p, remain)
  | d :: rest =>
    let wall : Point := ⟨toShort (p.x + d.x), toShort (p.y + d.y)⟩
    let neighbor : Point := ⟨toShort (p.x + d.x * 2), toShort (p.y + d.y * 2)⟩
    if wall.x < 1 ∨ wall.x > size.x - 2 ∨ wall.y < 1 ∨ wall.y > size.y - 2 then
      scanDirections maze size p remain rest
    else do
      let v ← readCell maze size neighbor.y neighbor.x
      if v = UNVISITED then do
        let maze ← writeCell maze size neighbor.y neighbor.x PASSAGE
        let maze ← writeCell maze size wall.y wall.x PASSAGE
        pure (maze, neighbor, toU16 (remain - 1))
      else
        pure (maze, neighbor, remain)

/-- The loop `while (remain > 0)` of `generate_maze`. -/
def walk : Nat → RandState → Grid → Point → Point → Int → Except Abort (RandState × Grid)
  | fuel, st, maze, size, p, remain =>
    if remain > 0 then
      match fuel with
      | 0 => .error .outOfFuel
      | fuel + 1 =>
        let sh := randomize_directions st [NORTH, EAST, SOUTH, WEST]
        match scanDirections maze size p remain sh.2 with
        | .error e => .error e
        | .ok (maze, p, remain) => walk fuel sh.1 maze size p remain
    else .ok (st, maze)

/-- The part of `generate_maze` before the walk: returns the generator state,
the grid, `start`, `end`, the walk position `p` and `remain`. -/
def generateSetup (st : RandState) (maze : Grid) (size : Point) :
    Except Abort (RandState × Grid × Point × Point × Point × Int) := do
  let remain := toU16 (Int.tdiv size.x 2 * Int.tdiv size.y 2)
  let maze ← fillWalls maze size
  let (r, st) ← randMod st (Int.tdiv size.x 2)
  let start : Point := ⟨oddCoord r, 0⟩
  let maze ← writeCell maze size start.y start.x PASSAGE
  let (r, st) ← randMod st (Int.tdiv size.x 2)
  let end_ : Point := ⟨oddCoord r, toShort (size.y - 1)⟩
  let maze ← writeCell maze size end_.y end_.x PASSAGE
  let maze ← markUnvisited maze size
  let (r, st) ← randMod st (Int.tdiv size.x 2)
  let px := oddCoord r
  let (r, st) ← randMod st (Int.tdiv size.y 2)
  let p : Point := ⟨px, oddCoord r⟩
  let maze ← writeCell maze size p.y p.x 0
  let remain := toU16 (remain - 1)
  pure (st, maze, start, end_, p, remain)

/-- Source: `generate_maze`; returns the generator state, the grid, `start`
and `end`. -/
def generate_maze (fuel : Nat) (st : RandState) (maze : Grid) (size : Point) :
    Except Abort (RandState × Grid × Point × Point) := do
  let (st, maze, start, end_, p, remain) ← generateSetup st maze size
  let (st, maze) ← walk fuel st maze size p remain
  pure (st, maze, start, end_)

/-! ## The solver and the renderer -/

/-- The calls of the `extern` render functions. -/
inductive Event where
  | cell (x y : Int) (type : Nat)
  | descend (x y : Int)
  | backtrack (x y : Int)
  | solved (x y : Int)
deriving DecidableEq, Repr

/-- The four neighbour blocks of `solve_maze` in source order, each with the
guard of its enclosing `if`. -/
def neighbourBlocks (size current : Point) : List (Bool × Point) :=
  [ (decide (current.y > 0), ⟨current.x, toShort (current.y - 1)⟩),
    (decide (current.x > 0), ⟨toShort (current.x - 1), current.y⟩),
    (decide (current.y < size.y - 1), ⟨current.x, toShort (current.y + 1)⟩),
    (decide (current.x < size.x - 1), ⟨toShort (current.x + 1), current.y⟩) ]

/-- The neighbour blocks of `solve_maze` run in turn: `rec` is the recursive
call; the result is the flag "a block returned 1", the grid and the events. -/
def tryNeighbours (rec : Grid → Point → Except Abort (Bool × Grid × List Event))
    (size current : Point) (previous : Option Point) :
    Grid → List (Bool × Point) → Except Abort (Bool × Grid × List Event)
  | maze, [] => .ok (false, maze, [])
  | maze, (guard, next) :: rest =>
    if guard && !points_eql (some next) previous then
      match rec maze next with
      | .error e => .error e
      | .ok (true, maze, tr) =>
        match writeCell maze size current.y current.x SOLUTION with
        | .error e => .error e
        | .ok maze => .ok (true, maze, tr ++ [Event.solved (toU16 current.x) (toU16 current.y)])
      | .ok (false, maze, tr) =>
        match tryNeighbours rec size current previous maze rest with
        | .error e => .error e
        | .ok (found, maze, tr2) => .ok (found, maze, tr ++ tr2)
    else tryNeighbours rec size current previous maze rest

/-- Source: `solve_maze`; returns the result, the grid and the events. -/
def solve_maze : Nat → Grid → Point → Point → Option Point → Point →
    Except Abort (Bool × Grid × List Event)
  | 0, _, _, _, _, _ => .error .outOfFuel
  | fuel + 1, maze, size, current, previous, end_ =>
    match readCell maze size current.y current.x with
    | .error e => .error e
    | .ok v =>
      if v = WALL then .ok (false, maze, [])
      else
        let moveIn := Event.descend (toU16 current.x) (toU16 current.y)
        if current.x = end_.x ∧ current.y = end_.y then
          match writeCell maze size current.y current.x SOLUTION with
          | .error e => .error e
          | .ok maze =>
            .ok (true, maze, [moveIn, Event.solved (toU16 current.x) (toU16 current.y)])
        else
          match tryNeighbours (fun m next => solve_maze fuel m size next (some current) end_)
              size current previous maze (neighbourBlocks size current) with
          | .error e => .error e
          | .ok (true, maze, tr) => .ok (true, maze, moveIn :: tr)
          | .ok (false, maze, tr) =>
            .ok (false, maze,
              moveIn :: (tr ++ [Event.backtrack (toU16 current.x) (toU16 current.y)]))

/-- Source: `render_maze`. -/
def render_maze (maze : Grid) (size : Point) : Except Abort (List Event) :=
  (List.range size.y.toNat).foldlM
    (fun tr (y : Nat) => (List.range size.x.toNat).foldlM
      (fun tr (x : Nat) => do
        let v ← readCell maze size (y : Int) (x : Int)
        pure (tr ++ [Event.cell (x : Int) (y : Int) v])) tr) []

/-- The observable outcome of `generate_and_solve_maze`. -/
structure Outcome where
  status : Int
  rand : RandState
  maze : Grid
  events : List Event

/-- Source: `generate_and_solve_maze`; `st` is the content of `rand_state` and
`maze` the content of the local array when the function is entered. -/
def generate_and_solve_maze (fuel : Nat) (st : RandState) (maze : Grid)
    (width height seed : Int) : Except Abort Outcome := do
  let size : Point := ⟨toShort width, toShort height⟩
  let st := rand_seed st (toU32 seed)
  let (st, maze, start, end_) ← generate_maze fuel st maze size
  let cells ← render_maze maze size
  let (_, maze, moves) ← solve_maze fuel maze size start none end_
  pure ⟨42, st, maze, cells ++ moves⟩

/-! ## Index form of the shuffle -/

/-- The exchange of `swapDirections` on a list of indices. -/
def swapIdx (l : List (Fin 4)) (i j : Nat) : List (Fin 4) :=
  let temp := l.getD i 0
  let l := l.set i (l.getD j 0)
  l.set j temp

/-- The shuffle for given reduced draws, run on the indices `0, 1, 2, 3`. -/
def shuffleIdx (j3 j2 j1 : Nat) : List (Fin 4) :=
  swapIdx (swapIdx (swapIdx [0, 1, 2, 3] 3 j3) 2 j2) 1 j1

/-- The reduced draws of one shuffle: `j3 < 4`, `j2 < 3`, `j1 < 2`. -/
abbrev Draws := Fin 4 × Fin 3 × Fin 2

/-! ## Auxiliary definitions for the generator -/

/-- The grid left by the part of `generate_maze` before the walk. -/
def setupGrid (maze : Grid) (size start end_ p : Point) : Grid :=
  fun y x =>
    if y = p.y ∧ x = p.x then PASSAGE
    else if 0 ≤ x ∧ x < size.x ∧ x % 2 = 1 ∧ 0 ≤ y ∧ y < size.y ∧ y % 2 = 1 then UNVISITED
    else if y = end_.y ∧ x = end_.x then PASSAGE
    else if y = start.y ∧ x = start.x then PASSAGE
    else if inSize size y x then WALL
    else maze y x

/-- A vertex: a cell of the grid with both coordinates odd. -/
def isVertex (size c : Point) : Prop := inSize size c.y c.x ∧ c.x % 2 = 1 ∧ c.y % 2 = 1

instance (size c : Point) : Decidable (isVertex size c) := by unfold isVertex; infer_instance

/-- The bounds test of the walk on the one-step cell `wall`, passed. -/
def wallInBounds (size wall : Point) : Prop :=
  ¬ (wall.x < 1 ∨ wall.x > size.x - 2 ∨ wall.y < 1 ∨ wall.y > size.y - 2)

instance (size wall : Point) : Decidable (wallInBounds size wall) := by
  unfold wallInBounds; infer_instance

/-- The state of the walk loop: the grid, the position `p` and `remain`. -/
abbrev WalkState := Grid × Point × Int

/-- One iteration of the walk loop, whatever the shuffle: the position stays
when no direction passes the bounds test; otherwise it moves two cells in a
direction `d` whose one-step cell is in bounds, carving when the target is
`UNVISITED`. -/
inductive WalkStep (size : Point) : WalkState → WalkState → Prop where
  | stay (s : WalkState) : WalkStep size s s
  | carve (maze : Grid) (p : Point) (remain : Int) (d : Point)
      (hd : d ∈ [NORTH, EAST, SOUTH, WEST])
      (hb : wallInBounds size ⟨p.x + d.x, p.y + d.y⟩)
      (hu : maze (p.y + d.y * 2) (p.x + d.x * 2) = UNVISITED) :
      WalkStep size (maze, p, remain)
        (setCell (setCell maze (p.y + d.y * 2) (p.x + d.x * 2) PASSAGE)
            (p.y + d.y) (p.x + d.x) PASSAGE,
          ⟨p.x + d.x * 2, p.y + d.y * 2⟩, toU16 (remain - 1))
  | move (maze : Grid) (p : Point) (remain : Int) (d : Point)
      (hd : d ∈ [NORTH, EAST, SOUTH, WEST])
      (hb : wallInBounds size ⟨p.x + d.x, p.y + d.y⟩)
      (hu : maze (p.y + d.y * 2) (p.x + d.x * 2) ≠ UNVISITED) :
      WalkStep size (maze, p, remain) (maze, ⟨p.x + d.x * 2, p.y + d.y * 2⟩, remain)

/-- An edge cell: a cell lying directly between two horizontally or vertically
neighbouring vertices. -/
def isEdgeCell (size c : Point) : Prop :=
  (isVertex size ⟨c.x - 1, c.y⟩ ∧ isVertex size ⟨c.x + 1, c.y⟩) ∨
  (isVertex size ⟨c.x, c.y - 1⟩ ∧ isVertex size ⟨c.x, c.y + 1⟩)

instance (size c : Point) : Decidable (isEdgeCell size c) := by
  unfold isEdgeCell; infer_instance

/-- All cells of the grid of the given size. -/
def gridCells (size : Point) : Finset Point :=
  (Finset.range size.x.toNat ×ˢ Finset.range size.y.toNat).image
    (fun c => (⟨(c.1 : Int), (c.2 : Int)⟩ : Point))

/-- The vertices still `UNVISITED`. -/
def unvisitedVertices (maze : Grid) (size : Point) : Finset Point :=
  (gridCells size).filter (fun c => isVertex size c ∧ maze c.y c.x = UNVISITED)

/-- The edges of the maze graph: the edge cells that hold `PASSAGE`. -/
def carvedEdges (maze : Grid) (size : Point) : Finset Point :=
  (gridCells size).filter (fun c => isEdgeCell size c ∧ maze c.y c.x = PASSAGE)

/-- Two neighbouring vertices joined by an edge: the cell between them holds `PASSAGE`. -/
def Linked (maze : Grid) (size : Point) (u v : Point) : Prop :=
  isVertex size u ∧ isVertex size v ∧
  ((u.y = v.y ∧ (v.x = u.x + 2 ∨ u.x = v.x + 2)) ∨ (u.x = v.x ∧ (v.y = u.y + 2 ∨ u.y = v.y + 2))) ∧
  maze ((u.y + v.y) / 2) ((u.x + v.x) / 2) = PASSAGE

/-- Orthogonally adjacent cells. -/
def adjacent (a b : Point) : Prop :=
  (a.x = b.x ∧ (a.y = b.y + 1 ∨ b.y = a.y + 1)) ∨ (a.y = b.y ∧ (a.x = b.x + 1 ∨ b.x = a.x + 1))

instance (a b : Point) : Decidable (adjacent a b) := by unfold adjacent; infer_instance

/-- A walk through cells satisfying `P` in which consecutive cells are adjacent
and no step returns to the cell left one step before. -/
def Trail (P : Point → Prop) : List Point → Prop
  | [] => True
  | [a] => P a
  | a :: b :: rest => P a ∧ adjacent a b ∧ rest.head? ≠ some a ∧ Trail P (b :: rest)

/-- No walk without immediate return repeats a cell: the cells satisfying `P`
form a forest. -/
def Forest (P : Point → Prop) : Prop := ∀ l, Trail P l → l.Nodup

/-- Any two cells satisfying `P` are joined by a walk without immediate return. -/
def Joined (P : Point → Prop) : Prop :=
  ∀ u v, P u → P v → ∃ l, Trail P l ∧ l.head? = some u ∧ l.getLast? = some v

/-- The cells of the maze graph that are open: vertices and edge cells holding `PASSAGE`. -/
def openInner (maze : Grid) (size : Point) (c : Point) : Prop :=
  (isVertex size c ∨ isEdgeCell size c) ∧ maze c.y c.x = PASSAGE

/-- The cells the solver can enter: inside the grid and not `WALL`. -/
def passable (maze : Grid) (size : Point) (c : Point) : Prop :=
  inSize size c.y c.x ∧ maze c.y c.x ≠ WALL

/-- The vertices of the grid, as a finite set. -/
def vertexSet (size : Point) : Finset Point :=
  (gridCells size).filter (fun c => isVertex size c)

/-- The invariant of the walk loop of `generate_maze`, for the state `s` (grid,
position, `remain`) and the `start` and `end` chosen before the walk. -/
structure MazeInv (size start end_ : Point) (s : WalkState) : Prop where
  pos_vertex : isVertex size s.2.1
  pos_open : s.1 s.2.1.y s.2.1.x = PASSAGE
  vertex_state : ∀ c, isVertex size c → s.1 c.y c.x = PASSAGE ∨ s.1 c.y c.x = UNVISITED
  other_state : ∀ c, inSize size c.y c.x → ¬ isVertex size c →
    s.1 c.y c.x = PASSAGE ∨ s.1 c.y c.x = WALL
  start_open : s.1 start.y start.x = PASSAGE
  end_open : ¬ isVertex size end_ → s.1 end_.y end_.x = PASSAGE
  closed : ∀ c, inSize size c.y c.x → ¬ isVertex size c → ¬ isEdgeCell size c →
    c ≠ start → c ≠ end_ → s.1 c.y c.x = WALL
  edge_ends_h : ∀ c : Point, isVertex size ⟨c.x - 1, c.y⟩ → isVertex size ⟨c.x + 1, c.y⟩ →
    s.1 c.y c.x = PASSAGE → s.1 c.y (c.x - 1) = PASSAGE ∧ s.1 c.y (c.x + 1) = PASSAGE
  edge_ends_v : ∀ c : Point, isVertex size ⟨c.x, c.y - 1⟩ → isVertex size ⟨c.x, c.y + 1⟩ →
    s.1 c.y c.x = PASSAGE → s.1 (c.y - 1) c.x = PASSAGE ∧ s.1 (c.y + 1) c.x = PASSAGE
  remain_eq : s.2.2 = ((unvisitedVertices s.1 size).card : Int)
  edge_count : (carvedEdges s.1 size).card + (unvisitedVertices s.1 size).card + 1 =
    (vertexSet size).card
  linked : ∀ u v, isVertex size u → isVertex size v → s.1 u.y u.x = PASSAGE →
    s.1 v.y v.x = PASSAGE → Relation.ReflTransGen (Linked s.1 size) u v
  forest : Forest (openInner s.1 size)
  joined : Joined (openInner s.1 size)

/-- The facts about one carving step that do not depend on the direction. -/
structure CarveFacts (size start end_ : Point) (g : Grid) (p n wl : Point) : Prop where
  n_vertex : isVertex size n
  p_vertex : isVertex size p
  wl_in : inSize size wl.y wl.x
  wl_not_vertex : ¬ isVertex size wl
  wl_edge : isEdgeCell size wl
  wl_ne_start : wl ≠ start
  wl_ne_end : wl ≠ end_
  n_ne_p : n ≠ p
  between : (wl.y = p.y ∧ wl.y = n.y ∧ ((wl.x = p.x + 1 ∧ n.x = wl.x + 1) ∨ (p.x = wl.x + 1 ∧ wl.x = n.x + 1))) ∨
    (wl.x = p.x ∧ wl.x = n.x ∧ ((wl.y = p.y + 1 ∧ n.y = wl.y + 1) ∨ (p.y = wl.y + 1 ∧ wl.y = n.y + 1)))

/-- The shape of the points chosen before the walk. -/
structure SetupShape (size start end_ p : Point) : Prop where
  width : 2 ≤ size.x ∧ size.x ≤ 254
  height : 2 ≤ size.y ∧ size.y ≤ 254
  start_y : start.y = 0
  start_x : 0 < start.x ∧ start.x < size.x ∧ start.x % 2 = 1
  end_y : end_.y = size.y - 1
  end_x : 0 < end_.x ∧ end_.x < size.x ∧ end_.x % 2 = 1
  p_vertex : isVertex size p

/-- What holds of a grid, `start` and `end` returned by `generate_maze`: the
shape of `start` and `end`, and the walk invariant with `remain = 0` at some
final position. -/
structure Generated (size start end_ : Point) (g : Grid) : Prop where
  width : 2 ≤ size.x ∧ size.x ≤ 254
  height : 2 ≤ size.y ∧ size.y ≤ 254
  start_y : start.y = 0
  start_x : 0 < start.x ∧ start.x < size.x ∧ start.x % 2 = 1
  end_y : end_.y = size.y - 1
  end_x : 0 < end_.x ∧ end_.x < size.x ∧ end_.x % 2 = 1
  inv : ∃ p, MazeInv size start end_ (g, p, 0)

/-! ## A concrete run -/

/-- The run of the generator at width 5, height 5, seed 1. -/
def demoGenerated : RandState × Grid × Point × Point :=
  match generate_maze 100 (rand_seed ⟨0, 0, 0, 0⟩ 1) (fun _ _ => 0) ⟨5, 5⟩ with
  | .ok r => r
  | .error _ => (⟨0, 0, 0, 0⟩, fun _ _ => 0, ⟨0, 0⟩, ⟨0, 0⟩)

/-! ## Auxiliary definitions for the solver -/

/-- The grid with the cells of `l` set to `SOLUTION`. -/
def markSolution (g : Grid) (l : List Point) : Grid :=
  fun y x => if (⟨x, y⟩ : Point) ∈ l then SOLUTION else g y x

/-- What a call of `solve_maze` on grid `g` at `cur` returns, when the calls
above it are at the cells `rest` (innermost first): with result 0 the grid is
unchanged and no walk without immediate return leads on from `cur` to `end`;
with result 1 such a walk `ext` was found and its cells, `cur` included, are
marked. -/
def SolveSpec (g : Grid) (size end_ cur : Point) (rest : List Point)
    (res : Bool × Grid × List Event) : Prop :=
  (res.1 = false → res.2.1 = g ∧
    ∀ ext, Trail (passable g size) (ext ++ cur :: rest) →
      (ext ++ [cur]).head? = some end_ → False) ∧
  (res.1 = true → ∃ ext, Trail (passable g size) (ext ++ cur :: rest) ∧
    (ext ++ [cur]).head? = some end_ ∧ res.2.1 = markSolution g (ext ++ [cur]))

/-! ## Runs from different contents of the array -/

/-- Two grids that hold the same cells inside the rows and columns of `size`. -/
def agreeInside (size : Point) (g g1 : Grid) : Prop :=
  ∀ y x, inSize size y x → g y x = g1 y x

/-- Two runs that stop with the same abort, or return results related by `R`. -/
inductive sameRun {α : Type} (R : α → α → Prop) : Except Abort α → Except Abort α → Prop where
  | abort (e : Abort) : sameRun R (.error e) (.error e)
  | result (x y : α) (h : R x y) : sameRun R (.ok x) (.ok y)

/-- Results of the solver that differ at most in cells outside the size. -/
def sameSolve (size : Point) (r r1 : Bool × Grid × List Event) : Prop :=
  r.1 = r1.1 ∧ agreeInside size r.2.1 r1.2.1 ∧ r.2.2 = r1.2.2

/-! ## Reading the events of a run -/

/-- The event is a `render_maze_cell` call. -/
def Event.isCell : Event → Bool
  | .cell _ _ _ => true
  | _ => false

/-- The cells of the `render_solution` calls among the events, in emission order. -/
def solvedCells : List Event → List Point
  | [] => []
  | .solved x y :: tr => ⟨x, y⟩ :: solvedCells tr
  | _ :: tr => solvedCells tr

/-- The cells of the `render_move_in` calls among the events, in emission order. -/
def descendCells : List Event → List Point
  | [] => []
  | .descend x y :: tr => ⟨x, y⟩ :: descendCells tr
  | _ :: tr => descendCells tr

/-- The notification that closes a call of `solve_maze` at `cur`: `render_solution`
when the call returns 1, `render_move_out` when it returns 0. -/
def closing (found : Bool) (cur : Point) : Event :=
  if found then Event.solved cur.x cur.y else Event.backtrack cur.x cur.y

/-- What a call of `solve_maze` that returns does, on any grid `g`: `res` is the
returned flag, the grid left and the events emitted. -/
structure RunSpec (g : Grid) (size end_ cur : Point) (res : Bool × Grid × List Event) :
    Prop where
  cur_in : inSize size cur.y cur.x
  no_cell : ∀ e ∈ res.2.2, e.isCell = false
  on_wall : g cur.y cur.x = WALL → res = (false, g, [])
  bracket : g cur.y cur.x ≠ WALL → ∃ mid, res.2.2 =
      Event.descend cur.x cur.y :: (mid ++ [closing res.1 cur]) ∧
    mid.getLast? ≠ some (Event.solved cur.x cur.y) ∧
    mid.getLast? ≠ some (Event.backtrack cur.x cur.y)
  failed : res.1 = false → res.2.1 = g ∧ solvedCells res.2.2 = []
  found : res.1 = true →
    (solvedCells res.2.2).head? = some end_ ∧ (solvedCells res.2.2).getLast? = some cur ∧
    List.Chain' adjacent (solvedCells res.2.2) ∧
    (∀ c ∈ solvedCells res.2.2, inSize size c.y c.x ∧ g c.y c.x ≠ WALL) ∧
    res.2.1 = markSolution g (solvedCells res.2.2)

/-- The run of the solver on the maze generated for width 5, height 5, seed 1,
from `start` with no previous cell. -/
def demoSolved : Bool × Grid × List Event :=
  match solve_maze 26 demoGenerated.2.1 ⟨5, 5⟩ demoGenerated.2.2.1 none demoGenerated.2.2.2 with
  | .ok r => r
  | .error _ => (false, fun _ _ => 0, [])

/-- The cell events of a grid of `w` columns and `h` rows in row-major order,
as the specification words them: the `k`-th event, counting from 0, is for `x = k mod w`, `y = k div w`, with
the state of that cell. -/
def rowMajorCells (g : Grid) (w h : Nat) : List Event :=
  (List.range (w * h)).map fun (k : Nat) =>
    Event.cell ((k % w : Nat) : Int) ((k / w : Nat) : Int)
      (g ((k / w : Nat) : Int) ((k % w : Nat) : Int))

/-- The cells of the grid that do not hold `WALL`. -/
def nonWallCells (g : Grid) (size : Point) : Finset Point :=
  (gridCells size).filter (fun c => g c.y c.x ≠ WALL)

/-- A grid of 3 columns and 4 rows that is not a maze: the cells `(1, 2)`,
`(0, 2)`, `(0, 3)`, `(1, 3)` form a cycle below the cell `(1, 1)`, and `(2, 1)`
lies beside `(1, 1)`; every other cell is `WALL`. -/
def cycleGrid : Grid := fun y x =>
  if (x = 1 ∧ y = 1) ∨ (x = 2 ∧ y = 1) ∨ (x = 1 ∧ y = 2) ∨ (x = 0 ∧ y = 2) ∨
    (x = 0 ∧ y = 3) ∨ (x = 1 ∧ y = 3) then PASSAGE else WALL

/-! ## The iterations of the walk loop -/

/-- The iterations of the loop `while (remain > 0)` of `generate_maze` that are
entered, in order, as far as the fuel reaches: for each one the state at its
start (grid, position `p`, `remain`), the shuffled directions, and the state
after the scan of the directions. Follows `walk`. -/
def walkIterations : Nat → RandState → Grid → Point → Point → Int →
    List (WalkState × List Point × WalkState)
  | fuel, st, maze, size, p, remain =>
    if remain > 0 then
      match fuel with
      | 0 => []
      | fuel + 1 =>
        let sh := randomize_directions st [NORTH, EAST, SOUTH, WEST]
        match scanDirections maze size p remain sh.2 with
        | .error _ => []
        | .ok (maze1, p1, remain1) =>
          ((maze, p, remain), sh.2, (maze1, p1, remain1)) ::
            walkIterations fuel sh.1 maze1 size p1 remain1
    else []

/-- The iterations of the walk loop in a run of `generate_maze`. -/
def generateIterations (fuel : Nat) (st : RandState) (maze : Grid) (size : Point) :
    List (WalkState × List Point × WalkState) :=
  match generateSetup st maze size with
  | .error _ => []
  | .ok (st, maze, _, _, p, remain) => walkIterations fuel st maze size p remain

/-- The cells of the grid that hold `UNVISITED`. -/
def unvisitedCells (maze : Grid) (size : Point) : Finset Point :=
  (gridCells size).filter (fun c => maze c.y c.x = UNVISITED)

/-- A cell on the outer boundary of the grid: row 0, row `height - 1`,
column 0 or column `width - 1`. -/
def onBoundary (size c : Point) : Prop :=
  inSize size c.y c.x ∧ (c.y = 0 ∨ c.y = size.y - 1 ∨ c.x = 0 ∨ c.x = size.x - 1)

instance (size c : Point) : Decidable (onBoundary size c) := by
  unfold onBoundary; infer_instance

/-- Every cell holding `PASSAGE` that is not a vertex is `start`, `end` or a
cell that passes the bounds test of the walk. -/
def CarvedInside (size start end_ : Point) (s : WalkState) : Prop :=
  ∀ c : Point, inSize size c.y c.x → ¬ isVertex size c → s.1 c.y c.x = PASSAGE →
    c = start ∨ c = end_ ∨ wallInBounds size c

/-! ## The word and state spaces of the generator -/

/-- The 32-bit words. -/
def words32 : Set Nat := {a | a < 2 ^ 32}

/-- The 128-bit states: four 32-bit words. -/
def states128 : Set RandState :=
  {st | st.s0 < 2 ^ 32 ∧ st.s1 < 2 ^ 32 ∧ st.s2 < 2 ^ 32 ∧ st.s3 < 2 ^ 32}

/-! # Theorems -/

/-! ## The random number generator -/

theorem two_pow_32 : (2 : Nat) ^ 32 = 4294967296 := by norm_num

theorem splitmix32_eq (a : Nat) :
    splitmix32 a = (specMix (wrap32 (a + 0x9e3779b9)), wrap32 (a + 0x9e3779b9)) := by
  simp only [splitmix32, specMix, wrap32, two_pow_32]

theorem specAcc_succ (seed k : Nat) :
    wrap32 (specAcc seed k + 0x9e3779b9) = specAcc seed (k + 1) := by
  simp only [specAcc, wrap32, two_pow_32]
  omega

theorem specAcc_one (seed : Nat) : wrap32 (seed + 0x9e3779b9) = specAcc seed 1 := by
  simp only [specAcc, wrap32, two_pow_32, one_mul]

theorem rand_seed_eq (st : RandState) (seed : Nat) :
    rand_seed st seed =
      ⟨specMix (specAcc seed 1), specMix (specAcc seed 2),
        specMix (specAcc seed 3), specMix (specAcc seed 4)⟩ := by
  simp only [rand_seed, splitmix32_eq]
  rw [specAcc_one, specAcc_succ, specAcc_succ, specAcc_succ]

theorem rotl_eq (x k : Nat) : rotl x k = specRotl32 x k := by
  simp only [rotl, specRotl32, wrap32, two_pow_32]

theorem rand_next_eq (st : RandState) :
    rand_next st = (specNextOutput st, specNextState st) := by
  simp only [rand_next, specNextOutput, specNextState, rotl_eq, wrap32, two_pow_32]
  congr 2
  · rw [Nat.xor_assoc, Nat.xor_comm st.s3, ← Nat.xor_assoc]
  · rw [Nat.xor_assoc]

/-- C10: `rand_seed` sets the four state words to the splitmix32 outputs of the
accumulators `seed + k * 0x9e3779b9` (k = 1..4, modulo 2^32), whatever the
state was before; `rand_next` returns `rotl32(s1*5, 7)*9` and leaves the state
`(s0^s3^s1, s1^s2^s0, s2^s0^(s1<<9), rotl32(s3^s1, 11))`; for seed 0 the first
four outputs are 3809008728, 1133695204, 53579671, 2891528803. -/
theorem rand_seed_next_bit_exact :
    (∀ (st : RandState) (seed : Nat), rand_seed st seed =
      ⟨specMix (specAcc seed 1), specMix (specAcc seed 2),
        specMix (specAcc seed 3), specMix (specAcc seed 4)⟩) ∧
    (∀ st : RandState, rand_next st = (specNextOutput st, specNextState st)) ∧
    (∀ st : RandState, randOutputs 4 (rand_seed st 0) =
      [3809008728, 1133695204, 53579671, 2891528803]) := by
  refine ⟨rand_seed_eq, rand_next_eq, fun st => ?_⟩
  have h : rand_seed st 0 = rand_seed ⟨0, 0, 0, 0⟩ 0 := by
    rw [rand_seed_eq, rand_seed_eq]
  rw [h]
  decide

/-! ## The shuffle -/

theorem swap4_perm (a b c d : Point) (i j : Nat) (hi : i < 4) (hj : j < 4) :
    (swapDirections [a, b, c, d] i j).Perm [a, b, c, d] := by
  interval_cases i <;> interval_cases j <;> simp [swapDirections] <;>
    (rw [List.perm_iff_count]; intro x; simp only [List.count_cons, List.count_nil]; omega)

theorem shuffleWith_perm (a b c d : Point) (j3 j2 j1 : Nat) (h3 : j3 < 4) (h2 : j2 < 3)
    (h1 : j1 < 2) : (shuffleWith [a, b, c, d] j3 j2 j1).Perm [a, b, c, d] := by
  unfold shuffleWith
  obtain ⟨a1, b1, c1, d1, e1⟩ :
      ∃ a1 b1 c1 d1, swapDirections [a, b, c, d] 3 j3 = [a1, b1, c1, d1] := by
    interval_cases j3 <;> simp [swapDirections]
  have p1 := swap4_perm a b c d 3 j3 (by omega) (by omega)
  rw [e1] at p1 ⊢
  obtain ⟨a2, b2, c2, d2, e2⟩ :
      ∃ a2 b2 c2 d2, swapDirections [a1, b1, c1, d1] 2 j2 = [a2, b2, c2, d2] := by
    interval_cases j2 <;> simp [swapDirections]
  have p2 := swap4_perm a1 b1 c1 d1 2 j2 (by omega) (by omega)
  rw [e2] at p2 ⊢
  exact (swap4_perm a2 b2 c2 d2 1 j1 (by omega) (by omega)).trans (p2.trans p1)

theorem randomize_directions_eq (st : RandState) (l : List Point) :
    randomize_directions st l =
      ((rand_next (rand_next (rand_next st).2).2).2,
        shuffleWith l ((rand_next st).1 % 4) ((rand_next (rand_next st).2).1 % 3)
          ((rand_next (rand_next (rand_next st).2).2).1 % 2)) := by
  simp [randomize_directions, randomizeLoop, shuffleWith]

theorem randomize_directions_perm4 (st : RandState) (a b c d : Point) :
    (randomize_directions st [a, b, c, d]).2.Perm [a, b, c, d] := by
  rw [randomize_directions_eq]
  exact shuffleWith_perm a b c d _ _ _ (Nat.mod_lt _ (by decide)) (Nat.mod_lt _ (by decide))
    (Nat.mod_lt _ (by decide))

/-- C8: for every generator state and every array of four points,
`randomize_directions` leaves a permutation of its input: the same four points,
possibly in another order. -/
theorem randomize_directions_is_permutation (st : RandState) (a b c d : Point) :
    (randomize_directions st [a, b, c, d]).2.Perm [a, b, c, d] ∧
      (randomize_directions st [a, b, c, d]).2.length = 4 := by
  have h := randomize_directions_perm4 st a b c d
  exact ⟨h, by simpa using h.length_eq⟩

theorem shuffleIdx_injective : ∀ t u : Draws,
    shuffleIdx t.1 t.2.1 t.2.2 = shuffleIdx u.1 u.2.1 u.2.2 → t = u := by
  decide

theorem shuffleIdx_surjective : ∀ w x y z : Fin 4, [w, x, y, z].Perm [0, 1, 2, 3] →
    ∃ t : Draws, shuffleIdx t.1 t.2.1 t.2.2 = [w, x, y, z] := by
  decide

theorem shuffleWith_eq_map (a b c d : Point) (t : Draws) :
    shuffleWith [a, b, c, d] t.1 t.2.1 t.2.2 =
      (shuffleIdx t.1 t.2.1 t.2.2).map (fun i => [a, b, c, d].get i) := by
  obtain ⟨j3, j2, j1⟩ := t
  fin_cases j3 <;> fin_cases j2 <;> fin_cases j1 <;> rfl

theorem perm_four_exists (a b c d : Point) (l : List Point) (h : l.Perm [a, b, c, d]) :
    ∃ w x y z : Fin 4, [w, x, y, z].Perm [0, 1, 2, 3] ∧
      l = [w, x, y, z].map (fun i => [a, b, c, d].get i) := by
  have hm : [a, b, c, d] =
      ([0, 1, 2, 3] : List (Fin 4)).map (fun i => [a, b, c, d].get i) := rfl
  have h1 : l ∈ ([a, b, c, d] : List Point).permutations := List.mem_permutations.2 h
  rw [hm, ← List.map_permutations, List.mem_map] at h1
  obtain ⟨σ, hσ, rfl⟩ := h1
  have hp := List.mem_permutations.1 hσ
  have hl := hp.length_eq
  match σ, hl with
  | [w, x, y, z], _ => exact ⟨w, x, y, z, hp, rfl⟩

/-- C9: for four pairwise distinct points the map from the reduced draws
`(j3, j2, j1)` with `j3 < 4`, `j2 < 3`, `j1 < 2` to the arrangement the shuffle
leaves is a bijection onto the permutations of the input: every triple gives a
permutation, every permutation comes from exactly one triple, and
`randomize_directions` is the shuffle at such a triple. -/
theorem shuffle_draws_bijective (a b c d : Point) (hd : [a, b, c, d].Nodup) :
    (∀ t : Draws, (shuffleWith [a, b, c, d] t.1 t.2.1 t.2.2).Perm [a, b, c, d]) ∧
    (∀ l : List Point, l.Perm [a, b, c, d] →
      ∃! t : Draws, shuffleWith [a, b, c, d] t.1 t.2.1 t.2.2 = l) ∧
    (∀ st : RandState,
      (randomize_directions st [a, b, c, d]).2 =
        shuffleWith [a, b, c, d] ((rand_next st).1 % 4)
          ((rand_next (rand_next st).2).1 % 3)
          ((rand_next (rand_next (rand_next st).2).2).1 % 2)) ∧
    ([a, b, c, d] : List Point).permutations.length = 24 := by
  have hinj : Function.Injective (fun i => [a, b, c, d].get i) :=
    List.nodup_iff_injective_get.1 hd
  refine ⟨fun t => shuffleWith_perm a b c d _ _ _ t.1.2 t.2.1.2 t.2.2.2, ?_, ?_, ?_⟩
  · intro l hl
    obtain ⟨w, x, y, z, hp, rfl⟩ := perm_four_exists a b c d l hl
    obtain ⟨t, ht⟩ := shuffleIdx_surjective w x y z hp
    refine ⟨t, ?_, ?_⟩
    · show shuffleWith [a, b, c, d] t.1 t.2.1 t.2.2 = _
      rw [shuffleWith_eq_map, ht]
    · intro u hu
      have hu1 : shuffleWith [a, b, c, d] u.1 u.2.1 u.2.2 = _ := hu
      rw [shuffleWith_eq_map, ← ht] at hu1
      exact shuffleIdx_injective u t (List.map_injective_iff.2 hinj hu1)
  · intro st
    rw [randomize_directions_eq]
  · simp [List.length_permutations, Nat.factorial]

/-- The shuffle bijection at the four directions of the walk. -/
theorem shuffle_draws_bijective_witness :
    [NORTH, EAST, SOUTH, WEST].Nodup ∧
    ((∀ t : Draws, (shuffleWith [NORTH, EAST, SOUTH, WEST] t.1 t.2.1 t.2.2).Perm
        [NORTH, EAST, SOUTH, WEST]) ∧
    (∀ l : List Point, l.Perm [NORTH, EAST, SOUTH, WEST] →
      ∃! t : Draws, shuffleWith [NORTH, EAST, SOUTH, WEST] t.1 t.2.1 t.2.2 = l) ∧
    (∀ st : RandState,
      (randomize_directions st [NORTH, EAST, SOUTH, WEST]).2 =
        shuffleWith [NORTH, EAST, SOUTH, WEST] ((rand_next st).1 % 4)
          ((rand_next (rand_next st).2).1 % 3)
          ((rand_next (rand_next (rand_next st).2).2).1 % 2)) ∧
    ([NORTH, EAST, SOUTH, WEST] : List Point).permutations.length = 24) :=
  ⟨by decide, shuffle_draws_bijective NORTH EAST SOUTH WEST (by decide)⟩

/-! ## The generator: the part before the walk -/

theorem toShort_id (v : Int) (h1 : -32768 ≤ v) (h2 : v < 32768) : toShort v = v := by
  unfold toShort; omega

theorem toU16_id (v : Int) (h1 : 0 ≤ v) (h2 : v < 65536) : toU16 v = v := by
  unfold toU16; omega

theorem writeCell_ok (maze : Grid) (size : Point) (y x : Int) (v : Nat)
    (h : inSize size y x) (hs : size.x ≤ 254 ∧ size.y ≤ 254) :
    writeCell maze size y x v = .ok (setCell maze y x v) := by
  have ha : inArray y x := by
    unfold inSize at h; unfold inArray MAX_WIDTH MAX_HEIGHT; omega
  simp [writeCell, ha, h]

theorem readCell_ok (maze : Grid) (size : Point) (y x : Int)
    (h : inSize size y x) (hs : size.x ≤ 254 ∧ size.y ≤ 254) :
    readCell maze size y x = .ok (maze y x) := by
  have ha : inArray y x := by
    unfold inSize at h; unfold inArray MAX_WIDTH MAX_HEIGHT; omega
  simp [readCell, ha, h]

theorem ok_bind {ε α β : Type} (a : α) (f : α → Except ε β) :
    (Except.ok a >>= f) = f a := rfl

theorem error_bind {ε α β : Type} (e : ε) (f : α → Except ε β) :
    (Except.error e >>= f) = Except.error e := rfl

theorem bind_ok_pure {ε α : Type} (x : Except ε α) : (x >>= pure) = x := by
  cases x <;> rfl

theorem fillColumn_ok (size : Point) (hs : size.x ≤ 254 ∧ size.y ≤ 254) (x : Int)
    (hx : 0 ≤ x ∧ x < size.x) (n : Nat) (hn : (n : Int) ≤ size.y) (m : Grid) :
    (List.range n).foldlM (fun m (y : Nat) => writeCell m size (y : Int) x WALL) m =
      .ok (fun y1 x1 => if x1 = x ∧ 0 ≤ y1 ∧ y1 < n then WALL else m y1 x1) := by
  induction n with
  | zero =>
    simp only [List.range_zero, List.foldlM_nil]
    show Except.ok m = _
    congr 1; funext y1 x1
    rw [if_neg]; omega
  | succ n ih =>
    rw [List.range_succ, List.foldlM_append, ih (by omega)]
    simp only [List.foldlM_cons, List.foldlM_nil, ok_bind, bind_ok_pure]
    rw [writeCell_ok _ _ _ _ _ (by unfold inSize; omega) hs]
    congr 1; funext y1 x1
    simp only [setCell]
    split_ifs <;> first | rfl | omega

theorem fillWalls_aux (size : Point) (hs : size.x ≤ 254 ∧ size.y ≤ 254) (hy : 0 ≤ size.y)
    (n : Nat) (hn : (n : Int) ≤ size.x) (m : Grid) :
    (List.range n).foldlM
      (fun m (x : Nat) => (List.range size.y.toNat).foldlM
        (fun m (y : Nat) => writeCell m size (y : Int) (x : Int) WALL) m) m =
      .ok (fun y1 x1 => if 0 ≤ x1 ∧ x1 < n ∧ 0 ≤ y1 ∧ y1 < size.y then WALL else m y1 x1) := by
  induction n with
  | zero =>
    simp only [List.range_zero, List.foldlM_nil]
    show Except.ok m = _
    congr 1; funext y1 x1
    rw [if_neg]; omega
  | succ n ih =>
    rw [List.range_succ, List.foldlM_append, ih (by omega)]
    simp only [List.foldlM_cons, List.foldlM_nil, ok_bind, bind_ok_pure]
    rw [fillColumn_ok size hs n (by omega) size.y.toNat (by omega)]
    congr 1; funext y1 x1
    split_ifs <;> first | rfl | omega

theorem fillWalls_ok (maze : Grid) (size : Point) (hs : size.x ≤ 254 ∧ size.y ≤ 254)
    (h0 : 0 ≤ size.x ∧ 0 ≤ size.y) :
    fillWalls maze size =
      .ok (fun y1 x1 => if inSize size y1 x1 then WALL else maze y1 x1) := by
  unfold fillWalls
  rw [fillWalls_aux size hs h0.2 size.x.toNat (by omega)]
  congr 1; funext y1 x1
  unfold inSize
  split_ifs <;> first | rfl | omega

theorem markColumn_ok (size : Point) (hs : size.x ≤ 254 ∧ size.y ≤ 254) (x : Int)
    (hx : 0 ≤ x ∧ x < size.x) (n : Nat) (hn : 2 * (n : Int) ≤ size.y) (m : Grid) :
    (List.range n).foldlM (fun m (j : Nat) => writeCell m size (2 * (j : Int) + 1) x UNVISITED) m =
      .ok (fun y1 x1 => if x1 = x ∧ 0 ≤ y1 ∧ y1 < 2 * n ∧ y1 % 2 = 1 then UNVISITED
        else m y1 x1) := by
  induction n with
  | zero =>
    simp only [List.range_zero, List.foldlM_nil]
    show Except.ok m = _
    congr 1; funext y1 x1
    rw [if_neg]; omega
  | succ n ih =>
    rw [List.range_succ, List.foldlM_append, ih (by omega)]
    simp only [List.foldlM_cons, List.foldlM_nil, ok_bind, bind_ok_pure]
    rw [writeCell_ok _ _ _ _ _ (by unfold inSize; omega) hs]
    congr 1; funext y1 x1
    simp only [setCell]
    split_ifs <;> first | rfl | omega

theorem markUnvisited_aux (size : Point) (hs : size.x ≤ 254 ∧ size.y ≤ 254) (hy : 0 ≤ size.y)
    (n : Nat) (hn : 2 * (n : Int) ≤ size.x) (m : Grid) :
    (List.range n).foldlM
      (fun m (i : Nat) => (List.range (size.y.toNat / 2)).foldlM
        (fun m (j : Nat) =>
          writeCell m size (2 * (j : Int) + 1) (2 * (i : Int) + 1) UNVISITED) m) m =
      .ok (fun y1 x1 => if 0 ≤ x1 ∧ x1 < 2 * n ∧ x1 % 2 = 1 ∧ 0 ≤ y1 ∧ y1 < size.y ∧ y1 % 2 = 1
        then UNVISITED else m y1 x1) := by
  induction n with
  | zero =>
    simp only [List.range_zero, List.foldlM_nil]
    show Except.ok m = _
    congr 1; funext y1 x1
    rw [if_neg]; omega
  | succ n ih =>
    rw [List.range_succ, List.foldlM_append, ih (by omega)]
    simp only [List.foldlM_cons, List.foldlM_nil, ok_bind, bind_ok_pure]
    rw [markColumn_ok size hs (2 * (n : Int) + 1) (by omega) (size.y.toNat / 2) (by omega)]
    congr 1; funext y1 x1
    split_ifs <;> first | rfl | omega

theorem toU32_pos (d : Int) (hd : 0 ≤ d) (hd2 : d < 4294967296) : toU32 d = d.toNat := by
  unfold toU32
  congr 1
  omega

theorem randMod_ok (st : RandState) (d : Int) (hd : 0 < d) (hd2 : d < 4294967296) :
    randMod st d = .ok ((rand_next st).1 % d.toNat, (rand_next st).2) := by
  unfold randMod
  rw [toU32_pos d (by omega) hd2]
  have : d.toNat ≠ 0 := by omega
  simp [this]

theorem randMod_zero (st : RandState) : randMod st 0 = .error .remainderByZero := by
  simp [randMod, toU32]

theorem oddCoord_eq (r : Nat) (hr : r < 16383) : oddCoord r = 2 * (r : Int) + 1 := by
  unfold oddCoord wrap32 toShort
  omega

theorem generateSetup_ok (st : RandState) (maze : Grid) (w h : Int)
    (hw : 2 ≤ w ∧ w ≤ 254) (hh : 2 ≤ h ∧ h ≤ 254) :
    ∃ (a b c d : Nat) (st1 : RandState),
      (a : Int) < w / 2 ∧ (b : Int) < w / 2 ∧ (c : Int) < w / 2 ∧ (d : Int) < h / 2 ∧
      generateSetup st maze ⟨w, h⟩ =
        .ok (st1, setupGrid maze ⟨w, h⟩ ⟨2 * a + 1, 0⟩ ⟨2 * b + 1, h - 1⟩ ⟨2 * c + 1, 2 * d + 1⟩,
          ⟨2 * a + 1, 0⟩, ⟨2 * b + 1, h - 1⟩, ⟨2 * c + 1, 2 * d + 1⟩, w / 2 * (h / 2) - 1) := by
  have hw2 : Int.tdiv w 2 = w / 2 := Int.tdiv_eq_ediv (by omega) (by omega)
  have hh2 : Int.tdiv h 2 = h / 2 := Int.tdiv_eq_ediv (by omega) (by omega)
  have hwn : 0 < (w / 2).toNat := by omega
  have hhn : 0 < (h / 2).toNat := by omega
  have ha := Nat.mod_lt (rand_next st).1 hwn
  have hb := Nat.mod_lt (rand_next (rand_next st).2).1 hwn
  have hc := Nat.mod_lt (rand_next (rand_next (rand_next st).2).2).1 hwn
  have hd := Nat.mod_lt (rand_next (rand_next (rand_next (rand_next st).2).2).2).1 hhn
  refine ⟨(rand_next st).1 % (w / 2).toNat, (rand_next (rand_next st).2).1 % (w / 2).toNat,
    (rand_next (rand_next (rand_next st).2).2).1 % (w / 2).toNat,
    (rand_next (rand_next (rand_next (rand_next st).2).2).2).1 % (h / 2).toNat,
    (rand_next (rand_next (rand_next (rand_next st).2).2).2).2,
    by omega, by omega, by omega, by omega, ?_⟩
  have hs : (⟨w, h⟩ : Point).x ≤ 254 ∧ (⟨w, h⟩ : Point).y ≤ 254 := ⟨hw.2, hh.2⟩
  have hmul : 0 < w / 2 * (h / 2) ∧ w / 2 * (h / 2) < 65536 := by
    constructor
    · exact Int.mul_pos (by omega) (by omega)
    · have h1 : w / 2 ≤ 127 := by omega
      have h2 : h / 2 ≤ 127 := by omega
      have h3 : 0 ≤ w / 2 := by omega
      have h4 : 0 ≤ h / 2 := by omega
      nlinarith
  unfold generateSetup
  simp only [hw2, hh2]
  rw [fillWalls_ok maze ⟨w, h⟩ hs ⟨by show 0 ≤ w; omega, by show 0 ≤ h; omega⟩]
  simp only [ok_bind]
  rw [randMod_ok st (w / 2) (by omega) (by omega)]
  simp only [ok_bind]
  rw [oddCoord_eq _ (by omega)]
  rw [writeCell_ok _ _ _ _ _ (by unfold inSize; simp only; omega) hs]
  simp only [ok_bind]
  rw [randMod_ok _ (w / 2) (by omega) (by omega)]
  simp only [ok_bind]
  rw [oddCoord_eq _ (by omega), toShort_id (h - 1) (by omega) (by omega)]
  rw [writeCell_ok _ _ _ _ _ (by unfold inSize; simp only; omega) hs]
  simp only [ok_bind]
  unfold markUnvisited
  rw [markUnvisited_aux ⟨w, h⟩ hs (by show 0 ≤ h; omega) _ (by show 2 * ((w.toNat / 2 : Nat) : Int) ≤ w; omega)]
  simp only [ok_bind]
  rw [randMod_ok _ (w / 2) (by omega) (by omega)]
  simp only [ok_bind]
  rw [randMod_ok _ (h / 2) (by omega) (by omega)]
  simp only [ok_bind]
  rw [oddCoord_eq _ (by omega), oddCoord_eq _ (by omega)]
  rw [writeCell_ok _ _ _ _ _ (by unfold inSize; simp only; omega) hs]
  rw [toU16_id (w / 2 * (h / 2)) (by omega) (by omega), toU16_id _ (by omega) (by omega)]
  show Except.ok _ = Except.ok _
  congr 3
  funext y x
  simp only [setCell, setupGrid, inSize]
  split_ifs <;> first | rfl | omega

/-! ## The generator: one iteration of the walk -/

theorem dir_cases (d : Point) (hd : d ∈ [NORTH, EAST, SOUTH, WEST]) :
    (d.x = 0 ∧ d.y = -1) ∨ (d.x = -1 ∧ d.y = 0) ∨ (d.x = 0 ∧ d.y = 1) ∨ (d.x = 1 ∧ d.y = 0) := by
  simp only [List.mem_cons, List.mem_singleton, List.not_mem_nil, or_false] at hd
  rcases hd with rfl | rfl | rfl | rfl <;> simp [NORTH, EAST, SOUTH, WEST]

theorem neighbor_isVertex (size p d : Point) (hp : isVertex size p)
    (hd : d ∈ [NORTH, EAST, SOUTH, WEST]) (hb : wallInBounds size ⟨p.x + d.x, p.y + d.y⟩) :
    isVertex size ⟨p.x + d.x * 2, p.y + d.y * 2⟩ := by
  unfold isVertex inSize at *
  unfold wallInBounds at hb
  simp only at hb ⊢
  rcases dir_cases d hd with h | h | h | h <;> (rw [h.1, h.2] at hb ⊢; omega)

theorem wall_inSize (size p d : Point) (hp : isVertex size p)
    (_hd : d ∈ [NORTH, EAST, SOUTH, WEST]) (hb : wallInBounds size ⟨p.x + d.x, p.y + d.y⟩) :
    inSize size (p.y + d.y) (p.x + d.x) := by
  unfold isVertex inSize at *
  unfold wallInBounds at hb
  simp only at hb ⊢
  omega

theorem scanDirections_spec (maze : Grid) (size p : Point) (remain : Int)
    (hs : size.x ≤ 254 ∧ size.y ≤ 254) (hp : isVertex size p) (dirs : List Point)
    (hdirs : ∀ d ∈ dirs, d ∈ [NORTH, EAST, SOUTH, WEST]) :
    ∃ s, scanDirections maze size p remain dirs = .ok s ∧ WalkStep size (maze, p, remain) s := by
  induction dirs with
  | nil => exact ⟨_, rfl, WalkStep.stay _⟩
  | cons d rest ih =>
    have hd := hdirs d (List.mem_cons_self _ _)
    have hpb : 0 ≤ p.x ∧ p.x < 254 ∧ 0 ≤ p.y ∧ p.y < 254 := by
      unfold isVertex inSize at hp; omega
    have e1 : toShort (p.x + d.x) = p.x + d.x := by
      apply toShort_id <;> rcases dir_cases d hd with h | h | h | h <;> omega
    have e2 : toShort (p.y + d.y) = p.y + d.y := by
      apply toShort_id <;> rcases dir_cases d hd with h | h | h | h <;> omega
    have e3 : toShort (p.x + d.x * 2) = p.x + d.x * 2 := by
      apply toShort_id <;> rcases dir_cases d hd with h | h | h | h <;> omega
    have e4 : toShort (p.y + d.y * 2) = p.y + d.y * 2 := by
      apply toShort_id <;> rcases dir_cases d hd with h | h | h | h <;> omega
    unfold scanDirections
    simp only [e1, e2, e3, e4]
    by_cases hb : wallInBounds size ⟨p.x + d.x, p.y + d.y⟩
    · have hb' := hb
      unfold wallInBounds at hb'
      simp only at hb'
      rw [if_neg hb']
      have hn := neighbor_isVertex size p d hp hd hb
      have hw := wall_inSize size p d hp hd hb
      rw [readCell_ok _ _ _ _ hn.1 hs]
      simp only [ok_bind]
      by_cases hu : maze (p.y + d.y * 2) (p.x + d.x * 2) = UNVISITED
      · rw [if_pos hu, writeCell_ok _ _ _ _ _ hn.1 hs]
        simp only [ok_bind]
        rw [writeCell_ok _ _ _ _ _ hw hs]
        exact ⟨_, rfl, WalkStep.carve maze p remain d hd hb hu⟩
      · rw [if_neg hu]
        exact ⟨_, rfl, WalkStep.move maze p remain d hd hb hu⟩
    · have hb' := hb
      unfold wallInBounds at hb'
      simp only [not_not] at hb'
      rw [if_pos hb']
      exact ih (fun d hd => hdirs d (List.mem_cons_of_mem _ hd))

theorem walk_spec (size : Point) (hs : size.x ≤ 254 ∧ size.y ≤ 254)
    (I : WalkState → Prop) (hI : ∀ s, I s → isVertex size s.2.1)
    (hstep : ∀ s t, I s → 0 < s.2.2 → WalkStep size s t → I t) :
    ∀ (fuel : Nat) (st : RandState) (maze : Grid) (p : Point) (remain : Int),
      I (maze, p, remain) →
      walk fuel st maze size p remain = .error .outOfFuel ∨
      ∃ st1 maze1 p1 remain1, walk fuel st maze size p remain = .ok (st1, maze1) ∧
        I (maze1, p1, remain1) ∧ remain1 ≤ 0 := by
  intro fuel
  induction fuel with
  | zero =>
    intro st maze p remain hi
    unfold walk
    by_cases hr : remain > 0
    · left; simp [hr]
    · right; exact ⟨st, maze, p, remain, by simp [hr], hi, by omega⟩
  | succ fuel ih =>
    intro st maze p remain hi
    unfold walk
    by_cases hr : remain > 0
    · rw [if_pos hr]
      simp only
      obtain ⟨s, hs1, hs2⟩ := scanDirections_spec maze size p remain hs (hI _ hi)
        (randomize_directions st [NORTH, EAST, SOUTH, WEST]).2
        (fun d hd => (randomize_directions_perm4 st NORTH EAST SOUTH WEST).subset hd)
      rw [hs1]
      obtain ⟨maze2, p2, remain2⟩ := s
      exact ih _ maze2 p2 remain2 (hstep _ _ hi hr hs2)
    · right; exact ⟨st, maze, p, remain, by simp [hr], hi, by omega⟩

/-! ## Safety of the generator, rejection of bad sizes, determinism -/

theorem generate_maze_safe (fuel : Nat) (st : RandState) (maze : Grid) (w h : Int)
    (hw : 2 ≤ w ∧ w ≤ 254) (hh : 2 ≤ h ∧ h ≤ 254) :
    generate_maze fuel st maze ⟨w, h⟩ = .error .outOfFuel ∨
      ∃ r, generate_maze fuel st maze ⟨w, h⟩ = .ok r := by
  obtain ⟨a, b, c, d, st1, ha, hb, hc, hd, hsetup⟩ := generateSetup_ok st maze w h hw hh
  unfold generate_maze
  rw [hsetup]
  simp only [ok_bind]
  have hs : (⟨w, h⟩ : Point).x ≤ 254 ∧ (⟨w, h⟩ : Point).y ≤ 254 := ⟨hw.2, hh.2⟩
  rcases walk_spec ⟨w, h⟩ hs (fun s => isVertex ⟨w, h⟩ s.2.1) (fun s hI => hI)
      (fun s t hI _ hstep => by
        cases hstep with
        | stay => exact hI
        | carve maze p remain d hd hb hu => exact neighbor_isVertex _ p d hI hd hb
        | move maze p remain d hd hb hu => exact neighbor_isVertex _ p d hI hd hb)
      fuel st1 _ ⟨2 * c + 1, 2 * d + 1⟩ (w / 2 * (h / 2) - 1)
      (by unfold isVertex inSize; simp only; omega) with h1 | ⟨st2, maze2, p2, r2, h1, _, _⟩
  · left; rw [h1]; rfl
  · right; rw [h1]; exact ⟨_, rfl⟩

/-- C6, as amended: for every width and height in 2..254 and every generator
state (so for every seed) no step of `generate_maze` takes a remainder by zero
or indexes the grid outside rows `0..height-1` and columns `0..width-1`: the
run either ends with a result or is still walking when the fuel runs out. -/
theorem generate_maze_no_runtime_failure (fuel : Nat) (st : RandState) (maze : Grid)
    (w h : Int) (hw : 2 ≤ w ∧ w ≤ 254) (hh : 2 ≤ h ∧ h ≤ 254) :
    generate_maze fuel st maze ⟨w, h⟩ = .error .outOfFuel ∨
      ∃ r, generate_maze fuel st maze ⟨w, h⟩ = .ok r :=
  generate_maze_safe fuel st maze w h hw hh

/-- The amended safety statement at width 5, height 5, seed 1 and fuel 100. -/
theorem generate_maze_no_runtime_failure_witness :
    ((2 : Int) ≤ 5 ∧ (5 : Int) ≤ 254) ∧ ((2 : Int) ≤ 5 ∧ (5 : Int) ≤ 254) ∧
    (generate_maze 100 (rand_seed ⟨0, 0, 0, 0⟩ 1) (fun _ _ => 0) ⟨5, 5⟩ = .error .outOfFuel ∨
      ∃ r, generate_maze 100 (rand_seed ⟨0, 0, 0, 0⟩ 1) (fun _ _ => 0) ⟨5, 5⟩ = .ok r) :=
  ⟨by decide, by decide,
    generate_maze_no_runtime_failure 100 (rand_seed ⟨0, 0, 0, 0⟩ 1) (fun _ _ => 0) 5 5
      (by decide) (by decide)⟩

/-- With width 1 (height 2) and with height 1 (width 2), seed 0, the generator
takes a remainder by zero: `size->x / 2` respectively `size->y / 2` is 0. -/
theorem generate_maze_size_one_remainder_by_zero :
    generate_maze 0 (rand_seed ⟨0, 0, 0, 0⟩ 0) (fun _ _ => 0) ⟨1, 2⟩ =
      .error .remainderByZero ∧
    generate_maze 0 (rand_seed ⟨0, 0, 0, 0⟩ 0) (fun _ _ => 0) ⟨2, 1⟩ =
      .error .remainderByZero := by
  constructor <;> rfl

set_option maxRecDepth 100000 in
/-- C5 (the code at the failing inputs): `generate_and_solve_maze` has no check
of its dimensions. With width 3 and height 255 the fill loop writes
`maze[254][0]`, outside the array of 254 rows; with width 0 and height 0 the
first draw takes `rand_next() % 0`. Neither call is rejected. -/
theorem generate_and_solve_maze_bad_size_not_rejected :
    (∀ (fuel : Nat) (st : RandState) (maze : Grid),
      generate_and_solve_maze fuel st maze 3 255 0 = .error (.indexOutsideArray 0 254)) ∧
    (∀ (fuel : Nat) (st : RandState) (maze : Grid),
      generate_and_solve_maze fuel st maze 0 0 0 = .error .remainderByZero) :=
  ⟨fun _ _ _ => rfl, fun _ _ _ => rfl⟩

/-- C7: whatever `rand_state` holds when `generate_and_solve_maze` is entered,
the run with a given width, height and seed has the same outcome (status,
final grid, ordered events, or the same abort): `rand_seed` assigns all four
words from the seed alone. -/
theorem generate_and_solve_maze_deterministic (fuel : Nat) (st st1 : RandState)
    (maze : Grid) (width height seed : Int) :
    rand_seed st (toU32 seed) = rand_seed st1 (toU32 seed) ∧
    generate_and_solve_maze fuel st maze width height seed =
      generate_and_solve_maze fuel st1 maze width height seed := by
  have h : rand_seed st (toU32 seed) = rand_seed st1 (toU32 seed) := by
    rw [rand_seed_eq, rand_seed_eq]
  refine ⟨h, ?_⟩
  unfold generate_and_solve_maze
  simp only [h]

/-! ## Walks without immediate return; adding a leaf to a forest -/

theorem adjacent_symm {a b : Point} (h : adjacent a b) : adjacent b a := by
  unfold adjacent at *; omega

theorem adjacent_ne {a b : Point} (h : adjacent a b) : a ≠ b := by
  intro e; subst e; unfold adjacent at h; omega

theorem Trail.head_mem {P : Point → Prop} {a : Point} {l : List Point}
    (h : Trail P (a :: l)) : P a := by
  cases l with
  | nil => exact h
  | cons b t => exact h.1

theorem Trail.tail {P : Point → Prop} {a : Point} {l : List Point}
    (h : Trail P (a :: l)) : Trail P l := by
  cases l with
  | nil => trivial
  | cons b t => exact h.2.2.2

theorem Trail.all {P : Point → Prop} {l : List Point} (h : Trail P l) : ∀ c ∈ l, P c := by
  induction l with
  | nil => intro c hc; cases hc
  | cons a t ih =>
    intro c hc
    rcases List.mem_cons.1 hc with rfl | hc
    · exact h.head_mem
    · exact ih h.tail c hc

theorem Trail.restrict {P Q : Point → Prop} {l : List Point} (h : Trail Q l)
    (hall : ∀ c ∈ l, P c) : Trail P l := by
  induction l with
  | nil => trivial
  | cons a t ih =>
    cases t with
    | nil => exact hall a (List.mem_cons_self _ _)
    | cons b t =>
      exact ⟨hall a (List.mem_cons_self _ _), h.2.1, h.2.2.1,
        ih h.2.2.2 (fun c hc => hall c (List.mem_cons_of_mem _ hc))⟩

theorem Trail.mono {P Q : Point → Prop} {l : List Point} (h : Trail P l)
    (hPQ : ∀ c, P c → Q c) : Trail Q l :=
  h.restrict (fun c hc => hPQ c (h.all c hc))

theorem Trail.cons_of {P : Point → Prop} {a b : Point} {l : List Point}
    (h : Trail P l) (hb : P b) (hl : l.head? = some a) (hadj : adjacent b a) (hnot : b ∉ l) :
    Trail P (b :: l) := by
  cases l with
  | nil => cases hl
  | cons a1 t =>
    simp only [List.head?_cons, Option.some.injEq] at hl
    subst hl
    refine ⟨hb, hadj, ?_, h⟩
    intro e
    cases t with
    | nil => cases e
    | cons c t =>
      simp only [List.head?_cons, Option.some.injEq] at e
      subst e
      exact hnot (by simp)

theorem Trail.append_of {P : Point → Prop} {a b : Point} {l : List Point}
    (h : Trail P l) (hb : P b) (hl : l.getLast? = some a) (hadj : adjacent a b) (hnot : b ∉ l) :
    Trail P (l ++ [b]) := by
  induction l with
  | nil => cases hl
  | cons c t ih =>
    cases t with
    | nil =>
      simp only [List.getLast?_singleton, Option.some.injEq] at hl
      subst hl
      exact ⟨h, hadj, by simp, hb⟩
    | cons d t =>
      have hl1 : (d :: t).getLast? = some a := by
        rw [List.getLast?_cons_cons] at hl; exact hl
      have ih1 := ih h.2.2.2 hl1 (fun hm => hnot (List.mem_cons_of_mem _ hm))
      refine ⟨h.1, h.2.1, ?_, ih1⟩
      cases t with
      | nil =>
        intro e
        have e1 : b = c := by simpa using e
        subst e1; exact hnot (by simp)
      | cons e t => exact h.2.2.1

/-- Splitting a trail of the enlarged graph that starts away from the new cell. -/
theorem Trail.split_leaf {P : Point → Prop} {leaf : Point}
    (huniq : ∀ a b, P a → P b → adjacent leaf a → adjacent leaf b → a = b)
    (t : List Point) : ∀ (a : Point), a ≠ leaf → Trail (fun c => P c ∨ c = leaf) (a :: t) →
      Trail P (a :: t) ∨
      ∃ m y, t = m ++ [leaf] ∧ Trail P (a :: m) ∧ (a :: m).getLast? = some y ∧ adjacent y leaf := by
  induction t with
  | nil =>
    intro a ha h
    left
    rcases h with h | h
    · exact h
    · exact absurd h ha
  | cons b t ih =>
    intro a ha h
    have hPa : P a := by
      rcases h.1 with h1 | h1
      · exact h1
      · exact absurd h1 ha
    by_cases hb : b = leaf
    · subst hb
      cases t with
      | nil => right; exact ⟨[], a, rfl, hPa, rfl, h.2.1⟩
      | cons c t =>
        exfalso
        have hc : c ≠ a := by
          intro e; apply h.2.2.1; simp [e]
        have hadj : adjacent b c := h.2.2.2.2.1
        have hPc : P c := by
          rcases h.2.2.2.tail.head_mem with h1 | h1
          · exact h1
          · exact absurd h1.symm (adjacent_ne hadj)
        exact hc (huniq c a hPc hPa hadj (adjacent_symm h.2.1))
    · rcases ih b hb h.2.2.2 with h1 | ⟨m, y, hm, h1, h2, h3⟩
      · left; exact ⟨hPa, h.2.1, h.2.2.1, h1⟩
      · right
        refine ⟨b :: m, y, by rw [hm]; rfl, ⟨hPa, h.2.1, ?_, h1⟩, ?_, h3⟩
        · cases m with
          | nil => simp
          | cons c m =>
            have := h.2.2.1
            rw [hm] at this
            exact this
        · rw [List.getLast?_cons_cons]; exact h2

theorem Forest.add_leaf_forest {P : Point → Prop} {leaf : Point} (hF : Forest P) (hleaf : ¬ P leaf)
    (huniq : ∀ a b, P a → P b → adjacent leaf a → adjacent leaf b → a = b) :
    Forest (fun c => P c ∨ c = leaf) := by
  intro l hl
  cases l with
  | nil => exact List.nodup_nil
  | cons a t =>
    have hnot : ∀ l1 : List Point, Trail P l1 → leaf ∉ l1 := fun l1 h1 hm => hleaf (h1.all _ hm)
    by_cases ha : a = leaf
    · subst ha
      cases t with
      | nil => simp
      | cons b t =>
        have hadj : adjacent a b := hl.2.1
        have hb : b ≠ a := fun e => adjacent_ne hadj e.symm
        rcases Trail.split_leaf huniq t b hb hl.2.2.2 with h1 | ⟨m, y, hm, h1, h2, h3⟩
        · exact List.nodup_cons.2 ⟨hnot _ h1, hF _ h1⟩
        · exfalso
          have hPb : P b := h1.head_mem
          have hPy : P y := h1.all y (List.mem_of_getLast?_eq_some h2)
          have hyb : y = b := huniq y b hPy hPb (adjacent_symm h3) hadj
          subst hyb
          cases m with
          | nil =>
            apply hl.2.2.1
            rw [hm]; rfl
          | cons c m =>
            rw [List.getLast?_cons_cons] at h2
            have hmem : y ∈ c :: m := List.mem_of_getLast?_eq_some h2
            exact (List.nodup_cons.1 (hF _ h1)).1 hmem
    · rcases Trail.split_leaf huniq t a ha hl with h1 | ⟨m, y, hm, h1, h2, h3⟩
      · exact hF _ h1
      · have hnd := hF _ h1
        have hn := hnot _ h1
        rw [hm, ← List.cons_append]
        rw [List.nodup_append]
        refine ⟨hnd, by simp, ?_⟩
        intro c hc1 hc2
        simp only [List.mem_singleton] at hc2
        subst hc2
        exact hn hc1

theorem Joined.add_leaf_joined {P : Point → Prop} {leaf a : Point} (hJ : Joined P) (hleaf : ¬ P leaf)
    (ha : P a) (hadj : adjacent leaf a) : Joined (fun c => P c ∨ c = leaf) := by
  have hmono : ∀ l, Trail P l → Trail (fun c => P c ∨ c = leaf) l :=
    fun l h => h.mono (fun c hc => Or.inl hc)
  have hnot : ∀ l1 : List Point, Trail P l1 → leaf ∉ l1 := fun l1 h1 hm => hleaf (h1.all _ hm)
  intro u v hu hv
  rcases hu with hu | hu <;> rcases hv with hv | hv
  · obtain ⟨l, h1, h2, h3⟩ := hJ u v hu hv
    exact ⟨l, hmono l h1, h2, h3⟩
  · subst hv
    obtain ⟨l, h1, h2, h3⟩ := hJ u a hu ha
    refine ⟨l ++ [v], (hmono l h1).append_of (Or.inr rfl) h3 (adjacent_symm hadj) (hnot l h1),
      ?_, by simp⟩
    cases l with
    | nil => cases h2
    | cons c l => simpa using h2
  · subst hu
    obtain ⟨l, h1, h2, h3⟩ := hJ a v ha hv
    refine ⟨u :: l, (hmono l h1).cons_of (Or.inr rfl) h2 hadj (hnot l h1), by simp, ?_⟩
    cases l with
    | nil => cases h2
    | cons c l => rw [List.getLast?_cons_cons]; exact h3
  · exact ⟨[u], Or.inr hu, rfl, by rw [hu, hv]; rfl⟩

/-! ## The walk invariant: one carving step -/

theorem mem_gridCells (size c : Point) : c ∈ gridCells size ↔ inSize size c.y c.x := by
  unfold gridCells inSize
  simp only [Finset.mem_image, Finset.mem_product, Finset.mem_range, Prod.exists]
  constructor
  · rintro ⟨a, b, ⟨ha, hb⟩, rfl⟩
    simp only
    omega
  · intro h
    refine ⟨c.x.toNat, c.y.toNat, ⟨by omega, by omega⟩, ?_⟩
    cases c with
    | mk x y =>
      simp only at h ⊢
      congr 1 <;> omega

theorem carve_get (g : Grid) (ny nx wy wx y x : Int) :
    setCell (setCell g ny nx PASSAGE) wy wx PASSAGE y x =
      if (y = wy ∧ x = wx) ∨ (y = ny ∧ x = nx) then PASSAGE else g y x := by
  unfold setCell
  split_ifs <;> first | rfl | (exfalso; tauto)

theorem carveFacts_of (size start end_ : Point) (g : Grid) (p d : Point)
    (hstart : start.y = 0) (hend : end_.y = size.y - 1)
    (hp : isVertex size p) (hd : d ∈ [NORTH, EAST, SOUTH, WEST])
    (hb : wallInBounds size ⟨p.x + d.x, p.y + d.y⟩) :
    CarveFacts size start end_ g p ⟨p.x + d.x * 2, p.y + d.y * 2⟩ ⟨p.x + d.x, p.y + d.y⟩ := by
  have hn := neighbor_isVertex size p d hp hd hb
  have hw := wall_inSize size p d hp hd hb
  have hb1 := hb
  unfold wallInBounds at hb1
  simp only at hb1
  have hp1 := hp
  unfold isVertex inSize at hp1
  refine ⟨hn, hp, hw, ?_, ?_, ?_, ?_, ?_, ?_⟩
  · unfold isVertex inSize; simp only
    rcases dir_cases d hd with h | h | h | h <;> (rw [h.1, h.2]; omega)
  · unfold isEdgeCell isVertex inSize; simp only
    rcases dir_cases d hd with h | h | h | h <;> (rw [h.1, h.2] at hb1 ⊢; omega)
  · intro e
    have : p.y + d.y = start.y := congrArg Point.y e
    omega
  · intro e
    have : p.y + d.y = end_.y := congrArg Point.y e
    omega
  · intro e
    have e1 : p.x + d.x * 2 = p.x := congrArg Point.x e
    have e2 : p.y + d.y * 2 = p.y := congrArg Point.y e
    rcases dir_cases d hd with h | h | h | h <;> omega
  · simp only
    rcases dir_cases d hd with h | h | h | h <;> (rw [h.1, h.2]; omega)
theorem carve_mono (g : Grid) (ny nx wy wx y x : Int) (h : g y x = PASSAGE) :
    setCell (setCell g ny nx PASSAGE) wy wx PASSAGE y x = PASSAGE := by
  rw [carve_get]; split_ifs <;> first | rfl | exact h

theorem point_eq {a b : Point} (hx : a.x = b.x) (hy : a.y = b.y) : a = b := by
  cases a; cases b; simp only at hx hy; subst hx; subst hy; rfl

theorem carve_basic (size start end_ : Point) (g : Grid) (p n wl : Point) (r : Int)
    (inv : MazeInv size start end_ (g, p, r)) (F : CarveFacts size start end_ g p n wl) :
    let g1 := setCell (setCell g n.y n.x PASSAGE) wl.y wl.x PASSAGE
    g1 n.y n.x = PASSAGE ∧
    (∀ c, isVertex size c → g1 c.y c.x = PASSAGE ∨ g1 c.y c.x = UNVISITED) ∧
    (∀ c, inSize size c.y c.x → ¬ isVertex size c → g1 c.y c.x = PASSAGE ∨ g1 c.y c.x = WALL) ∧
    g1 start.y start.x = PASSAGE ∧
    (¬ isVertex size end_ → g1 end_.y end_.x = PASSAGE) ∧
    (∀ c, inSize size c.y c.x → ¬ isVertex size c → ¬ isEdgeCell size c →
      c ≠ start → c ≠ end_ → g1 c.y c.x = WALL) := by
  intro g1
  refine ⟨?_, ?_, ?_, ?_, ?_, ?_⟩
  · show setCell _ _ _ _ _ _ = _
    rw [carve_get]; simp
  · intro c hc
    show setCell _ _ _ _ _ _ = _ ∨ setCell _ _ _ _ _ _ = _
    rw [carve_get]
    split_ifs
    · left; rfl
    · exact inv.vertex_state c hc
  · intro c hc hv
    show setCell _ _ _ _ _ _ = _ ∨ setCell _ _ _ _ _ _ = _
    rw [carve_get]
    split_ifs
    · left; rfl
    · exact inv.other_state c hc hv
  · exact carve_mono _ _ _ _ _ _ _ inv.start_open
  · intro h; exact carve_mono _ _ _ _ _ _ _ (inv.end_open h)
  · intro c hc hv he h1 h2
    show setCell _ _ _ _ _ _ = _
    rw [carve_get]
    split_ifs with h3
    · exfalso
      rcases h3 with h3 | h3
      · exact he (point_eq h3.2 h3.1 ▸ F.wl_edge)
      · exact hv (point_eq h3.2 h3.1 ▸ F.n_vertex)
    · exact inv.closed c hc hv he h1 h2

theorem carve_edge_ends_h (size start end_ : Point) (g : Grid) (p n wl : Point) (r : Int)
    (inv : MazeInv size start end_ (g, p, r)) (F : CarveFacts size start end_ g p n wl)
    (c : Point) (h1 : isVertex size ⟨c.x - 1, c.y⟩) (h2 : isVertex size ⟨c.x + 1, c.y⟩)
    (h3 : setCell (setCell g n.y n.x PASSAGE) wl.y wl.x PASSAGE c.y c.x = PASSAGE) :
    setCell (setCell g n.y n.x PASSAGE) wl.y wl.x PASSAGE c.y (c.x - 1) = PASSAGE ∧
    setCell (setCell g n.y n.x PASSAGE) wl.y wl.x PASSAGE c.y (c.x + 1) = PASSAGE := by
  have hn := F.n_vertex
  have hp := F.p_vertex
  have hpo : g p.y p.x = PASSAGE := inv.pos_open
  unfold isVertex inSize at h1 h2 hn hp
  simp only at h1 h2
  rw [carve_get] at h3
  by_cases hc : (c.y = wl.y ∧ c.x = wl.x) ∨ (c.y = n.y ∧ c.x = n.x)
  · rcases hc with hc | hc
    · rcases F.between with hbt | hbt
      · have e1 : (c.y = p.y ∧ c.x - 1 = p.x ∧ c.y = n.y ∧ c.x + 1 = n.x) ∨
            (c.y = p.y ∧ c.x + 1 = p.x ∧ c.y = n.y ∧ c.x - 1 = n.x) := by omega
        rcases e1 with e1 | e1
        · constructor
          · rw [e1.1, e1.2.1]; exact carve_mono _ _ _ _ _ _ _ hpo
          · rw [carve_get, if_pos (Or.inr ⟨e1.2.2.1, e1.2.2.2⟩)]
        · constructor
          · rw [carve_get, if_pos (Or.inr ⟨e1.2.2.1, e1.2.2.2⟩)]
          · rw [e1.1, e1.2.1]; exact carve_mono _ _ _ _ _ _ _ hpo
      · exfalso; omega
    · exfalso; omega
  · rw [if_neg hc] at h3
    have := inv.edge_ends_h c (by unfold isVertex inSize; simp only; omega)
      (by unfold isVertex inSize; simp only; omega) h3
    exact ⟨carve_mono _ _ _ _ _ _ _ this.1, carve_mono _ _ _ _ _ _ _ this.2⟩

theorem carve_edge_ends_v (size start end_ : Point) (g : Grid) (p n wl : Point) (r : Int)
    (inv : MazeInv size start end_ (g, p, r)) (F : CarveFacts size start end_ g p n wl)
    (c : Point) (h1 : isVertex size ⟨c.x, c.y - 1⟩) (h2 : isVertex size ⟨c.x, c.y + 1⟩)
    (h3 : setCell (setCell g n.y n.x PASSAGE) wl.y wl.x PASSAGE c.y c.x = PASSAGE) :
    setCell (setCell g n.y n.x PASSAGE) wl.y wl.x PASSAGE (c.y - 1) c.x = PASSAGE ∧
    setCell (setCell g n.y n.x PASSAGE) wl.y wl.x PASSAGE (c.y + 1) c.x = PASSAGE := by
  have hn := F.n_vertex
  have hp := F.p_vertex
  have hpo : g p.y p.x = PASSAGE := inv.pos_open
  unfold isVertex inSize at h1 h2 hn hp
  simp only at h1 h2
  rw [carve_get] at h3
  by_cases hc : (c.y = wl.y ∧ c.x = wl.x) ∨ (c.y = n.y ∧ c.x = n.x)
  · rcases hc with hc | hc
    · rcases F.between with hbt | hbt
      · exfalso; omega
      · have e1 : (c.x = p.x ∧ c.y - 1 = p.y ∧ c.x = n.x ∧ c.y + 1 = n.y) ∨
            (c.x = p.x ∧ c.y + 1 = p.y ∧ c.x = n.x ∧ c.y - 1 = n.y) := by omega
        rcases e1 with e1 | e1
        · constructor
          · rw [e1.1, e1.2.1]; exact carve_mono _ _ _ _ _ _ _ hpo
          · rw [carve_get, if_pos (Or.inr ⟨e1.2.2.2, e1.2.2.1⟩)]
        · constructor
          · rw [carve_get, if_pos (Or.inr ⟨e1.2.2.2, e1.2.2.1⟩)]
          · rw [e1.1, e1.2.1]; exact carve_mono _ _ _ _ _ _ _ hpo
    · exfalso; omega
  · rw [if_neg hc] at h3
    have := inv.edge_ends_v c (by unfold isVertex inSize; simp only; omega)
      (by unfold isVertex inSize; simp only; omega) h3
    exact ⟨carve_mono _ _ _ _ _ _ _ this.1, carve_mono _ _ _ _ _ _ _ this.2⟩
theorem carve_wall_closed (size start end_ : Point) (g : Grid) (p n wl : Point) (r : Int)
    (inv : MazeInv size start end_ (g, p, r)) (F : CarveFacts size start end_ g p n wl)
    (hu : g n.y n.x = UNVISITED) : g wl.y wl.x = WALL := by
  rcases inv.other_state wl F.wl_in F.wl_not_vertex with h | h
  · exfalso
    have hn := F.n_vertex
    have hp := F.p_vertex
    unfold isVertex inSize at hn hp
    have hne : UNVISITED ≠ PASSAGE := by decide
    rcases F.between with hbt | hbt
    · have := inv.edge_ends_h wl (by unfold isVertex inSize; simp only; omega)
        (by unfold isVertex inSize; simp only; omega) h
      rcases hbt.2.2 with hb | hb
      · have e : g n.y n.x = PASSAGE := by
          have := this.2
          rw [hbt.2.1, ← hb.2] at this
          exact this
        rw [hu] at e; exact hne e
      · have e : g n.y n.x = PASSAGE := by
          have := this.1
          rw [hbt.2.1, hb.2] at this
          simpa using this
        rw [hu] at e; exact hne e
    · have := inv.edge_ends_v wl (by unfold isVertex inSize; simp only; omega)
        (by unfold isVertex inSize; simp only; omega) h
      rcases hbt.2.2 with hb | hb
      · have e : g n.y n.x = PASSAGE := by
          have := this.2
          rw [hbt.2.1, ← hb.2] at this
          exact this
        rw [hu] at e; exact hne e
      · have e : g n.y n.x = PASSAGE := by
          have := this.1
          rw [hbt.2.1, hb.2] at this
          simpa using this
        rw [hu] at e; exact hne e
  · exact h

theorem carve_unvisited (size start end_ : Point) (g : Grid) (p n wl : Point)
    (F : CarveFacts size start end_ g p n wl) :
    unvisitedVertices (setCell (setCell g n.y n.x PASSAGE) wl.y wl.x PASSAGE) size =
      (unvisitedVertices g size).erase n := by
  ext c
  simp only [unvisitedVertices, Finset.mem_filter, Finset.mem_erase, carve_get]
  have hne : PASSAGE ≠ UNVISITED := by decide
  constructor
  · rintro ⟨h1, h2, h3⟩
    split_ifs at h3 with h4
    · exact absurd h3 hne
    · refine ⟨?_, h1, h2, h3⟩
      intro e; subst e; exact h4 (Or.inr ⟨rfl, rfl⟩)
  · rintro ⟨h0, h1, h2, h3⟩
    refine ⟨h1, h2, ?_⟩
    rw [if_neg]
    · exact h3
    · rintro (h4 | h4)
      · exact F.wl_not_vertex (point_eq h4.2 h4.1 ▸ h2)
      · exact h0 (point_eq h4.2 h4.1)

theorem carve_edges (size start end_ : Point) (g : Grid) (p n wl : Point)
    (F : CarveFacts size start end_ g p n wl) :
    carvedEdges (setCell (setCell g n.y n.x PASSAGE) wl.y wl.x PASSAGE) size =
      insert wl (carvedEdges g size) := by
  ext c
  simp only [carvedEdges, Finset.mem_filter, Finset.mem_insert, carve_get]
  have hnv := F.n_vertex
  constructor
  · rintro ⟨h1, h2, h3⟩
    split_ifs at h3 with h4
    · rcases h4 with h4 | h4
      · left; exact point_eq h4.2 h4.1
      · exfalso
        have e : c = n := point_eq h4.2 h4.1
        subst e
        unfold isEdgeCell isVertex inSize at h2
        unfold isVertex inSize at hnv
        simp only at h2
        omega
    · right; exact ⟨h1, h2, h3⟩
  · rintro (h | ⟨h1, h2, h3⟩)
    · subst h
      exact ⟨(mem_gridCells _ _).2 F.wl_in, F.wl_edge, by simp⟩
    · refine ⟨h1, h2, ?_⟩
      split_ifs
      · rfl
      · exact h3

theorem gridCells_card_le (size : Point) (hs : size.x ≤ 254 ∧ size.y ≤ 254) :
    (gridCells size).card ≤ 64516 := by
  unfold gridCells
  refine le_trans Finset.card_image_le ?_
  rw [Finset.card_product, Finset.card_range, Finset.card_range]
  have h1 : size.x.toNat ≤ 254 := by omega
  have h2 : size.y.toNat ≤ 254 := by omega
  calc size.x.toNat * size.y.toNat ≤ 254 * 254 := Nat.mul_le_mul h1 h2
    _ = 64516 := by norm_num

theorem carve_counts (size start end_ : Point) (g : Grid) (p n wl : Point) (r : Int)
    (hs : size.x ≤ 254 ∧ size.y ≤ 254)
    (inv : MazeInv size start end_ (g, p, r)) (F : CarveFacts size start end_ g p n wl)
    (hu : g n.y n.x = UNVISITED) :
    let g1 := setCell (setCell g n.y n.x PASSAGE) wl.y wl.x PASSAGE
    toU16 (r - 1) = ((unvisitedVertices g1 size).card : Int) ∧
    (carvedEdges g1 size).card + (unvisitedVertices g1 size).card + 1 = (vertexSet size).card := by
  intro g1
  have hmem : n ∈ unvisitedVertices g size := by
    simp only [unvisitedVertices, Finset.mem_filter]
    exact ⟨(mem_gridCells _ _).2 F.n_vertex.1, F.n_vertex, hu⟩
  have hnot : wl ∉ carvedEdges g size := by
    simp only [carvedEdges, Finset.mem_filter]
    rintro ⟨_, _, h⟩
    rw [carve_wall_closed size start end_ g p n wl r inv F hu] at h
    exact absurd h (by decide)
  have h1 : (unvisitedVertices g1 size).card = (unvisitedVertices g size).card - 1 := by
    show (unvisitedVertices (setCell _ _ _ _) size).card = _
    rw [carve_unvisited size start end_ g p n wl F, Finset.card_erase_of_mem hmem]
  have h2 : (carvedEdges g1 size).card = (carvedEdges g size).card + 1 := by
    show (carvedEdges (setCell _ _ _ _) size).card = _
    rw [carve_edges size start end_ g p n wl F, Finset.card_insert_of_not_mem hnot]
  have hpos : 0 < (unvisitedVertices g size).card := Finset.card_pos.2 ⟨n, hmem⟩
  have hle : (unvisitedVertices g size).card ≤ 64516 :=
    le_trans (Finset.card_le_card (Finset.filter_subset _ _)) (gridCells_card_le size hs)
  have hr : r = ((unvisitedVertices g size).card : Int) := inv.remain_eq
  have hc := inv.edge_count
  simp only at hc
  constructor
  · rw [h1, hr]; unfold toU16; omega
  · rw [h1, h2]; omega
theorem Forest.of_imp {P Q : Point → Prop} (hF : Forest P) (h : ∀ c, Q c → P c) : Forest Q :=
  fun l hl => hF l (hl.mono h)

theorem Joined.congr {P Q : Point → Prop} (hJ : Joined P) (h : ∀ c, P c ↔ Q c) : Joined Q := by
  intro u v hu hv
  obtain ⟨l, h1, h2, h3⟩ := hJ u v ((h u).2 hu) ((h v).2 hv)
  exact ⟨l, h1.mono (fun c hc => (h c).1 hc), h2, h3⟩

theorem Linked.carve {g : Grid} {size u v : Point} (ny nx wy wx : Int) (h : Linked g size u v) :
    Linked (setCell (setCell g ny nx PASSAGE) wy wx PASSAGE) size u v :=
  ⟨h.1, h.2.1, h.2.2.1, carve_mono _ _ _ _ _ _ _ h.2.2.2⟩

theorem carve_linked_new (size start end_ : Point) (g : Grid) (p n wl : Point)
    (F : CarveFacts size start end_ g p n wl) :
    Linked (setCell (setCell g n.y n.x PASSAGE) wl.y wl.x PASSAGE) size p n ∧
    Linked (setCell (setCell g n.y n.x PASSAGE) wl.y wl.x PASSAGE) size n p := by
  have hb := F.between
  have e1 : (p.y + n.y) / 2 = wl.y ∧ (p.x + n.x) / 2 = wl.x := by omega
  have e2 : (n.y + p.y) / 2 = wl.y ∧ (n.x + p.x) / 2 = wl.x := by omega
  refine ⟨⟨F.p_vertex, F.n_vertex, by omega, ?_⟩, ⟨F.n_vertex, F.p_vertex, by omega, ?_⟩⟩
  · rw [e1.1, e1.2, carve_get, if_pos (Or.inl ⟨rfl, rfl⟩)]
  · rw [e2.1, e2.2, carve_get, if_pos (Or.inl ⟨rfl, rfl⟩)]

theorem carve_linked (size start end_ : Point) (g : Grid) (p n wl : Point) (r : Int)
    (inv : MazeInv size start end_ (g, p, r)) (F : CarveFacts size start end_ g p n wl)
    (u v : Point) (hu : isVertex size u) (hv : isVertex size v)
    (hgu : setCell (setCell g n.y n.x PASSAGE) wl.y wl.x PASSAGE u.y u.x = PASSAGE)
    (hgv : setCell (setCell g n.y n.x PASSAGE) wl.y wl.x PASSAGE v.y v.x = PASSAGE) :
    Relation.ReflTransGen (Linked (setCell (setCell g n.y n.x PASSAGE) wl.y wl.x PASSAGE) size)
      u v := by
  have hold : ∀ a b, isVertex size a → isVertex size b → g a.y a.x = PASSAGE →
      g b.y b.x = PASSAGE →
      Relation.ReflTransGen (Linked (setCell (setCell g n.y n.x PASSAGE) wl.y wl.x PASSAGE) size)
        a b := fun a b ha hb hga hgb =>
    Relation.ReflTransGen.mono (fun x y hxy => hxy.carve _ _ _ _) (inv.linked a b ha hb hga hgb)
  have hcase : ∀ a, isVertex size a →
      setCell (setCell g n.y n.x PASSAGE) wl.y wl.x PASSAGE a.y a.x = PASSAGE →
      a = n ∨ g a.y a.x = PASSAGE := by
    intro a ha hga
    rw [carve_get] at hga
    split_ifs at hga with h
    · rcases h with h | h
      · exact absurd (point_eq h.2 h.1 ▸ ha) F.wl_not_vertex
      · left; exact point_eq h.2 h.1
    · right; exact hga
  have hnew := carve_linked_new size start end_ g p n wl F
  have hpo : g p.y p.x = PASSAGE := inv.pos_open
  rcases hcase u hu hgu with rfl | hu1 <;> rcases hcase v hv hgv with rfl | hv1
  · exact Relation.ReflTransGen.refl
  · exact Relation.ReflTransGen.head hnew.2 (hold p v F.p_vertex hv hpo hv1)
  · exact Relation.ReflTransGen.tail (hold u p hu F.p_vertex hu1 hpo) hnew.1
  · exact hold u v hu hv hu1 hv1

theorem carve_open_iff (size start end_ : Point) (g : Grid) (p n wl : Point)
    (F : CarveFacts size start end_ g p n wl) (c : Point) :
    openInner (setCell (setCell g n.y n.x PASSAGE) wl.y wl.x PASSAGE) size c ↔
      ((openInner g size c ∨ c = wl) ∨ c = n) := by
  unfold openInner
  rw [carve_get]
  constructor
  · rintro ⟨h1, h2⟩
    split_ifs at h2 with h
    · rcases h with h | h
      · left; right; exact point_eq h.2 h.1
      · right; exact point_eq h.2 h.1
    · left; left; exact ⟨h1, h2⟩
  · rintro ((⟨h1, h2⟩ | h) | h)
    · refine ⟨h1, ?_⟩
      split_ifs
      · rfl
      · exact h2
    · subst h; exact ⟨Or.inr F.wl_edge, by simp⟩
    · subst h; exact ⟨Or.inl F.n_vertex, by simp⟩

theorem carve_wall_neighbour (size start end_ : Point) (g : Grid) (p n wl : Point)
    (F : CarveFacts size start end_ g p n wl) (hu : g n.y n.x = UNVISITED)
    (a : Point) (ha : openInner g size a) (hadj : adjacent wl a) : a = p := by
  have hn := F.n_vertex
  have hp := F.p_vertex
  have hb := F.between
  by_cases han : a.x = n.x ∧ a.y = n.y
  · exfalso
    have := ha.2
    rw [han.1, han.2, hu] at this
    exact absurd this (by decide)
  · have h1 := ha.1
    unfold isVertex isEdgeCell isVertex inSize at h1
    unfold isVertex inSize at hn hp
    unfold adjacent at hadj
    simp only at h1
    apply point_eq <;> omega

theorem carve_vertex_neighbour (size start end_ : Point) (g : Grid) (p n wl : Point) (r : Int)
    (inv : MazeInv size start end_ (g, p, r)) (F : CarveFacts size start end_ g p n wl)
    (hu : g n.y n.x = UNVISITED)
    (a : Point) (ha : openInner g size a) (hadj : adjacent n a) : False := by
  have hn := F.n_vertex
  have hne : UNVISITED ≠ PASSAGE := by decide
  have h1 := ha.1
  unfold isVertex isEdgeCell isVertex inSize at h1
  unfold isVertex inSize at hn
  unfold adjacent at hadj
  simp only at h1
  have hcase : (isVertex size ⟨a.x - 1, a.y⟩ ∧ isVertex size ⟨a.x + 1, a.y⟩ ∧ a.y = n.y ∧
      (a.x - 1 = n.x ∨ a.x + 1 = n.x)) ∨
      (isVertex size ⟨a.x, a.y - 1⟩ ∧ isVertex size ⟨a.x, a.y + 1⟩ ∧ a.x = n.x ∧
      (a.y - 1 = n.y ∨ a.y + 1 = n.y)) := by
    unfold isVertex inSize
    simp only
    omega
  rcases hcase with ⟨c1, c2, c3, c4⟩ | ⟨c1, c2, c3, c4⟩
  · have := inv.edge_ends_h a c1 c2 ha.2
    simp only at this
    rcases c4 with c4 | c4
    · rw [c3, c4, hu] at this; exact hne this.1
    · rw [c3, c4, hu] at this; exact hne this.2
  · have := inv.edge_ends_v a c1 c2 ha.2
    simp only at this
    rcases c4 with c4 | c4
    · rw [c3, c4, hu] at this; exact hne this.1
    · rw [c3, c4, hu] at this; exact hne this.2
theorem carve_forest_joined (size start end_ : Point) (g : Grid) (p n wl : Point) (r : Int)
    (inv : MazeInv size start end_ (g, p, r)) (F : CarveFacts size start end_ g p n wl)
    (hu : g n.y n.x = UNVISITED) :
    Forest (openInner (setCell (setCell g n.y n.x PASSAGE) wl.y wl.x PASSAGE) size) ∧
    Joined (openInner (setCell (setCell g n.y n.x PASSAGE) wl.y wl.x PASSAGE) size) := by
  have hwl : ¬ openInner g size wl := by
    intro h
    have := h.2
    rw [carve_wall_closed size start end_ g p n wl r inv F hu] at this
    exact absurd this (by decide)
  have hn1 : ¬ (openInner g size n ∨ n = wl) := by
    rintro (h | h)
    · have := h.2
      rw [hu] at this
      exact absurd this (by decide)
    · exact F.wl_not_vertex (h ▸ F.n_vertex)
  have hpo : openInner g size p := ⟨Or.inl F.p_vertex, inv.pos_open⟩
  have hadj1 : adjacent wl p := by
    have := F.between
    unfold adjacent; omega
  have hadj2 : adjacent n wl := by
    have := F.between
    unfold adjacent; omega
  have huniq1 : ∀ a b, openInner g size a → openInner g size b → adjacent wl a →
      adjacent wl b → a = b := fun a b ha hb h1 h2 =>
    (carve_wall_neighbour size start end_ g p n wl F hu a ha h1).trans
      (carve_wall_neighbour size start end_ g p n wl F hu b hb h2).symm
  have hn2 : ∀ a, (openInner g size a ∨ a = wl) → adjacent n a → a = wl := by
    rintro a (ha | ha) hadj
    · exact (carve_vertex_neighbour size start end_ g p n wl r inv F hu a ha hadj).elim
    · exact ha
  have huniq2 : ∀ a b, (openInner g size a ∨ a = wl) → (openInner g size b ∨ b = wl) →
      adjacent n a → adjacent n b → a = b := fun a b ha hb h1 h2 =>
    (hn2 a ha h1).trans (hn2 b hb h2).symm
  constructor
  · exact ((inv.forest.add_leaf_forest hwl huniq1).add_leaf_forest hn1 huniq2).of_imp
      (fun c hc => (carve_open_iff size start end_ g p n wl F c).1 hc)
  · exact ((inv.joined.add_leaf_joined hwl hpo hadj1).add_leaf_joined hn1 (Or.inr rfl)
      hadj2).congr
      (fun c => (carve_open_iff size start end_ g p n wl F c).symm)

theorem MazeInv.step (size start end_ : Point) (hs : size.x ≤ 254 ∧ size.y ≤ 254)
    (hstart : start.y = 0) (hend : end_.y = size.y - 1) (s t : WalkState)
    (inv : MazeInv size start end_ s) (hstep : WalkStep size s t) :
    MazeInv size start end_ t := by
  cases hstep with
  | stay => exact inv
  | move g p r d hd hb hu =>
    have hn := neighbor_isVertex size p d inv.pos_vertex hd hb
    have hopen : g (p.y + d.y * 2) (p.x + d.x * 2) = PASSAGE := by
      rcases inv.vertex_state _ hn with h | h
      · exact h
      · exact absurd h hu
    exact { inv with pos_vertex := hn, pos_open := hopen }
  | carve g p r d hd hb hu =>
    have F := carveFacts_of size start end_ g p d hstart hend inv.pos_vertex hd hb
    have hb1 := carve_basic size start end_ g p _ _ r inv F
    have hc := carve_counts size start end_ g p _ _ r hs inv F hu
    have hfj := carve_forest_joined size start end_ g p _ _ r inv F hu
    exact {
      pos_vertex := F.n_vertex
      pos_open := hb1.1
      vertex_state := hb1.2.1
      other_state := hb1.2.2.1
      start_open := hb1.2.2.2.1
      end_open := hb1.2.2.2.2.1
      closed := hb1.2.2.2.2.2
      edge_ends_h := fun c h1 h2 h3 =>
        carve_edge_ends_h size start end_ g p _ _ r inv F c h1 h2 h3
      edge_ends_v := fun c h1 h2 h3 =>
        carve_edge_ends_v size start end_ g p _ _ r inv F c h1 h2 h3
      remain_eq := hc.1
      edge_count := hc.2
      linked := fun u v h1 h2 h3 h4 =>
        carve_linked size start end_ g p _ _ r inv F u v h1 h2 h3 h4
      forest := hfj.1
      joined := hfj.2 }

/-! ## The walk invariant holds when the walk starts -/

theorem vertexSet_eq_image (size : Point) :
    vertexSet size = (Finset.range (size.x / 2).toNat ×ˢ Finset.range (size.y / 2).toNat).image
      (fun c => (⟨2 * (c.1 : Int) + 1, 2 * (c.2 : Int) + 1⟩ : Point)) := by
  ext c
  simp only [vertexSet, Finset.mem_filter, mem_gridCells, Finset.mem_image, Finset.mem_product,
    Finset.mem_range, Prod.exists]
  unfold isVertex inSize
  constructor
  · rintro ⟨_, h⟩
    refine ⟨(c.x / 2).toNat, (c.y / 2).toNat, ⟨by omega, by omega⟩, ?_⟩
    apply point_eq <;> simp only <;> omega
  · rintro ⟨i, j, ⟨hi, hj⟩, rfl⟩
    simp only
    omega

theorem vertexSet_card (size : Point) :
    (vertexSet size).card = (size.x / 2).toNat * (size.y / 2).toNat := by
  rw [vertexSet_eq_image, Finset.card_image_of_injective, Finset.card_product,
    Finset.card_range, Finset.card_range]
  intro a b hab
  have h1 := congrArg Point.x hab
  have h2 := congrArg Point.y hab
  simp only at h1 h2
  apply Prod.ext <;> omega

theorem Forest.empty : Forest (fun _ => False) := by
  intro l hl
  cases l with
  | nil => exact List.nodup_nil
  | cons a t => exact (hl.head_mem).elim

theorem setupGrid_cases (maze : Grid) (size start end_ p : Point)
    (S : SetupShape size start end_ p) (c : Point) (hc : inSize size c.y c.x) :
    (c = p ∧ setupGrid maze size start end_ p c.y c.x = PASSAGE) ∨
    (c ≠ p ∧ isVertex size c ∧ setupGrid maze size start end_ p c.y c.x = UNVISITED) ∨
    (¬ isVertex size c ∧ (c = start ∨ c = end_) ∧
      setupGrid maze size start end_ p c.y c.x = PASSAGE) ∨
    (¬ isVertex size c ∧ c ≠ start ∧ c ≠ end_ ∧
      setupGrid maze size start end_ p c.y c.x = WALL) := by
  have hp := S.p_vertex
  unfold isVertex inSize at hp
  unfold setupGrid
  by_cases h1 : c.y = p.y ∧ c.x = p.x
  · left; exact ⟨point_eq h1.2 h1.1, by rw [if_pos h1]⟩
  · right
    have hne : c ≠ p := fun e => h1 (by rw [e]; exact ⟨rfl, rfl⟩)
    rw [if_neg h1]
    by_cases h2 : 0 ≤ c.x ∧ c.x < size.x ∧ c.x % 2 = 1 ∧ 0 ≤ c.y ∧ c.y < size.y ∧ c.y % 2 = 1
    · left; rw [if_pos h2]
      exact ⟨hne, by unfold isVertex inSize; omega, rfl⟩
    · right
      rw [if_neg h2]
      have hnv : ¬ isVertex size c := by unfold isVertex inSize; omega
      by_cases h3 : c.y = end_.y ∧ c.x = end_.x
      · left; rw [if_pos h3]
        exact ⟨hnv, Or.inr (point_eq h3.2 h3.1), rfl⟩
      · rw [if_neg h3]
        have hne2 : c ≠ end_ := fun e => h3 (by rw [e]; exact ⟨rfl, rfl⟩)
        by_cases h4 : c.y = start.y ∧ c.x = start.x
        · left; rw [if_pos h4]
          exact ⟨hnv, Or.inl (point_eq h4.2 h4.1), rfl⟩
        · right
          rw [if_neg h4, if_pos hc]
          exact ⟨hnv, fun e => h4 (by rw [e]; exact ⟨rfl, rfl⟩), hne2, rfl⟩
theorem setup_passage_cases (maze : Grid) (size start end_ p : Point)
    (S : SetupShape size start end_ p) (c : Point) (hc : inSize size c.y c.x)
    (h : setupGrid maze size start end_ p c.y c.x = PASSAGE) :
    c = p ∨ (¬ isVertex size c ∧ (c = start ∨ c = end_)) := by
  rcases setupGrid_cases maze size start end_ p S c hc with h1 | h1 | h1 | h1
  · left; exact h1.1
  · rw [h1.2.2] at h; exact absurd h (by decide)
  · right; exact ⟨h1.1, h1.2.1⟩
  · rw [h1.2.2.2] at h; exact absurd h (by decide)

theorem edge_inSize (size c : Point) (h : isEdgeCell size c) : inSize size c.y c.x := by
  unfold isEdgeCell isVertex inSize at *
  simp only at h
  omega

theorem setup_not_edge (size start end_ p : Point) (S : SetupShape size start end_ p)
    (c : Point) (hc : isEdgeCell size c) : c ≠ p ∧ c ≠ start ∧ c ≠ end_ ∧ ¬ isVertex size c := by
  have hp := S.p_vertex
  have h1 := S.start_y
  have h2 := S.start_x
  have h3 := S.end_y
  have h4 := S.end_x
  unfold isEdgeCell isVertex inSize at hc
  unfold isVertex inSize at hp
  simp only at hc
  refine ⟨?_, ?_, ?_, ?_⟩
  · intro e; subst e; omega
  · intro e; subst e; omega
  · intro e; subst e; omega
  · unfold isVertex inSize; omega

theorem setup_open_iff (maze : Grid) (size start end_ p : Point)
    (S : SetupShape size start end_ p) (c : Point) :
    openInner (setupGrid maze size start end_ p) size c ↔ c = p := by
  constructor
  · rintro ⟨h1, h2⟩
    rcases h1 with h1 | h1
    · rcases setup_passage_cases maze size start end_ p S c h1.1 h2 with h | h
      · exact h
      · exact absurd h1 h.1
    · have hn := setup_not_edge size start end_ p S c h1
      rcases setup_passage_cases maze size start end_ p S c (edge_inSize size c h1) h2 with h | h
      · exact absurd h hn.1
      · rcases h.2 with h | h
        · exact absurd h hn.2.1
        · exact absurd h hn.2.2.1
  · rintro rfl
    refine ⟨Or.inl S.p_vertex, ?_⟩
    unfold setupGrid
    rw [if_pos ⟨rfl, rfl⟩]

theorem MazeInv.init (maze : Grid) (size start end_ p : Point)
    (S : SetupShape size start end_ p) :
    MazeInv size start end_
      (setupGrid maze size start end_ p, p, size.x / 2 * (size.y / 2) - 1) := by
  have hcases := setupGrid_cases maze size start end_ p S
  have hpass := setup_passage_cases maze size start end_ p S
  have hopen := setup_open_iff maze size start end_ p S
  have hpo : setupGrid maze size start end_ p p.y p.x = PASSAGE := by
    unfold setupGrid; rw [if_pos ⟨rfl, rfl⟩]
  have hsin : inSize size start.y start.x := by
    have h1 := S.start_y; have h2 := S.start_x; have h3 := S.height
    unfold inSize; omega
  have hein : inSize size end_.y end_.x := by
    have h1 := S.end_y; have h2 := S.end_x; have h3 := S.height
    unfold inSize; omega
  have hsv : ¬ isVertex size start := by
    have h1 := S.start_y
    unfold isVertex; omega
  have hU : unvisitedVertices (setupGrid maze size start end_ p) size = (vertexSet size).erase p := by
    ext c
    simp only [unvisitedVertices, vertexSet, Finset.mem_filter, Finset.mem_erase, mem_gridCells]
    constructor
    · rintro ⟨h1, h2, h3⟩
      refine ⟨?_, h1, h2⟩
      rintro rfl
      rw [hpo] at h3
      exact absurd h3 (by decide)
    · rintro ⟨h1, h2, h3⟩
      refine ⟨h2, h3, ?_⟩
      rcases hcases c h2 with h | h | h | h
      · exact absurd h.1 h1
      · exact h.2.2
      · exact absurd h3 h.1
      · exact absurd h3 h.1
  have hE : carvedEdges (setupGrid maze size start end_ p) size = ∅ := by
    ext c
    simp only [carvedEdges, Finset.mem_filter, mem_gridCells, Finset.not_mem_empty, iff_false]
    rintro ⟨h1, h2, h3⟩
    have hn := setup_not_edge size start end_ p S c h2
    rcases hpass c h1 h3 with h | h
    · exact hn.1 h
    · rcases h.2 with h | h
      · exact hn.2.1 h
      · exact hn.2.2.1 h
  have hpmem : p ∈ vertexSet size := by
    simp only [vertexSet, Finset.mem_filter, mem_gridCells]
    exact ⟨S.p_vertex.1, S.p_vertex⟩
  have hVpos : 0 < (vertexSet size).card := Finset.card_pos.2 ⟨p, hpmem⟩
  have hV := vertexSet_card size
  refine {
    pos_vertex := S.p_vertex
    pos_open := hpo
    vertex_state := ?_
    other_state := ?_
    start_open := ?_
    end_open := ?_
    closed := ?_
    edge_ends_h := ?_
    edge_ends_v := ?_
    remain_eq := ?_
    edge_count := ?_
    linked := ?_
    forest := ?_
    joined := ?_ }
  · intro c hc
    rcases hcases c hc.1 with h | h | h | h
    · left; exact h.2
    · right; exact h.2.2
    · exact absurd hc h.1
    · exact absurd hc h.1
  · intro c hc hv
    rcases hcases c hc with h | h | h | h
    · exact absurd (h.1 ▸ S.p_vertex) hv
    · exact absurd h.2.1 hv
    · left; exact h.2.2
    · right; exact h.2.2.2
  · rcases hcases start hsin with h | h | h | h
    · exact h.2
    · exact absurd h.2.1 hsv
    · exact h.2.2
    · exact absurd rfl h.2.1
  · intro hv
    rcases hcases end_ hein with h | h | h | h
    · exact h.2
    · exact absurd h.2.1 hv
    · exact h.2.2
    · exact absurd rfl h.2.2.1
  · intro c hc hv he h1 h2
    rcases hcases c hc with h | h | h | h
    · exact absurd (h.1 ▸ S.p_vertex) hv
    · exact absurd h.2.1 hv
    · rcases h.2.1 with e | e
      · exact absurd e h1
      · exact absurd e h2
    · exact h.2.2.2
  · intro c h1 h2 h3
    exfalso
    have he : isEdgeCell size c := Or.inl ⟨h1, h2⟩
    have hn := setup_not_edge size start end_ p S c he
    rcases hpass c (edge_inSize size c he) h3 with h | h
    · exact hn.1 h
    · rcases h.2 with h | h
      · exact hn.2.1 h
      · exact hn.2.2.1 h
  · intro c h1 h2 h3
    exfalso
    have he : isEdgeCell size c := Or.inr ⟨h1, h2⟩
    have hn := setup_not_edge size start end_ p S c he
    rcases hpass c (edge_inSize size c he) h3 with h | h
    · exact hn.1 h
    · rcases h.2 with h | h
      · exact hn.2.1 h
      · exact hn.2.2.1 h
  · show size.x / 2 * (size.y / 2) - 1 = _
    rw [hU, Finset.card_erase_of_mem hpmem, hV]
    have hw := S.width
    have hh := S.height
    have e1 : ((size.x / 2).toNat : Int) = size.x / 2 := Int.toNat_of_nonneg (by omega)
    have e2 : ((size.y / 2).toNat : Int) = size.y / 2 := Int.toNat_of_nonneg (by omega)
    rw [hV] at hVpos
    rw [Nat.cast_sub hVpos, Nat.cast_mul, e1, e2]
    simp
  · show (carvedEdges _ size).card + (unvisitedVertices _ size).card + 1 = _
    rw [hU, hE, Finset.card_erase_of_mem hpmem]
    simp only [Finset.card_empty]
    omega
  · intro u v hu hv hgu hgv
    have e1 : u = p := (hopen u).1 ⟨Or.inl hu, hgu⟩
    have e2 : v = p := (hopen v).1 ⟨Or.inl hv, hgv⟩
    rw [e1, e2]
  · have hF : Forest (fun c => False ∨ c = p) :=
      Forest.empty.add_leaf_forest (fun h => h) (fun a b ha => ha.elim)
    exact hF.of_imp (fun c hc => Or.inr ((hopen c).1 hc))
  · intro u v hu hv
    have e1 : u = p := (hopen u).1 hu
    have e2 : v = p := (hopen v).1 hv
    rw [e1, e2]
    exact ⟨[p], (hopen p).2 rfl, rfl, rfl⟩

/-! ## What the generator returns -/

theorem generate_maze_generated (fuel : Nat) (st st1 : RandState) (maze g : Grid) (w h : Int)
    (start end_ : Point) (hw : 2 ≤ w ∧ w ≤ 254) (hh : 2 ≤ h ∧ h ≤ 254)
    (hgen : generate_maze fuel st maze ⟨w, h⟩ = .ok (st1, g, start, end_)) :
    Generated ⟨w, h⟩ start end_ g := by
  obtain ⟨a, b, c, d, st2, ha, hb, hc, hd, hsetup⟩ := generateSetup_ok st maze w h hw hh
  have hs : (⟨w, h⟩ : Point).x ≤ 254 ∧ (⟨w, h⟩ : Point).y ≤ 254 := ⟨hw.2, hh.2⟩
  have S : SetupShape ⟨w, h⟩ ⟨2 * a + 1, 0⟩ ⟨2 * b + 1, h - 1⟩ ⟨2 * c + 1, 2 * d + 1⟩ :=
    { width := hw
      height := hh
      start_y := rfl
      start_x := by simp only; omega
      end_y := rfl
      end_x := by simp only; omega
      p_vertex := by unfold isVertex inSize; simp only; omega }
  have hinit := MazeInv.init maze ⟨w, h⟩ _ _ _ S
  unfold generate_maze at hgen
  rw [hsetup] at hgen
  simp only [ok_bind] at hgen
  rcases walk_spec ⟨w, h⟩ hs (MazeInv ⟨w, h⟩ ⟨2 * a + 1, 0⟩ ⟨2 * b + 1, h - 1⟩)
      (fun s hI => hI.pos_vertex)
      (fun s t hI _ hstep => MazeInv.step _ _ _ hs rfl rfl s t hI hstep)
      fuel st2 _ _ _ hinit with h1 | ⟨st3, maze3, p3, r3, h1, h2, h3⟩
  · rw [h1] at hgen; cases hgen
  · rw [h1] at hgen
    simp only [ok_bind] at hgen
    have e : (st3, maze3, (⟨2 * a + 1, 0⟩ : Point), (⟨2 * b + 1, h - 1⟩ : Point)) =
        (st1, g, start, end_) := by
      injection hgen
    simp only [Prod.mk.injEq] at e
    obtain ⟨_, e2, e3, e4⟩ := e
    subst e2; subst e3; subst e4
    have hr : r3 = 0 := by
      have := h2.remain_eq
      simp only at this
      omega
    subst hr
    exact { width := hw
            height := hh
            start_y := rfl
            start_x := by simp only; omega
            end_y := rfl
            end_x := by simp only; omega
            inv := ⟨p3, h2⟩ }

/-! ## Start, end and the spanning tree -/

theorem Generated.vertex_open {size start end_ : Point} {g : Grid}
    (G : Generated size start end_ g) (c : Point) (hc : isVertex size c) :
    g c.y c.x = PASSAGE := by
  obtain ⟨p, inv⟩ := G.inv
  rcases inv.vertex_state c hc with h | h
  · exact h
  · exfalso
    have h0 : (unvisitedVertices g size).card = 0 := by
      have := inv.remain_eq
      simp only at this
      omega
    have hmem : c ∈ unvisitedVertices g size := by
      simp only [unvisitedVertices, Finset.mem_filter, mem_gridCells]
      exact ⟨hc.1, hc, h⟩
    rw [Finset.card_eq_zero] at h0
    rw [h0] at hmem
    exact absurd hmem (Finset.not_mem_empty _)

theorem Generated.start_open {size start end_ : Point} {g : Grid}
    (G : Generated size start end_ g) : g start.y start.x = PASSAGE := by
  obtain ⟨p, inv⟩ := G.inv
  exact inv.start_open

theorem Generated.end_open {size start end_ : Point} {g : Grid}
    (G : Generated size start end_ g) : g end_.y end_.x = PASSAGE := by
  obtain ⟨p, inv⟩ := G.inv
  by_cases h : isVertex size end_
  · exact G.vertex_open end_ h
  · exact inv.end_open h

theorem Generated.spanning {size start end_ : Point} {g : Grid}
    (G : Generated size start end_ g) :
    (∀ u v, isVertex size u → isVertex size v → Relation.ReflTransGen (Linked g size) u v) ∧
    ((carvedEdges g size).card : Int) = size.x / 2 * (size.y / 2) - 1 := by
  obtain ⟨p, inv⟩ := G.inv
  constructor
  · intro u v hu hv
    exact inv.linked u v hu hv (G.vertex_open u hu) (G.vertex_open v hv)
  · have h0 : (unvisitedVertices g size).card = 0 := by
      have := inv.remain_eq
      simp only at this
      omega
    have hc := inv.edge_count
    rw [h0, vertexSet_card] at hc
    have hw := G.width
    have hh := G.height
    have e1 : ((size.x / 2).toNat : Int) = size.x / 2 := Int.toNat_of_nonneg (by omega)
    have e2 : ((size.y / 2).toNat : Int) = size.y / 2 := Int.toNat_of_nonneg (by omega)
    have hc1 : (((carvedEdges g size).card + 0 + 1 : Nat) : Int) =
        (((size.x / 2).toNat * (size.y / 2).toNat : Nat) : Int) := by rw [hc]
    rw [Nat.cast_mul, e1, e2] at hc1
    push_cast at hc1
    omega

set_option maxRecDepth 100000 in
theorem demoGenerated_eq :
    generate_maze 100 (rand_seed ⟨0, 0, 0, 0⟩ 1) (fun _ _ => 0) ⟨5, 5⟩ = .ok demoGenerated := by
  rfl

/-- C4: for width and height in 2..254 and every seed, when `generate_maze`
returns, `start` has `y = 0`, `end` has `y = height - 1`, both have an odd `x`
between 1 and `width - 1`, and both cells hold `PASSAGE` in the returned grid
(also for even height, where the `end` cell was overwritten with `UNVISITED`). -/
theorem generate_maze_start_end (fuel : Nat) (st0 : RandState) (maze : Grid)
    (w h seed : Int) (r : RandState × Grid × Point × Point)
    (hw : 2 ≤ w ∧ w ≤ 254) (hh : 2 ≤ h ∧ h ≤ 254)
    (hgen : generate_maze fuel (rand_seed st0 (toU32 seed)) maze ⟨w, h⟩ = .ok r) :
    r.2.2.1.y = 0 ∧ r.2.2.2.y = h - 1 ∧
    (r.2.2.1.x % 2 = 1 ∧ 1 ≤ r.2.2.1.x ∧ r.2.2.1.x ≤ w - 1) ∧
    (r.2.2.2.x % 2 = 1 ∧ 1 ≤ r.2.2.2.x ∧ r.2.2.2.x ≤ w - 1) ∧
    r.2.1 r.2.2.1.y r.2.2.1.x = PASSAGE ∧ r.2.1 r.2.2.2.y r.2.2.2.x = PASSAGE := by
  obtain ⟨st1, g, start, end_⟩ := r
  have G := generate_maze_generated fuel _ st1 maze g w h start end_ hw hh hgen
  have h1 := G.start_x
  have h2 := G.end_x
  simp only at h1 h2
  exact ⟨G.start_y, G.end_y, by simp only; omega, by simp only; omega, G.start_open, G.end_open⟩

/-- The start and end of the maze generated for width 5, height 5, seed 1. -/
theorem generate_maze_start_end_witness :
    ((2 : Int) ≤ 5 ∧ (5 : Int) ≤ 254) ∧ ((2 : Int) ≤ 5 ∧ (5 : Int) ≤ 254) ∧
    generate_maze 100 (rand_seed ⟨0, 0, 0, 0⟩ (toU32 1)) (fun _ _ => 0) ⟨5, 5⟩ =
      .ok demoGenerated ∧
    (demoGenerated.2.2.1.y = 0 ∧ demoGenerated.2.2.2.y = 5 - 1 ∧
    (demoGenerated.2.2.1.x % 2 = 1 ∧ 1 ≤ demoGenerated.2.2.1.x ∧ demoGenerated.2.2.1.x ≤ 5 - 1) ∧
    (demoGenerated.2.2.2.x % 2 = 1 ∧ 1 ≤ demoGenerated.2.2.2.x ∧ demoGenerated.2.2.2.x ≤ 5 - 1) ∧
    demoGenerated.2.1 demoGenerated.2.2.1.y demoGenerated.2.2.1.x = PASSAGE ∧
    demoGenerated.2.1 demoGenerated.2.2.2.y demoGenerated.2.2.2.x = PASSAGE) :=
  ⟨by decide, by decide, demoGenerated_eq,
    generate_maze_start_end 100 ⟨0, 0, 0, 0⟩ (fun _ _ => 0) 5 5 1 demoGenerated
      (by decide) (by decide) demoGenerated_eq⟩

/-- C3: for width and height in 2..254 and every seed, when `generate_maze`
returns, the graph on the cells with both coordinates odd, with the `PASSAGE`
cells directly between two neighbouring vertices as edges, is connected and has
exactly `(width/2) * (height/2) - 1` edges. -/
theorem generate_maze_spanning_tree (fuel : Nat) (st0 : RandState) (maze : Grid)
    (w h seed : Int) (r : RandState × Grid × Point × Point)
    (hw : 2 ≤ w ∧ w ≤ 254) (hh : 2 ≤ h ∧ h ≤ 254)
    (hgen : generate_maze fuel (rand_seed st0 (toU32 seed)) maze ⟨w, h⟩ = .ok r) :
    (∀ u v, isVertex ⟨w, h⟩ u → isVertex ⟨w, h⟩ v →
      Relation.ReflTransGen (Linked r.2.1 ⟨w, h⟩) u v) ∧
    ((carvedEdges r.2.1 ⟨w, h⟩).card : Int) = w / 2 * (h / 2) - 1 := by
  obtain ⟨st1, g, start, end_⟩ := r
  exact (generate_maze_generated fuel _ st1 maze g w h start end_ hw hh hgen).spanning

/-- The maze generated for width 5, height 5, seed 1 is a spanning tree. -/
theorem generate_maze_spanning_tree_witness :
    ((2 : Int) ≤ 5 ∧ (5 : Int) ≤ 254) ∧ ((2 : Int) ≤ 5 ∧ (5 : Int) ≤ 254) ∧
    generate_maze 100 (rand_seed ⟨0, 0, 0, 0⟩ (toU32 1)) (fun _ _ => 0) ⟨5, 5⟩ =
      .ok demoGenerated ∧
    ((∀ u v, isVertex ⟨5, 5⟩ u → isVertex ⟨5, 5⟩ v →
      Relation.ReflTransGen (Linked demoGenerated.2.1 ⟨5, 5⟩) u v) ∧
    ((carvedEdges demoGenerated.2.1 ⟨5, 5⟩).card : Int) = 5 / 2 * (5 / 2) - 1) :=
  ⟨by decide, by decide, demoGenerated_eq,
    generate_maze_spanning_tree 100 ⟨0, 0, 0, 0⟩ (fun _ _ => 0) 5 5 1 demoGenerated
      (by decide) (by decide) demoGenerated_eq⟩

/-! ## The cells the solver can enter form a tree -/

theorem Generated.shape {size start end_ : Point} {g : Grid} (G : Generated size start end_ g)
    {p : Point} (inv : MazeInv size start end_ (g, p, 0)) : SetupShape size start end_ p :=
  { width := G.width, height := G.height, start_y := G.start_y, start_x := G.start_x,
    end_y := G.end_y, end_x := G.end_x, p_vertex := inv.pos_vertex }

theorem Generated.start_in {size start end_ : Point} {g : Grid}
    (G : Generated size start end_ g) : inSize size start.y start.x := by
  have h1 := G.start_y; have h2 := G.start_x; have h3 := G.height
  unfold inSize; omega

theorem Generated.end_in {size start end_ : Point} {g : Grid}
    (G : Generated size start end_ g) : inSize size end_.y end_.x := by
  have h1 := G.end_y; have h2 := G.end_x; have h3 := G.height
  unfold inSize; omega

theorem Generated.cell_state {size start end_ : Point} {g : Grid}
    (G : Generated size start end_ g) (c : Point) (hc : inSize size c.y c.x) :
    g c.y c.x = PASSAGE ∨ g c.y c.x = WALL := by
  obtain ⟨p, inv⟩ := G.inv
  by_cases hv : isVertex size c
  · left; exact G.vertex_open c hv
  · exact inv.other_state c hc hv

theorem Generated.passable_iff {size start end_ : Point} {g : Grid}
    (G : Generated size start end_ g) (c : Point) :
    passable g size c ↔ (openInner g size c ∨ c = start) ∨ c = end_ := by
  obtain ⟨p, inv⟩ := G.inv
  have hne : PASSAGE ≠ WALL := by decide
  constructor
  · rintro ⟨h1, h2⟩
    by_cases hv : isVertex size c
    · left; left; exact ⟨Or.inl hv, G.vertex_open c hv⟩
    · have hp : g c.y c.x = PASSAGE := by
        rcases inv.other_state c h1 hv with h | h
        · exact h
        · exact absurd h h2
      by_cases he : isEdgeCell size c
      · left; left; exact ⟨Or.inr he, hp⟩
      · by_cases hs : c = start
        · left; right; exact hs
        · by_cases hen : c = end_
          · right; exact hen
          · exact absurd (inv.closed c h1 hv he hs hen) h2
  · rintro ((h | h) | h)
    · refine ⟨?_, by rw [h.2]; exact hne⟩
      rcases h.1 with hv | he
      · exact hv.1
      · exact edge_inSize size c he
    · subst h; exact ⟨G.start_in, by rw [G.start_open]; exact hne⟩
    · subst h; exact ⟨G.end_in, by rw [G.end_open]; exact hne⟩

theorem Generated.start_neighbour {size start end_ : Point} {g : Grid}
    (G : Generated size start end_ g) (a : Point) (ha : openInner g size a)
    (hadj : adjacent start a) : a = ⟨start.x, 1⟩ := by
  have h1 := G.start_y; have h2 := G.start_x
  have h3 := ha.1
  unfold isEdgeCell isVertex inSize at h3
  unfold adjacent at hadj
  simp only at h3
  apply point_eq <;> simp only <;> omega

theorem Generated.end_neighbour {size start end_ : Point} {g : Grid}
    (G : Generated size start end_ g) (hv : ¬ isVertex size end_) (a : Point)
    (ha : openInner g size a ∨ a = start) (hadj : adjacent end_ a) :
    a = ⟨end_.x, size.y - 2⟩ := by
  have h1 := G.end_y; have h2 := G.end_x; have h4 := G.start_y; have h5 := G.height
  unfold isVertex inSize at hv
  unfold adjacent at hadj
  rcases ha with ha | ha
  · have h3 := ha.1
    unfold isEdgeCell isVertex inSize at h3
    simp only at h3
    apply point_eq <;> simp only <;> omega
  · subst ha
    exfalso; omega

theorem Generated.forest_joined {size start end_ : Point} {g : Grid}
    (G : Generated size start end_ g) :
    Forest (passable g size) ∧ Joined (passable g size) := by
  obtain ⟨p, inv⟩ := G.inv
  have S := G.shape inv
  have h1 := G.start_y; have h2 := G.start_x; have h3 := G.height
  have h4 := G.end_y; have h5 := G.end_x
  have hsv : ¬ isVertex size start := by unfold isVertex; omega
  have hs0 : ¬ openInner g size start := by
    rintro ⟨hv | he, _⟩
    · exact hsv hv
    · exact (setup_not_edge size start end_ p S start he).2.1 rfl
  have huniq1 : ∀ a b, openInner g size a → openInner g size b → adjacent start a →
      adjacent start b → a = b := fun a b ha hb h1 h2 =>
    (G.start_neighbour a ha h1).trans (G.start_neighbour b hb h2).symm
  have hbelow : openInner g size ⟨start.x, 1⟩ := by
    have hv : isVertex size ⟨start.x, 1⟩ := by unfold isVertex inSize; simp only; omega
    exact ⟨Or.inl hv, G.vertex_open _ hv⟩
  have hadj1 : adjacent start ⟨start.x, 1⟩ := Or.inl ⟨rfl, Or.inr (by show (1 : Int) = start.y + 1; omega)⟩
  have hF1 := inv.forest.add_leaf_forest hs0 huniq1
  have hJ1 := inv.joined.add_leaf_joined hs0 hbelow hadj1
  by_cases hev : isVertex size end_
  · have hiff : ∀ c, (openInner g size c ∨ c = start) ↔ passable g size c := by
      intro c
      rw [G.passable_iff]
      constructor
      · exact fun h => Or.inl h
      · rintro (h | h)
        · exact h
        · left; subst h; exact ⟨Or.inl hev, G.end_open⟩
    exact ⟨hF1.of_imp (fun c hc => (hiff c).2 hc), hJ1.congr hiff⟩
  · have he0 : ¬ (openInner g size end_ ∨ end_ = start) := by
      rintro (⟨hv | he, _⟩ | h)
      · exact hev hv
      · exact (setup_not_edge size start end_ p S end_ he).2.2.1 rfl
      · have := congrArg Point.y h
        omega
    have huniq2 : ∀ a b, (openInner g size a ∨ a = start) → (openInner g size b ∨ b = start) →
        adjacent end_ a → adjacent end_ b → a = b := fun a b ha hb h1 h2 =>
      (G.end_neighbour hev a ha h1).trans (G.end_neighbour hev b hb h2).symm
    have habove : openInner g size ⟨end_.x, size.y - 2⟩ := by
      have hv : isVertex size ⟨end_.x, size.y - 2⟩ := by
        unfold isVertex inSize at hev ⊢; simp only; omega
      exact ⟨Or.inl hv, G.vertex_open _ hv⟩
    have hadj2 : adjacent end_ ⟨end_.x, size.y - 2⟩ :=
      Or.inl ⟨rfl, Or.inl (by show end_.y = size.y - 2 + 1; omega)⟩
    have hiff : ∀ c, ((openInner g size c ∨ c = start) ∨ c = end_) ↔ passable g size c :=
      fun c => (G.passable_iff c).symm
    exact ⟨(hF1.add_leaf_forest he0 huniq2).of_imp (fun c hc => (hiff c).2 hc),
      (hJ1.add_leaf_joined he0 (Or.inl habove) hadj2).congr hiff⟩

/-! ## The solver -/

theorem points_eql_some (a : Point) (b : Option Point) :
    points_eql (some a) b = true ↔ b = some a := by
  cases b with
  | none => simp [points_eql]
  | some b =>
    simp only [points_eql, Bool.and_eq_true, beq_iff_eq, Option.some.injEq]
    constructor
    · rintro ⟨h1, h2⟩; exact (point_eq h1 h2).symm
    · rintro rfl; exact ⟨rfl, rfl⟩

theorem Trail.suffix {P : Point → Prop} (l1 l2 : List Point) (h : Trail P (l1 ++ l2)) :
    Trail P l2 := by
  induction l1 with
  | nil => exact h
  | cons a t ih => exact ih h.tail

theorem markSolution_snoc (g : Grid) (l : List Point) (c : Point) :
    setCell (markSolution g l) c.y c.x SOLUTION = markSolution g (l ++ [c]) := by
  funext y x
  unfold setCell markSolution
  by_cases h : y = c.y ∧ x = c.x
  · rw [if_pos h, if_pos]
    have : (⟨x, y⟩ : Point) = c := point_eq h.2 h.1
    rw [this]; simp
  · rw [if_neg h]
    have hne : (⟨x, y⟩ : Point) ≠ c := by
      intro e; apply h; rw [← e]; exact ⟨rfl, rfl⟩
    simp only [List.mem_append, List.mem_singleton, hne, or_false]

theorem markSolution_single (g : Grid) (c : Point) :
    setCell g c.y c.x SOLUTION = markSolution g [c] := by
  have := markSolution_snoc g [] c
  simp only [List.nil_append] at this
  rw [← this]
  congr 1

theorem tryNeighbours_spec (g : Grid) (size end_ cur : Point) (rest : List Point)
    (hs : size.x ≤ 254 ∧ size.y ≤ 254)
    (rec : Grid → Point → Except Abort (Bool × Grid × List Event))
    (hcur : inSize size cur.y cur.x)
    (hrec : ∀ n, inSize size n.y n.x → adjacent n cur → rest.head? ≠ some n →
      ∃ res, rec g n = .ok res ∧ SolveSpec g size end_ n (cur :: rest) res)
    (blocks : List (Bool × Point))
    (hblocks : ∀ b ∈ blocks, b.1 = true → inSize size b.2.y b.2.x ∧ adjacent b.2 cur) :
    ∃ res, tryNeighbours rec size cur rest.head? g blocks = .ok res ∧
      (res.1 = false → res.2.1 = g ∧
        ∀ b ∈ blocks, b.1 = true → rest.head? ≠ some b.2 →
          ∀ ext, Trail (passable g size) (ext ++ b.2 :: cur :: rest) →
            (ext ++ [b.2]).head? = some end_ → False) ∧
      (res.1 = true → ∃ ext, Trail (passable g size) (ext ++ cur :: rest) ∧
        (ext ++ [cur]).head? = some end_ ∧ res.2.1 = markSolution g (ext ++ [cur])) := by
  induction blocks with
  | nil =>
    refine ⟨(false, g, []), rfl, ?_, ?_⟩
    · intro _
      exact ⟨rfl, fun b hb => absurd hb (List.not_mem_nil _)⟩
    · intro h; cases h
  | cons b blocks ih =>
    obtain ⟨guard, n⟩ := b
    obtain ⟨res2, hres2, hf2, ht2⟩ := ih (fun b hb => hblocks b (List.mem_cons_of_mem _ hb))
    unfold tryNeighbours
    by_cases hcond : (guard && !points_eql (some n) rest.head?) = true
    · rw [if_pos hcond]
      simp only [Bool.and_eq_true, Bool.not_eq_true', ← Bool.not_eq_true, points_eql_some] at hcond
      obtain ⟨hguard, hprev⟩ := hcond
      have hb := hblocks (guard, n) (List.mem_cons_self _ _) hguard
      obtain ⟨res1, hres1, hspec1⟩ := hrec n hb.1 hb.2 hprev
      rw [hres1]
      obtain ⟨found1, g1, tr1⟩ := res1
      cases found1 with
      | true =>
        obtain ⟨ext, he1, he2, he3⟩ := hspec1.2 rfl
        simp only at he3
        subst he3
        simp only
        rw [writeCell_ok _ _ _ _ _ hcur hs]
        refine ⟨_, rfl, fun h => (by cases h), fun _ => ⟨ext ++ [n], ?_, ?_, ?_⟩⟩
        · rw [List.append_assoc]; exact he1
        · rw [List.head?_append_of_ne_nil _ (by simp)]; exact he2
        · exact markSolution_snoc g _ cur
      | false =>
        obtain ⟨hg1, hno1⟩ := hspec1.1 rfl
        simp only at hg1
        subst hg1
        simp only
        rw [hres2]
        obtain ⟨found2, g2, tr2⟩ := res2
        refine ⟨_, rfl, ?_, ?_⟩
        · intro hfalse
          have hfalse2 : found2 = false := hfalse
          obtain ⟨hg2, hno2⟩ := hf2 hfalse2
          refine ⟨hg2, ?_⟩
          intro b hb hb1 hb2
          rcases List.mem_cons.1 hb with rfl | hb
          · exact hno1
          · exact hno2 b hb hb1 hb2
        · intro htrue
          exact ht2 htrue
    · rw [if_neg hcond]
      refine ⟨res2, hres2, ?_, ht2⟩
      intro hfalse
      obtain ⟨hg2, hno2⟩ := hf2 hfalse
      refine ⟨hg2, ?_⟩
      intro b hb hb1 hb2
      rcases List.mem_cons.1 hb with rfl | hb
      · exfalso
        apply hcond
        simp only [Bool.and_eq_true, Bool.not_eq_true', ← Bool.not_eq_true, points_eql_some]
        exact ⟨hb1, hb2⟩
      · exact hno2 b hb hb1 hb2
theorem neighbourBlocks_sound (size cur : Point) (hs : size.x ≤ 254 ∧ size.y ≤ 254)
    (hcur : inSize size cur.y cur.x) :
    ∀ b ∈ neighbourBlocks size cur, b.1 = true → inSize size b.2.y b.2.x ∧ adjacent b.2 cur := by
  have hc := hcur
  unfold inSize at hc
  have e1 : toShort (cur.y - 1) = cur.y - 1 := toShort_id _ (by omega) (by omega)
  have e2 : toShort (cur.x - 1) = cur.x - 1 := toShort_id _ (by omega) (by omega)
  have e3 : toShort (cur.y + 1) = cur.y + 1 := toShort_id _ (by omega) (by omega)
  have e4 : toShort (cur.x + 1) = cur.x + 1 := toShort_id _ (by omega) (by omega)
  intro b hb hg
  unfold neighbourBlocks at hb
  rw [e1, e2, e3, e4] at hb
  simp only [List.mem_cons, List.mem_singleton, List.not_mem_nil, or_false] at hb
  unfold inSize adjacent
  rcases hb with rfl | rfl | rfl | rfl <;>
    (dsimp only at hg ⊢; simp only [decide_eq_true_eq] at hg; omega)

theorem neighbourBlocks_complete (size cur n : Point) (hs : size.x ≤ 254 ∧ size.y ≤ 254)
    (hcur : inSize size cur.y cur.x) (hn : inSize size n.y n.x) (hadj : adjacent n cur) :
    ∃ b ∈ neighbourBlocks size cur, b.1 = true ∧ b.2 = n := by
  have hc := hcur
  unfold inSize at hc hn
  unfold adjacent at hadj
  have e1 : toShort (cur.y - 1) = cur.y - 1 := toShort_id _ (by omega) (by omega)
  have e2 : toShort (cur.x - 1) = cur.x - 1 := toShort_id _ (by omega) (by omega)
  have e3 : toShort (cur.y + 1) = cur.y + 1 := toShort_id _ (by omega) (by omega)
  have e4 : toShort (cur.x + 1) = cur.x + 1 := toShort_id _ (by omega) (by omega)
  unfold neighbourBlocks
  rw [e1, e2, e3, e4]
  have hcase : (n.x = cur.x ∧ n.y = cur.y - 1) ∨ (n.x = cur.x - 1 ∧ n.y = cur.y) ∨
      (n.x = cur.x ∧ n.y = cur.y + 1) ∨ (n.x = cur.x + 1 ∧ n.y = cur.y) := by omega
  rcases hcase with h | h | h | h
  · refine ⟨(decide (cur.y > 0), ⟨cur.x, cur.y - 1⟩), by simp, ?_, (by apply point_eq <;> simp only <;> omega)⟩
    simp only [decide_eq_true_eq]; omega
  · refine ⟨(decide (cur.x > 0), ⟨cur.x - 1, cur.y⟩), by simp, ?_, (by apply point_eq <;> simp only <;> omega)⟩
    simp only [decide_eq_true_eq]; omega
  · refine ⟨(decide (cur.y < size.y - 1), ⟨cur.x, cur.y + 1⟩), by simp, ?_,
      (by apply point_eq <;> simp only <;> omega)⟩
    simp only [decide_eq_true_eq]; omega
  · refine ⟨(decide (cur.x < size.x - 1), ⟨cur.x + 1, cur.y⟩), by simp, ?_,
      (by apply point_eq <;> simp only <;> omega)⟩
    simp only [decide_eq_true_eq]; omega

theorem solve_maze_wall (fuel : Nat) (g : Grid) (size cur end_ : Point) (prev : Option Point)
    (hs : size.x ≤ 254 ∧ size.y ≤ 254) (hcur : inSize size cur.y cur.x)
    (hw : g cur.y cur.x = WALL) :
    solve_maze (fuel + 1) g size cur prev end_ = .ok (false, g, []) := by
  unfold solve_maze
  rw [readCell_ok _ _ _ _ hcur hs]
  simp only [hw, if_true]

theorem trail_length_le (g : Grid) (size : Point) (hF : Forest (passable g size))
    (l : List Point) (hl : Trail (passable g size) l) : l.length ≤ (gridCells size).card := by
  have hnd := hF l hl
  rw [← List.toFinset_card_of_nodup hnd]
  apply Finset.card_le_card
  intro c hc
  rw [List.mem_toFinset] at hc
  exact (mem_gridCells size c).2 (hl.all c hc).1
theorem solve_maze_spec (g : Grid) (size end_ : Point) (hs : size.x ≤ 254 ∧ size.y ≤ 254)
    (hF : Forest (passable g size)) :
    ∀ (fuel : Nat) (cur : Point) (rest : List Point),
      Trail (passable g size) (cur :: rest) →
      (gridCells size).card + 2 ≤ fuel + (cur :: rest).length →
      ∃ res, solve_maze fuel g size cur rest.head? end_ = .ok res ∧
        SolveSpec g size end_ cur rest res := by
  intro fuel
  induction fuel with
  | zero =>
    intro cur rest ht hlen
    have := trail_length_le g size hF _ ht
    omega
  | succ fuel ih =>
    intro cur rest ht hlen
    have hlen1 := trail_length_le g size hF _ ht
    have hpass : passable g size cur := ht.head_mem
    have hcur : inSize size cur.y cur.x := hpass.1
    unfold solve_maze
    rw [readCell_ok _ _ _ _ hcur hs]
    simp only
    rw [if_neg hpass.2]
    by_cases hend : cur.x = end_.x ∧ cur.y = end_.y
    · rw [if_pos hend, writeCell_ok _ _ _ _ _ hcur hs]
      refine ⟨_, rfl, fun h => (by cases h), fun _ => ⟨[], ht, ?_, ?_⟩⟩
      · simp only [List.nil_append, List.head?_cons]
        rw [point_eq hend.1 hend.2]
      · exact markSolution_single g cur
    · rw [if_neg hend]
      have hrec : ∀ n, inSize size n.y n.x → adjacent n cur → rest.head? ≠ some n →
          ∃ res, (fun m next => solve_maze fuel m size next (some cur) end_) g n = .ok res ∧
            SolveSpec g size end_ n (cur :: rest) res := by
        intro n hn hadj hprev
        by_cases hw : g n.y n.x = WALL
        · obtain ⟨f1, hf1⟩ : ∃ f1, fuel = f1 + 1 := ⟨fuel - 1, by simp only [List.length_cons] at hlen hlen1; omega⟩
          subst hf1
          refine ⟨(false, g, []), solve_maze_wall f1 g size n end_ _ hs hn hw, ?_, fun h => (by cases h)⟩
          intro _
          refine ⟨rfl, fun ext hext _ => ?_⟩
          have := (Trail.suffix ext _ hext).head_mem
          exact this.2 hw
        · have ht1 : Trail (passable g size) (n :: cur :: rest) := ⟨⟨hn, hw⟩, hadj, hprev, ht⟩
          exact ih n (cur :: rest) ht1 (by simp only [List.length_cons] at hlen ⊢; omega)
      obtain ⟨res, hres, hf, htr⟩ := tryNeighbours_spec g size end_ cur rest hs
        (fun m next => solve_maze fuel m size next (some cur) end_) hcur hrec
        (neighbourBlocks size cur) (neighbourBlocks_sound size cur hs hcur)
      rw [hres]
      obtain ⟨found, g1, tr⟩ := res
      cases found with
      | true =>
        refine ⟨_, rfl, fun h => (by cases h), fun _ => htr rfl⟩
      | false =>
        obtain ⟨hg1, hno⟩ := hf rfl
        refine ⟨_, rfl, fun _ => ⟨hg1, ?_⟩, fun h => (by cases h)⟩
        intro ext hext hhead
        rcases List.eq_nil_or_concat ext with rfl | ⟨ext1, n, rfl⟩
        · simp only [List.nil_append, List.head?_cons, Option.some.injEq] at hhead
          exact hend ⟨by rw [hhead], by rw [hhead]⟩
        · rw [List.concat_eq_append] at hext hhead
          rw [List.append_assoc] at hext
          have hsuf := Trail.suffix ext1 _ hext
          have hn : passable g size n := hsuf.head_mem
          have hadj : adjacent n cur := hsuf.2.1
          have hprev : rest.head? ≠ some n := hsuf.2.2.1
          obtain ⟨b, hb, hb1, hb2⟩ := neighbourBlocks_complete size cur n hs hcur hn.1 hadj
          subst hb2
          apply hno b hb hb1 hprev ext1 hext
          rw [List.head?_append_of_ne_nil _ (by simp)] at hhead
          exact hhead
theorem Trail.chain {P : Point → Prop} {l : List Point} (h : Trail P l) :
    List.Chain' adjacent l := by
  induction l with
  | nil => exact List.chain'_nil
  | cons a t ih =>
    cases t with
    | nil => exact List.chain'_singleton a
    | cons b t => exact List.chain'_cons.2 ⟨h.2.1, ih h.2.2.2⟩

theorem markSolution_reverse (g : Grid) (l : List Point) :
    markSolution g l.reverse = markSolution g l := by
  funext y x
  simp only [markSolution, List.mem_reverse]

theorem gridCells_card_le_mul (size : Point) :
    (gridCells size).card ≤ (size.x * size.y).toNat := by
  unfold gridCells
  refine le_trans Finset.card_image_le ?_
  rw [Finset.card_product, Finset.card_range, Finset.card_range]
  by_cases hx : 0 ≤ size.x
  · by_cases hy : 0 ≤ size.y
    · have e : ((size.x.toNat * size.y.toNat : Nat) : Int) = size.x * size.y := by
        rw [Nat.cast_mul, Int.toNat_of_nonneg hx, Int.toNat_of_nonneg hy]
      omega
    · have : size.y.toNat = 0 := by omega
      rw [this]; simp
  · have : size.x.toNat = 0 := by omega
    rw [this]; simp

theorem solve_generated {size start end_ : Point} {g : Grid} (G : Generated size start end_ g)
    (fuel : Nat) (hfuel : (size.x * size.y).toNat + 1 ≤ fuel) :
    ∃ g1 tr path, solve_maze fuel g size start none end_ = .ok (true, g1, tr) ∧
      path.head? = some start ∧ path.getLast? = some end_ ∧ path.Nodup ∧
      List.Chain' adjacent path ∧ (∀ c ∈ path, inSize size c.y c.x) ∧
      g1 = markSolution g path := by
  obtain ⟨hF, hJ⟩ := G.forest_joined
  have hs : size.x ≤ 254 ∧ size.y ≤ 254 := ⟨G.width.2, G.height.2⟩
  have hps : passable g size start := (G.passable_iff start).2 (Or.inl (Or.inr rfl))
  have hpe : passable g size end_ := (G.passable_iff end_).2 (Or.inr rfl)
  have hcard := gridCells_card_le_mul size
  obtain ⟨res, hres, hf, ht⟩ := solve_maze_spec g size end_ hs hF fuel start [] hps
    (by simp only [List.length_cons, List.length_nil]; omega)
  simp only [List.head?_nil] at hres
  obtain ⟨found, g1, tr⟩ := res
  cases found with
  | false =>
    exfalso
    obtain ⟨_, hno⟩ := hf rfl
    obtain ⟨l, hl1, hl2, hl3⟩ := hJ end_ start hpe hps
    rcases List.eq_nil_or_concat l with rfl | ⟨ext, c, rfl⟩
    · cases hl2
    · rw [List.concat_eq_append] at hl1 hl2 hl3
      have hl4 : c = start := by simpa using hl3
      subst hl4
      exact hno ext hl1 hl2
  | true =>
    obtain ⟨ext, he1, he2, he3⟩ := ht rfl
    simp only at he3
    refine ⟨g1, tr, (ext ++ [start]).reverse, hres, ?_, ?_, ?_, ?_, ?_, ?_⟩
    · simp
    · rw [List.getLast?_reverse]; exact he2
    · exact List.nodup_reverse.2 (hF _ he1)
    · rw [List.chain'_reverse]
      have := he1.chain
      refine List.Chain'.imp ?_ this
      intro a b hab
      exact adjacent_symm hab
    · intro c hc
      rw [List.mem_reverse] at hc
      exact (he1.all c hc).1
    · rw [markSolution_reverse]; exact he3

/-! ## The solver on a generated maze -/

/-- C1: for width and height in 2..254 and every seed, when `generate_maze`
returns, `solve_maze` called on the generated grid with `current = start`,
`previous = NULL` and the generated `end` returns 1; a recursion depth of
`width * height + 1` suffices. -/
theorem solve_maze_finds_end (fuel : Nat) (st0 : RandState) (maze : Grid)
    (w h seed : Int) (r : RandState × Grid × Point × Point)
    (hw : 2 ≤ w ∧ w ≤ 254) (hh : 2 ≤ h ∧ h ≤ 254)
    (hgen : generate_maze fuel (rand_seed st0 (toU32 seed)) maze ⟨w, h⟩ = .ok r) :
    ∀ fuel1, (w * h).toNat + 1 ≤ fuel1 →
      ∃ g1 tr, solve_maze fuel1 r.2.1 ⟨w, h⟩ r.2.2.1 none r.2.2.2 = .ok (true, g1, tr) := by
  obtain ⟨st1, g, start, end_⟩ := r
  intro fuel1 hfuel
  have G := generate_maze_generated fuel _ st1 maze g w h start end_ hw hh hgen
  obtain ⟨g1, tr, path, h1, _⟩ := solve_generated G fuel1 hfuel
  exact ⟨g1, tr, h1⟩

/-- The solver finds the end of the maze generated for width 5, height 5, seed 1. -/
theorem solve_maze_finds_end_witness :
    ((2 : Int) ≤ 5 ∧ (5 : Int) ≤ 254) ∧ ((2 : Int) ≤ 5 ∧ (5 : Int) ≤ 254) ∧
    generate_maze 100 (rand_seed ⟨0, 0, 0, 0⟩ (toU32 1)) (fun _ _ => 0) ⟨5, 5⟩ =
      .ok demoGenerated ∧
    (∀ fuel1, ((5 : Int) * 5).toNat + 1 ≤ fuel1 →
      ∃ g1 tr, solve_maze fuel1 demoGenerated.2.1 ⟨5, 5⟩ demoGenerated.2.2.1 none
        demoGenerated.2.2.2 = .ok (true, g1, tr)) :=
  ⟨by decide, by decide, demoGenerated_eq,
    solve_maze_finds_end 100 ⟨0, 0, 0, 0⟩ (fun _ _ => 0) 5 5 1 demoGenerated
      (by decide) (by decide) demoGenerated_eq⟩

/-- C2: for width and height in 2..254 and every seed, when `generate_maze`
returns, the run of `solve_maze` from `start` leaves `SOLUTION` in exactly the
cells of one path: it begins at `start`, ends at `end`, consecutive cells are
orthogonally adjacent, no cell is repeated; every other cell keeps the state it
had after generation. -/
theorem solve_maze_marks_simple_path (fuel : Nat) (st0 : RandState) (maze : Grid)
    (w h seed : Int) (r : RandState × Grid × Point × Point)
    (hw : 2 ≤ w ∧ w ≤ 254) (hh : 2 ≤ h ∧ h ≤ 254)
    (hgen : generate_maze fuel (rand_seed st0 (toU32 seed)) maze ⟨w, h⟩ = .ok r) :
    ∀ fuel1, (w * h).toNat + 1 ≤ fuel1 →
      ∃ g1 tr path, solve_maze fuel1 r.2.1 ⟨w, h⟩ r.2.2.1 none r.2.2.2 = .ok (true, g1, tr) ∧
        path.head? = some r.2.2.1 ∧ path.getLast? = some r.2.2.2 ∧ path.Nodup ∧
        List.Chain' adjacent path ∧ (∀ c ∈ path, inSize ⟨w, h⟩ c.y c.x) ∧
        (∀ y x, inSize ⟨w, h⟩ y x → (g1 y x = SOLUTION ↔ (⟨x, y⟩ : Point) ∈ path)) ∧
        (∀ y x, (⟨x, y⟩ : Point) ∉ path → g1 y x = r.2.1 y x) := by
  obtain ⟨st1, g, start, end_⟩ := r
  intro fuel1 hfuel
  have G := generate_maze_generated fuel _ st1 maze g w h start end_ hw hh hgen
  obtain ⟨g1, tr, path, h1, h2, h3, h4, h5, h6, h7⟩ := solve_generated G fuel1 hfuel
  refine ⟨g1, tr, path, h1, h2, h3, h4, h5, h6, ?_, ?_⟩
  · intro y x hyx
    subst h7
    simp only [markSolution]
    constructor
    · intro hsol
      by_contra hmem
      rw [if_neg hmem] at hsol
      rcases G.cell_state ⟨x, y⟩ hyx with hc | hc
      · simp only at hc; rw [hc] at hsol; exact absurd hsol (by decide)
      · simp only at hc; rw [hc] at hsol; exact absurd hsol (by decide)
    · intro hmem
      rw [if_pos hmem]
  · intro y x hmem
    subst h7
    simp only [markSolution, if_neg hmem]

/-- The path marked in the maze generated for width 5, height 5, seed 1. -/
theorem solve_maze_marks_simple_path_witness :
    ((2 : Int) ≤ 5 ∧ (5 : Int) ≤ 254) ∧ ((2 : Int) ≤ 5 ∧ (5 : Int) ≤ 254) ∧
    generate_maze 100 (rand_seed ⟨0, 0, 0, 0⟩ (toU32 1)) (fun _ _ => 0) ⟨5, 5⟩ =
      .ok demoGenerated ∧
    (∀ fuel1, ((5 : Int) * 5).toNat + 1 ≤ fuel1 →
      ∃ g1 tr path, solve_maze fuel1 demoGenerated.2.1 ⟨5, 5⟩ demoGenerated.2.2.1 none
          demoGenerated.2.2.2 = .ok (true, g1, tr) ∧
        path.head? = some demoGenerated.2.2.1 ∧ path.getLast? = some demoGenerated.2.2.2 ∧
        path.Nodup ∧ List.Chain' adjacent path ∧ (∀ c ∈ path, inSize ⟨5, 5⟩ c.y c.x) ∧
        (∀ y x, inSize ⟨5, 5⟩ y x → (g1 y x = SOLUTION ↔ (⟨x, y⟩ : Point) ∈ path)) ∧
        (∀ y x, (⟨x, y⟩ : Point) ∉ path → g1 y x = demoGenerated.2.1 y x)) :=
  ⟨by decide, by decide, demoGenerated_eq,
    solve_maze_marks_simple_path 100 ⟨0, 0, 0, 0⟩ (fun _ _ => 0) 5 5 1 demoGenerated
      (by decide) (by decide) demoGenerated_eq⟩

/-! ## Sizes for which the walk never ends -/

/-- The walk never reaches `remain = 0` from a state satisfying an invariant that
keeps `remain` positive. -/
theorem walk_never_returns (size : Point) (hs : size.x ≤ 254 ∧ size.y ≤ 254)
    (I : WalkState → Prop) (hI : ∀ s, I s → isVertex size s.2.1 ∧ 0 < s.2.2)
    (hstep : ∀ s t, I s → WalkStep size s t → I t)
    (fuel : Nat) (st : RandState) (maze : Grid) (p : Point) (remain : Int)
    (h0 : I (maze, p, remain)) :
    walk fuel st maze size p remain = .error .outOfFuel := by
  rcases walk_spec size hs I (fun s h => (hI s h).1) (fun s t h _ hst => hstep s t h hst)
      fuel st maze p remain h0 with h | ⟨st1, maze1, p1, r1, _, h2, h3⟩
  · exact h
  · have := (hI _ h2).2
    simp only at this
    omega

theorem corner_step (size start end_ : Point) (hs : size.x ≤ 254 ∧ size.y ≤ 254)
    (hstart : start.y = 0) (hend : end_.y = size.y - 1) (s t : WalkState)
    (hJ : MazeInv size start end_ s ∧
      (s.1 (size.y - 1) (size.x - 1) = UNVISITED ∨ s.2.1 = ⟨size.x - 1, size.y - 1⟩) ∧
      0 < s.2.2 ∧ isVertex size ⟨size.x - 1, size.y - 1⟩)
    (hstep : WalkStep size s t) :
    MazeInv size start end_ t ∧
      (t.1 (size.y - 1) (size.x - 1) = UNVISITED ∨ t.2.1 = ⟨size.x - 1, size.y - 1⟩) ∧
      0 < t.2.2 ∧ isVertex size ⟨size.x - 1, size.y - 1⟩ := by
  obtain ⟨inv, hc, hr, hv⟩ := hJ
  have inv1 := MazeInv.step size start end_ hs hstart hend s t inv hstep
  have hpos : t.1 (size.y - 1) (size.x - 1) = UNVISITED → 0 < t.2.2 := by
    intro hu
    have hmem : (⟨size.x - 1, size.y - 1⟩ : Point) ∈ unvisitedVertices t.1 size := by
      simp only [unvisitedVertices, Finset.mem_filter, mem_gridCells]
      exact ⟨hv.1, hv, hu⟩
    have := Finset.card_pos.2 ⟨_, hmem⟩
    rw [inv1.remain_eq]
    exact_mod_cast this
  have hstuck : ∀ (p d : Point), p = ⟨size.x - 1, size.y - 1⟩ →
      d ∈ [NORTH, EAST, SOUTH, WEST] → ¬ wallInBounds size ⟨p.x + d.x, p.y + d.y⟩ := by
    intro p d hp hd hb
    subst hp
    unfold wallInBounds at hb
    simp only at hb
    rcases dir_cases d hd with h | h | h | h <;> omega
  have hfar : ∀ (p d : Point), d ∈ [NORTH, EAST, SOUTH, WEST] →
      wallInBounds size ⟨p.x + d.x, p.y + d.y⟩ →
      ¬ (size.y - 1 = p.y + d.y * 2 ∧ size.x - 1 = p.x + d.x * 2) ∧
      ¬ (size.y - 1 = p.y + d.y ∧ size.x - 1 = p.x + d.x) := by
    intro p d hd hb
    unfold wallInBounds at hb
    simp only at hb
    rcases dir_cases d hd with h | h | h | h <;> omega
  cases hstep with
  | stay => exact ⟨inv, hc, hr, hv⟩
  | move g p r d hd hb hu =>
    refine ⟨inv1, ?_, hr, hv⟩
    rcases hc with hc | hc
    · left; exact hc
    · exact absurd hb (hstuck p d hc hd)
  | carve g p r d hd hb hu =>
    rcases hc with hc | hc
    · have hf := hfar p d hd hb
      have hu1 : setCell (setCell g (p.y + d.y * 2) (p.x + d.x * 2) PASSAGE) (p.y + d.y)
          (p.x + d.x) PASSAGE (size.y - 1) (size.x - 1) = UNVISITED := by
        rw [carve_get, if_neg]
        · exact hc
        · rintro (h | h)
          · exact hf.2 h
          · exact hf.1 h
      exact ⟨inv1, Or.inl hu1, hpos hu1, hv⟩
    · exact absurd hb (hstuck p d hc hd)

/-- With an even width and an even height, at least one of them 4 or more, the
walk of `generate_maze` never ends: the vertex in the last column and last row
can be entered by no step, because the bounds test is made on the one-step
cell, and it cannot be left either. Whatever the fuel, the run is still walking
when the fuel is used up. -/
theorem generate_maze_even_sizes_never_return (fuel : Nat) (st : RandState) (maze : Grid)
    (w h : Int) (hw : 2 ≤ w ∧ w ≤ 254) (hh : 2 ≤ h ∧ h ≤ 254)
    (hwe : w % 2 = 0) (hhe : h % 2 = 0) (hbig : 4 ≤ w ∨ 4 ≤ h) :
    generate_maze fuel st maze ⟨w, h⟩ = .error .outOfFuel := by
  obtain ⟨a, b, c, d, st2, ha, hb, hc, hd, hsetup⟩ := generateSetup_ok st maze w h hw hh
  have hs : (⟨w, h⟩ : Point).x ≤ 254 ∧ (⟨w, h⟩ : Point).y ≤ 254 := ⟨hw.2, hh.2⟩
  have S : SetupShape ⟨w, h⟩ ⟨2 * a + 1, 0⟩ ⟨2 * b + 1, h - 1⟩ ⟨2 * c + 1, 2 * d + 1⟩ :=
    { width := hw
      height := hh
      start_y := rfl
      start_x := by simp only; omega
      end_y := rfl
      end_x := by simp only; omega
      p_vertex := by unfold isVertex inSize; simp only; omega }
  have hinit := MazeInv.init maze ⟨w, h⟩ _ _ _ S
  have hv : isVertex ⟨w, h⟩ ⟨w - 1, h - 1⟩ := by unfold isVertex inSize; simp only; omega
  have hrem : 0 < w / 2 * (h / 2) - 1 := by
    have h1 : 1 ≤ w / 2 := by omega
    have h2 : 1 ≤ h / 2 := by omega
    rcases hbig with hb4 | hb4
    · have h3 : 2 ≤ w / 2 := by omega
      nlinarith
    · have h3 : 2 ≤ h / 2 := by omega
      nlinarith
  have hcorner : setupGrid maze ⟨w, h⟩ ⟨2 * a + 1, 0⟩ ⟨2 * b + 1, h - 1⟩ ⟨2 * c + 1, 2 * d + 1⟩
      (h - 1) (w - 1) = UNVISITED ∨ (⟨2 * c + 1, 2 * d + 1⟩ : Point) = ⟨w - 1, h - 1⟩ := by
    rcases setupGrid_cases maze ⟨w, h⟩ _ _ _ S ⟨w - 1, h - 1⟩ hv.1 with h1 | h1 | h1 | h1
    · right; exact h1.1.symm
    · left; exact h1.2.2
    · exact absurd hv h1.1
    · exact absurd hv h1.1
  unfold generate_maze
  rw [hsetup]
  simp only [ok_bind]
  rw [walk_never_returns ⟨w, h⟩ hs
    (fun s => MazeInv ⟨w, h⟩ ⟨2 * a + 1, 0⟩ ⟨2 * b + 1, h - 1⟩ s ∧
      (s.1 (h - 1) (w - 1) = UNVISITED ∨ s.2.1 = ⟨w - 1, h - 1⟩) ∧
      0 < s.2.2 ∧ isVertex ⟨w, h⟩ ⟨w - 1, h - 1⟩)
    (fun s hJ => ⟨hJ.1.pos_vertex, hJ.2.2.1⟩)
    (fun s t hJ hst => corner_step ⟨w, h⟩ _ _ hs rfl rfl s t hJ hst)
    fuel st2 _ _ _ ⟨hinit, hcorner, hrem, hv⟩]
  rfl

/-! ## The content of the array on entry does not matter -/

theorem sameRun_bind {α β : Type} {R : α → α → Prop} {S : β → β → Prop}
    {a b : Except Abort α} {f f1 : α → Except Abort β} (hab : sameRun R a b)
    (hf : ∀ x y, R x y → sameRun S (f x) (f1 y)) : sameRun S (a >>= f) (b >>= f1) := by
  cases hab with
  | abort e => exact sameRun.abort e
  | result x y h => exact hf x y h

theorem sameRun_refl {α : Type} (a : Except Abort α) : sameRun (fun x y => x = y) a a := by
  cases a with
  | error e => exact sameRun.abort e
  | ok x => exact sameRun.result x x rfl

theorem sameRun_foldlM {α β : Type} {R : β → β → Prop} {f f1 : β → α → Except Abort β}
    (hf : ∀ x y a, R x y → sameRun R (f x a) (f1 y a)) (l : List α) :
    ∀ x y, R x y → sameRun R (l.foldlM f x) (l.foldlM f1 y) := by
  induction l with
  | nil => intro x y h; exact sameRun.result x y h
  | cons a l ih =>
    intro x y h
    simp only [List.foldlM_cons]
    exact sameRun_bind (hf x y a h) ih

theorem sameRun_cases {α : Type} {R : α → α → Prop} {a b : Except Abort α}
    (h : sameRun R a b) :
    (∃ e, a = .error e ∧ b = .error e) ∨ (∃ x y, a = .ok x ∧ b = .ok y ∧ R x y) := by
  cases h with
  | abort e => exact Or.inl ⟨e, rfl, rfl⟩
  | result x y h => exact Or.inr ⟨x, y, rfl, rfl, h⟩

theorem agreeInside_setCell {size : Point} {g g1 : Grid} (h : agreeInside size g g1)
    (y x : Int) (v : Nat) : agreeInside size (setCell g y x v) (setCell g1 y x v) := by
  intro y1 x1 hin
  unfold setCell
  split_ifs
  · rfl
  · exact h y1 x1 hin

theorem readCell_agree {size : Point} {g g1 : Grid} (h : agreeInside size g g1) (y x : Int) :
    readCell g size y x = readCell g1 size y x := by
  unfold readCell
  by_cases h1 : inArray y x
  · by_cases h2 : inSize size y x
    · simp only [h1, h2, not_true_eq_false, if_false]
      rw [h y x h2]
    · simp only [h1, h2, not_true_eq_false, if_false, not_false_eq_true, if_true]
  · simp only [h1, not_false_eq_true, if_true]

theorem writeCell_agree {size : Point} {g g1 : Grid} (h : agreeInside size g g1) (y x : Int)
    (v : Nat) : sameRun (agreeInside size) (writeCell g size y x v) (writeCell g1 size y x v) := by
  unfold writeCell
  by_cases h1 : inArray y x
  · by_cases h2 : inSize size y x
    · simp only [h1, h2, not_true_eq_false, if_false]
      exact sameRun.result _ _ (agreeInside_setCell h y x v)
    · simp only [h1, h2, not_true_eq_false, if_false, not_false_eq_true, if_true]
      exact sameRun.abort _
  · simp only [h1, not_false_eq_true, if_true]
    exact sameRun.abort _

theorem markUnvisited_agree {size : Point} {g g1 : Grid} (h : agreeInside size g g1) :
    sameRun (agreeInside size) (markUnvisited g size) (markUnvisited g1 size) := by
  unfold markUnvisited
  refine sameRun_foldlM ?_ _ g g1 h
  intro m m1 i hm
  refine sameRun_foldlM ?_ _ m m1 hm
  intro m2 m3 j hm2
  exact writeCell_agree hm2 _ _ _

theorem scanDirections_agree {size : Point} (p : Point) (remain : Int) (dirs : List Point) :
    ∀ {g g1 : Grid}, agreeInside size g g1 →
      sameRun (fun s t => agreeInside size s.1 t.1 ∧ s.2 = t.2)
        (scanDirections g size p remain dirs) (scanDirections g1 size p remain dirs) := by
  induction dirs with
  | nil => intro g g1 h; exact sameRun.result _ _ ⟨h, rfl⟩
  | cons d rest ih =>
    intro g g1 h
    unfold scanDirections
    simp only
    split_ifs with hb
    · exact ih h
    · rw [readCell_agree h]
      refine sameRun_bind (sameRun_refl _) ?_
      rintro v _ rfl
      split_ifs with hu
      · refine sameRun_bind (writeCell_agree h _ _ _) ?_
        intro m m1 hm
        refine sameRun_bind (writeCell_agree hm _ _ _) ?_
        intro m2 m3 hm2
        exact sameRun.result _ _ ⟨hm2, rfl⟩
      · exact sameRun.result _ _ ⟨h, rfl⟩

theorem walk_agree {size : Point} (fuel : Nat) :
    ∀ (st : RandState) {g g1 : Grid} (p : Point) (remain : Int), agreeInside size g g1 →
      sameRun (fun s t => s.1 = t.1 ∧ agreeInside size s.2 t.2)
        (walk fuel st g size p remain) (walk fuel st g1 size p remain) := by
  induction fuel with
  | zero =>
    intro st g g1 p remain h
    unfold walk
    split_ifs
    · exact sameRun.abort _
    · exact sameRun.result _ _ ⟨rfl, h⟩
  | succ fuel ih =>
    intro st g g1 p remain h
    unfold walk
    split_ifs
    · simp only
      rcases sameRun_cases (@scanDirections_agree size p remain
          (randomize_directions st [NORTH, EAST, SOUTH, WEST]).2 g g1 h) with
        ⟨e, h1, h2⟩ | ⟨s, t, h1, h2, hm, heq⟩
      · rw [h1, h2]; exact sameRun.abort _
      · rw [h1, h2]
        obtain ⟨m, p2, r2⟩ := s
        obtain ⟨m1, p3, r3⟩ := t
        simp only [Prod.mk.injEq] at heq
        obtain ⟨rfl, rfl⟩ := heq
        exact ih _ p2 r2 hm
    · exact sameRun.result _ _ ⟨rfl, h⟩

theorem tryNeighbours_agree {size : Point} (cur : Point) (prev : Option Point)
    (rec rec1 : Grid → Point → Except Abort (Bool × Grid × List Event))
    (hrec : ∀ m m1 n, agreeInside size m m1 → sameRun (sameSolve size) (rec m n) (rec1 m1 n))
    (blocks : List (Bool × Point)) :
    ∀ {g g1 : Grid}, agreeInside size g g1 →
      sameRun (sameSolve size) (tryNeighbours rec size cur prev g blocks)
        (tryNeighbours rec1 size cur prev g1 blocks) := by
  induction blocks with
  | nil => intro g g1 h; exact sameRun.result _ _ ⟨rfl, h, rfl⟩
  | cons b blocks ih =>
    intro g g1 h
    obtain ⟨guard, n⟩ := b
    unfold tryNeighbours
    split_ifs with hc
    · rcases sameRun_cases (hrec g g1 n h) with ⟨e, h1, h2⟩ | ⟨x, y, h1, h2, h3⟩
      · rw [h1, h2]; exact sameRun.abort _
      · rw [h1, h2]
        obtain ⟨f, m, tr⟩ := x
        obtain ⟨f1, m1, tr1⟩ := y
        obtain ⟨e1, e2, e3⟩ := h3
        simp only at e1 e2 e3
        subst e1; subst e3
        cases f with
        | true =>
          simp only
          rcases sameRun_cases (writeCell_agree e2 cur.y cur.x SOLUTION) with
            ⟨e, h4, h5⟩ | ⟨x, y, h4, h5, h6⟩
          · rw [h4, h5]; exact sameRun.abort _
          · rw [h4, h5]; exact sameRun.result _ _ ⟨rfl, h6, rfl⟩
        | false =>
          simp only
          rcases sameRun_cases (ih e2) with ⟨e, h4, h5⟩ | ⟨x, y, h4, h5, h6⟩
          · rw [h4, h5]; exact sameRun.abort _
          · rw [h4, h5]
            obtain ⟨f2, m2, tr2⟩ := x
            obtain ⟨f3, m3, tr3⟩ := y
            obtain ⟨e4, e5, e6⟩ := h6
            simp only at e4 e5 e6
            subst e4; subst e6
            exact sameRun.result _ _ ⟨rfl, e5, rfl⟩
    · exact ih h

theorem solve_maze_agree {size : Point} (end_ : Point) (fuel : Nat) :
    ∀ {g g1 : Grid} (cur : Point) (prev : Option Point), agreeInside size g g1 →
      sameRun (sameSolve size) (solve_maze fuel g size cur prev end_)
        (solve_maze fuel g1 size cur prev end_) := by
  induction fuel with
  | zero => intro g g1 cur prev h; exact sameRun.abort _
  | succ fuel ih =>
    intro g g1 cur prev h
    unfold solve_maze
    rw [readCell_agree h]
    cases readCell g1 size cur.y cur.x with
    | error e => exact sameRun.abort _
    | ok v =>
      simp only
      split_ifs with hw hend
      · exact sameRun.result _ _ ⟨rfl, h, rfl⟩
      · rcases sameRun_cases (writeCell_agree h cur.y cur.x SOLUTION) with
          ⟨e, h4, h5⟩ | ⟨x, y, h4, h5, h6⟩
        · rw [h4, h5]; exact sameRun.abort _
        · rw [h4, h5]; exact sameRun.result _ _ ⟨rfl, h6, rfl⟩
      · rcases sameRun_cases (tryNeighbours_agree cur prev
            (fun m next => solve_maze fuel m size next (some cur) end_)
            (fun m next => solve_maze fuel m size next (some cur) end_)
            (fun m m1 n hm => ih n (some cur) hm) (neighbourBlocks size cur) h) with
          ⟨e, h4, h5⟩ | ⟨x, y, h4, h5, h6⟩
        · rw [h4, h5]; exact sameRun.abort _
        · rw [h4, h5]
          obtain ⟨f2, m2, tr2⟩ := x
          obtain ⟨f3, m3, tr3⟩ := y
          obtain ⟨e4, e5, e6⟩ := h6
          simp only at e4 e5 e6
          subst e4; subst e6
          cases f2 with
          | true => exact sameRun.result _ _ ⟨rfl, e5, rfl⟩
          | false => exact sameRun.result _ _ ⟨rfl, e5, rfl⟩

theorem render_maze_agree {size : Point} {g g1 : Grid} (h : agreeInside size g g1) :
    render_maze g size = render_maze g1 size := by
  unfold render_maze
  have : ∀ y x, readCell g size y x = readCell g1 size y x := fun y x => readCell_agree h y x
  simp only [this]
theorem generateSetup_agree (st : RandState) (maze maze1 : Grid) (size : Point)
    (hw : 0 ≤ size.x ∧ size.x ≤ 254) (hh : 0 ≤ size.y ∧ size.y ≤ 254) :
    sameRun (fun r r1 => r.1 = r1.1 ∧ agreeInside size r.2.1 r1.2.1 ∧ r.2.2 = r1.2.2)
      (generateSetup st maze size) (generateSetup st maze1 size) := by
  unfold generateSetup
  rw [fillWalls_ok maze size ⟨hw.2, hh.2⟩ ⟨hw.1, hh.1⟩,
    fillWalls_ok maze1 size ⟨hw.2, hh.2⟩ ⟨hw.1, hh.1⟩]
  simp only [ok_bind]
  have h0 : agreeInside size (fun y1 x1 => if inSize size y1 x1 then WALL else maze y1 x1)
      (fun y1 x1 => if inSize size y1 x1 then WALL else maze1 y1 x1) := by
    intro y x hin
    simp only [if_pos hin]
  refine sameRun_bind (sameRun_refl _) ?_
  rintro ⟨r, st1⟩ _ rfl
  simp only
  refine sameRun_bind (writeCell_agree h0 _ _ _) ?_
  intro m m1 hm
  refine sameRun_bind (sameRun_refl _) ?_
  rintro ⟨r2, st2⟩ _ rfl
  simp only
  refine sameRun_bind (writeCell_agree hm _ _ _) ?_
  intro m2 m3 hm2
  refine sameRun_bind (markUnvisited_agree hm2) ?_
  intro m4 m5 hm4
  refine sameRun_bind (sameRun_refl _) ?_
  rintro ⟨r3, st3⟩ _ rfl
  simp only
  refine sameRun_bind (sameRun_refl _) ?_
  rintro ⟨r4, st4⟩ _ rfl
  simp only
  refine sameRun_bind (writeCell_agree hm4 _ _ _) ?_
  intro m6 m7 hm6
  exact sameRun.result _ _ ⟨rfl, hm6, rfl⟩

theorem generate_maze_agree (fuel : Nat) (st : RandState) (maze maze1 : Grid) (size : Point)
    (hw : 0 ≤ size.x ∧ size.x ≤ 254) (hh : 0 ≤ size.y ∧ size.y ≤ 254) :
    sameRun (fun r r1 => r.1 = r1.1 ∧ agreeInside size r.2.1 r1.2.1 ∧ r.2.2 = r1.2.2)
      (generate_maze fuel st maze size) (generate_maze fuel st maze1 size) := by
  unfold generate_maze
  refine sameRun_bind (generateSetup_agree st maze maze1 size hw hh) ?_
  rintro ⟨st1, m, start, end_, p, remain⟩ ⟨st2, m1, start1, end1, p1, remain1⟩ ⟨e1, e2, e3⟩
  simp only at e1 e2 e3
  subst e1
  simp only [Prod.mk.injEq] at e3
  obtain ⟨rfl, rfl, rfl, rfl⟩ := e3
  simp only
  refine sameRun_bind (walk_agree fuel st1 p remain e2) ?_
  rintro ⟨st3, m3⟩ ⟨st4, m4⟩ ⟨e4, e5⟩
  simp only at e4 e5
  subst e4
  exact sameRun.result _ _ ⟨rfl, e5, rfl⟩

/-- For width and height in 0..254 the outcome of `generate_and_solve_maze` does
not depend on what `rand_state` and the local array hold on entry: two runs with
the same arguments stop with the same abort, or return the same status, the same
generator state and the same events, and grids that agree in every cell inside
the size. -/
theorem generate_and_solve_maze_entry_state_irrelevant (fuel : Nat) (st st1 : RandState)
    (maze maze1 : Grid) (width height seed : Int)
    (hw : 0 ≤ width ∧ width ≤ 254) (hh : 0 ≤ height ∧ height ≤ 254) :
    sameRun (fun o o1 => o.status = o1.status ∧ o.rand = o1.rand ∧ o.events = o1.events ∧
        agreeInside ⟨width, height⟩ o.maze o1.maze)
      (generate_and_solve_maze fuel st maze width height seed)
      (generate_and_solve_maze fuel st1 maze1 width height seed) := by
  have hseed : rand_seed st (toU32 seed) = rand_seed st1 (toU32 seed) := by
    rw [rand_seed_eq, rand_seed_eq]
  have e1 : toShort width = width := toShort_id _ (by omega) (by omega)
  have e2 : toShort height = height := toShort_id _ (by omega) (by omega)
  unfold generate_and_solve_maze
  simp only [hseed, e1, e2]
  refine sameRun_bind (generate_maze_agree fuel _ maze maze1 ⟨width, height⟩ hw hh) ?_
  rintro ⟨st2, m, start, end_⟩ ⟨st3, m1, start1, end1⟩ ⟨e3, e4, e5⟩
  simp only at e3 e4 e5
  subst e3
  simp only [Prod.mk.injEq] at e5
  obtain ⟨rfl, rfl⟩ := e5
  simp only
  rw [render_maze_agree e4]
  refine sameRun_bind (sameRun_refl _) ?_
  rintro cells _ rfl
  refine sameRun_bind (solve_maze_agree end_ fuel start none e4) ?_
  rintro ⟨f, m2, moves⟩ ⟨f1, m3, moves1⟩ ⟨e6, e7, e8⟩
  simp only at e6 e7 e8
  subst e8
  exact sameRun.result _ _ ⟨rfl, rfl, rfl, e7⟩

/-! ## The events and the grid of a call of the solver, on any grid -/

theorem solvedCells_append (a b : List Event) :
    solvedCells (a ++ b) = solvedCells a ++ solvedCells b := by
  induction a with
  | nil => rfl
  | cons e a ih =>
    cases e <;> simp [solvedCells, ih]

theorem descendCells_append (a b : List Event) :
    descendCells (a ++ b) = descendCells a ++ descendCells b := by
  induction a with
  | nil => rfl
  | cons e a ih =>
    cases e <;> simp [descendCells, ih]

theorem toU16_inSize {size cur : Point} (hs : size.x ≤ 254 ∧ size.y ≤ 254)
    (h : inSize size cur.y cur.x) : toU16 cur.x = cur.x ∧ toU16 cur.y = cur.y := by
  unfold inSize at h
  exact ⟨toU16_id _ (by omega) (by omega), toU16_id _ (by omega) (by omega)⟩

theorem readCell_ok_inv {g : Grid} {size : Point} {y x : Int} {v : Nat}
    (h : readCell g size y x = .ok v) : inSize size y x ∧ v = g y x := by
  unfold readCell at h
  split_ifs at h with h1 h2
  simp only [not_not] at h2
  injection h with h
  exact ⟨h2, h.symm⟩

theorem writeCell_ok_inv {g g1 : Grid} {size : Point} {y x : Int} {v : Nat}
    (h : writeCell g size y x v = .ok g1) : inSize size y x ∧ g1 = setCell g y x v := by
  unfold writeCell at h
  split_ifs at h with h1 h2
  simp only [not_not] at h2
  injection h with h
  exact ⟨h2, h.symm⟩

theorem closing_ne {f : Bool} {n cur : Point} (hne : n ≠ cur) :
    closing f n ≠ Event.solved cur.x cur.y ∧ closing f n ≠ Event.backtrack cur.x cur.y := by
  unfold closing
  constructor <;>
  · intro h
    apply hne
    cases f <;> simp only [Bool.false_eq_true, if_false, if_true, Event.solved.injEq,
      Event.backtrack.injEq] at h
    all_goals first
      | exact point_eq h.1 h.2
      | exact absurd h (by simp)

theorem RunSpec.last_other {g : Grid} {size end_ n cur : Point}
    {res : Bool × Grid × List Event} (R : RunSpec g size end_ n res) (hne : n ≠ cur) :
    res.2.2.getLast? ≠ some (Event.solved cur.x cur.y) ∧
    res.2.2.getLast? ≠ some (Event.backtrack cur.x cur.y) := by
  by_cases hw : g n.y n.x = WALL
  · rw [R.on_wall hw]
    simp
  · obtain ⟨mid, hmid, _, _⟩ := R.bracket hw
    rw [hmid, ← List.cons_append, List.getLast?_concat]
    have := @closing_ne res.1 n cur hne
    simp only [ne_eq, Option.some.injEq]
    exact this

theorem tryNeighbours_run (g : Grid) (size end_ cur : Point) (prev : Option Point)
    (hs : size.x ≤ 254 ∧ size.y ≤ 254)
    (rec : Grid → Point → Except Abort (Bool × Grid × List Event))
    (hcur : inSize size cur.y cur.x)
    (hrec : ∀ n res, rec g n = .ok res → RunSpec g size end_ n res)
    (blocks : List (Bool × Point))
    (hblocks : ∀ b ∈ blocks, b.1 = true → inSize size b.2.y b.2.x ∧ adjacent b.2 cur)
    (res : Bool × Grid × List Event)
    (h : tryNeighbours rec size cur prev g blocks = .ok res) :
    (∀ e ∈ res.2.2, e.isCell = false) ∧
    (res.1 = false → res.2.1 = g ∧ solvedCells res.2.2 = [] ∧
      res.2.2.getLast? ≠ some (Event.solved cur.x cur.y) ∧
      res.2.2.getLast? ≠ some (Event.backtrack cur.x cur.y)) ∧
    (res.1 = true → ∃ mid n, res.2.2 = mid ++ [Event.solved cur.x cur.y] ∧
      mid.getLast? ≠ some (Event.solved cur.x cur.y) ∧
      mid.getLast? ≠ some (Event.backtrack cur.x cur.y) ∧
      (solvedCells mid).head? = some end_ ∧ (solvedCells mid).getLast? = some n ∧
      adjacent n cur ∧ List.Chain' adjacent (solvedCells mid) ∧
      (∀ c ∈ solvedCells mid, inSize size c.y c.x ∧ g c.y c.x ≠ WALL) ∧
      res.2.1 = markSolution g (solvedCells mid ++ [cur])) := by
  induction blocks generalizing res with
  | nil =>
    unfold tryNeighbours at h
    injection h with h
    subst h
    refine ⟨fun e he => absurd he (List.not_mem_nil _), fun _ => ⟨rfl, rfl, by simp, by simp⟩,
      fun h => (by cases h)⟩
  | cons b blocks ih =>
    obtain ⟨guard, n⟩ := b
    have ih1 := ih (fun b hb => hblocks b (List.mem_cons_of_mem _ hb))
    have hU := toU16_inSize hs hcur
    unfold tryNeighbours at h
    by_cases hcond : (guard && !points_eql (some n) prev) = true
    · rw [if_pos hcond] at h
      simp only [Bool.and_eq_true] at hcond
      have hb := hblocks (guard, n) (List.mem_cons_self _ _) hcond.1
      cases hr : rec g n with
      | error e => rw [hr] at h; cases h
      | ok r1 =>
        rw [hr] at h
        have R := hrec n r1 hr
        obtain ⟨f1, g1, tr1⟩ := r1
        cases f1 with
        | true =>
          simp only at h
          obtain ⟨hf1, hf2, hf3, hf4, hf5⟩ := R.found rfl
          simp only at hf1 hf2 hf3 hf4 hf5
          cases hwc : writeCell g1 size cur.y cur.x SOLUTION with
          | error e => rw [hwc] at h; cases h
          | ok g2 =>
            rw [hwc] at h
            injection h with h
            subst h
            have hg2 := (writeCell_ok_inv hwc).2
            have hlast := R.last_other (adjacent_ne hb.2)
            simp only at hlast
            refine ⟨?_, fun h => (by cases h), fun _ => ⟨tr1, n, ?_, hlast.1, hlast.2, hf1, hf2,
              hb.2, hf3, hf4, ?_⟩⟩
            · intro e he
              simp only [List.mem_append, List.mem_singleton] at he
              rcases he with he | he
              · exact R.no_cell e he
              · rw [he]; rfl
            · simp only [hU.1, hU.2]
            · simp only
              rw [hg2, hf5]
              exact markSolution_snoc g _ cur
        | false =>
          simp only at h
          obtain ⟨hg1, hsol1⟩ := R.failed rfl
          simp only at hg1 hsol1
          subst hg1
          cases hrest : tryNeighbours rec size cur prev g1 blocks with
          | error e => rw [hrest] at h; cases h
          | ok r2 =>
            rw [hrest] at h
            obtain ⟨f2, g2, tr2⟩ := r2
            simp only at h
            injection h with h
            subst h
            obtain ⟨hn2, hfalse2, htrue2⟩ := ih1 _ hrest
            have hlast := R.last_other (adjacent_ne hb.2)
            simp only at hlast hn2 hfalse2 htrue2
            refine ⟨?_, ?_, ?_⟩
            · intro e he
              simp only [List.mem_append] at he
              rcases he with he | he
              · exact R.no_cell e he
              · exact hn2 e he
            · intro hf
              obtain ⟨h1, h2, h3, h4⟩ := hfalse2 hf
              refine ⟨h1, ?_, ?_, ?_⟩
              · simp only [solvedCells_append, hsol1, h2, List.append_nil]
              · simp only [List.getLast?_append]
                cases hl : tr2.getLast? with
                | none => simpa using hlast.1
                | some e => rw [hl] at h3; simpa using h3
              · simp only [List.getLast?_append]
                cases hl : tr2.getLast? with
                | none => simpa using hlast.2
                | some e => rw [hl] at h4; simpa using h4
            · intro hf
              obtain ⟨mid, n2, h1, h2, h3, h4, h5, h6, h7, h8, h9⟩ := htrue2 hf
              refine ⟨tr1 ++ mid, n2, ?_, ?_, ?_, ?_, ?_, h6, ?_, ?_, ?_⟩
              · simp only [h1, List.append_assoc]
              · simp only [List.getLast?_append]
                cases hl : mid.getLast? with
                | none => simpa using hlast.1
                | some e => rw [hl] at h2; simpa using h2
              · simp only [List.getLast?_append]
                cases hl : mid.getLast? with
                | none => simpa using hlast.2
                | some e => rw [hl] at h3; simpa using h3
              · simp only [solvedCells_append, hsol1, List.nil_append]; exact h4
              · simp only [solvedCells_append, hsol1, List.nil_append]; exact h5
              · simp only [solvedCells_append, hsol1, List.nil_append]; exact h7
              · simp only [solvedCells_append, hsol1, List.nil_append]; exact h8
              · simp only [solvedCells_append, hsol1, List.nil_append]; exact h9
    · rw [if_neg hcond] at h
      exact ih1 res h

theorem Point.eta_eq (c : Point) : (⟨c.x, c.y⟩ : Point) = c := rfl

theorem solve_maze_run (size end_ : Point) (hs : size.x ≤ 254 ∧ size.y ≤ 254) (g : Grid) :
    ∀ (fuel : Nat) (cur : Point) (prev : Option Point) (res : Bool × Grid × List Event),
      solve_maze fuel g size cur prev end_ = .ok res → RunSpec g size end_ cur res := by
  intro fuel
  induction fuel with
  | zero => intro cur prev res h; cases h
  | succ fuel ih =>
    intro cur prev res h
    unfold solve_maze at h
    cases hrd : readCell g size cur.y cur.x with
    | error e => rw [hrd] at h; cases h
    | ok v =>
      rw [hrd] at h
      obtain ⟨hcur, hv⟩ := readCell_ok_inv hrd
      have hU := toU16_inSize hs hcur
      simp only [hU.1, hU.2] at h
      by_cases hw : v = WALL
      · rw [if_pos hw] at h
        injection h with h
        subst h
        refine ⟨hcur, fun e he => absurd he (List.not_mem_nil _), fun _ => rfl,
          fun hne => absurd (hv ▸ hw) hne, fun _ => ⟨rfl, rfl⟩, fun h => (by cases h)⟩
      · rw [if_neg hw] at h
        have hgw : g cur.y cur.x ≠ WALL := hv ▸ hw
        by_cases hend : cur.x = end_.x ∧ cur.y = end_.y
        · rw [if_pos hend] at h
          have hce : cur = end_ := point_eq hend.1 hend.2
          cases hwc : writeCell g size cur.y cur.x SOLUTION with
          | error e => rw [hwc] at h; cases h
          | ok g2 =>
            rw [hwc] at h
            injection h with h
            subst h
            have hg2 := (writeCell_ok_inv hwc).2
            refine ⟨hcur, ?_, fun hx => absurd hx hgw, fun _ => ⟨[], ?_, by simp, by simp⟩,
              fun h => (by cases h), fun _ => ?_⟩
            · intro e he
              simp only [List.mem_cons, List.mem_singleton, List.not_mem_nil, or_false] at he
              rcases he with he | he <;> rw [he] <;> rfl
            · simp only [closing, if_true, List.nil_append]
            · simp only [solvedCells, Point.eta_eq]
              refine ⟨by rw [← hce]; rfl, by simp, List.chain'_singleton _, ?_, ?_⟩
              · intro c hc
                simp only [List.mem_singleton] at hc
                rw [hc]
                exact ⟨hcur, hgw⟩
              · rw [hg2]
                exact markSolution_single g cur
        · rw [if_neg hend] at h
          cases htn : tryNeighbours (fun m next => solve_maze fuel m size next (some cur) end_)
              size cur prev g (neighbourBlocks size cur) with
          | error e => rw [htn] at h; cases h
          | ok r =>
            rw [htn] at h
            obtain ⟨hn, hfalse, htrue⟩ := tryNeighbours_run g size end_ cur prev hs
              (fun m next => solve_maze fuel m size next (some cur) end_) hcur
              (fun n res hr => ih n (some cur) res hr) (neighbourBlocks size cur)
              (fun b hb hb1 => neighbourBlocks_sound size cur hs hcur b hb hb1) r htn
            obtain ⟨f, g2, tr⟩ := r
            cases f with
            | true =>
              simp only at h
              injection h with h
              subst h
              obtain ⟨mid, n, h1, h2, h3, h4, h5, h6, h7, h8, h9⟩ := htrue rfl
              simp only at h1 h9 hn
              have hsc : solvedCells (Event.descend cur.x cur.y :: tr) =
                  solvedCells mid ++ [cur] := by
                rw [h1]
                simp only [solvedCells, solvedCells_append, Point.eta_eq]
              refine ⟨hcur, ?_, fun hx => absurd hx hgw, fun _ => ⟨mid, ?_, h2, h3⟩,
                fun h => (by cases h), fun _ => ?_⟩
              · intro e he
                simp only [List.mem_cons] at he
                rcases he with he | he
                · rw [he]; rfl
                · exact hn e he
              · simp only [closing, if_true, h1]
              · simp only [hsc]
                refine ⟨?_, by simp, ?_, ?_, h9⟩
                · cases hm : solvedCells mid with
                  | nil => rw [hm] at h4; cases h4
                  | cons a t => rw [hm] at h4; simpa using h4
                · rw [List.chain'_append]
                  refine ⟨h7, List.chain'_singleton _, ?_⟩
                  intro x hx y hy
                  rw [h5] at hx
                  simp only [Option.mem_def, Option.some.injEq, List.head?_cons] at hx hy
                  rw [← hx, ← hy]
                  exact h6
                · intro c hc
                  simp only [List.mem_append, List.mem_singleton] at hc
                  rcases hc with hc | hc
                  · exact h8 c hc
                  · rw [hc]; exact ⟨hcur, hgw⟩
            | false =>
              simp only at h
              injection h with h
              subst h
              obtain ⟨h1, h2, h3, h4⟩ := hfalse rfl
              simp only at h1 h2 h3 h4 hn
              refine ⟨hcur, ?_, fun hx => absurd hx hgw, fun _ => ⟨tr, ?_, h3, h4⟩,
                fun _ => ⟨h1, ?_⟩, fun h => (by cases h)⟩
              · intro e he
                simp only [List.mem_cons, List.mem_append, List.mem_singleton, List.not_mem_nil,
                  or_false] at he
                rcases he with he | he | he
                · rw [he]; rfl
                · exact hn e he
                · rw [he]; rfl
              · simp only [closing, Bool.false_eq_true, if_false]
              · simp only [solvedCells, solvedCells_append, h2, List.nil_append]
/-! ## The events of a call of the solver -/

set_option maxRecDepth 100000 in
theorem demoSolved_eq :
    solve_maze 26 demoGenerated.2.1 ⟨5, 5⟩ demoGenerated.2.2.1 none demoGenerated.2.2.2 =
      .ok demoSolved := by
  rfl

/-- C16: for every grid of a size up to 254 by 254 and every call of
`solve_maze` that returns: when the current cell is not `WALL`, the events of
the call are `descend(current)`, then the events of the calls below it, then
one closing event for `current`, which is `solved(current)` exactly when the
call returns 1 and `backtrack(current)` exactly when it returns 0, and the
event before that last one is not a closing event for `current`; a call on a
`WALL` cell inside the grid returns 0 with no event and the grid unchanged. -/
theorem solve_maze_events_bracketed (fuel : Nat) (g : Grid) (size cur end_ : Point)
    (prev : Option Point) (hs : size.x ≤ 254 ∧ size.y ≤ 254) :
    (∀ res, solve_maze fuel g size cur prev end_ = .ok res → g cur.y cur.x ≠ WALL →
      inSize size cur.y cur.x ∧
      ∃ mid last, res.2.2 = Event.descend cur.x cur.y :: (mid ++ [last]) ∧
        (res.1 = true ↔ last = Event.solved cur.x cur.y) ∧
        (res.1 = false ↔ last = Event.backtrack cur.x cur.y) ∧
        mid.getLast? ≠ some (Event.solved cur.x cur.y) ∧
        mid.getLast? ≠ some (Event.backtrack cur.x cur.y)) ∧
    (inSize size cur.y cur.x → g cur.y cur.x = WALL →
      solve_maze (fuel + 1) g size cur prev end_ = .ok (false, g, [])) := by
  refine ⟨?_, fun hcur hw => solve_maze_wall fuel g size cur end_ prev hs hcur hw⟩
  intro res h hw
  have R := solve_maze_run size end_ hs g fuel cur prev res h
  obtain ⟨mid, hmid, h1, h2⟩ := R.bracket hw
  refine ⟨R.cur_in, mid, closing res.1 cur, hmid, ?_, ?_, h1, h2⟩
  · cases res.1 <;> simp [closing]
  · cases res.1 <;> simp [closing]

/-- The events of the solver on the maze generated for width 5, height 5, seed 1. -/
theorem solve_maze_events_bracketed_witness :
    ((5 : Int) ≤ 254 ∧ (5 : Int) ≤ 254) ∧
    solve_maze 26 demoGenerated.2.1 ⟨5, 5⟩ demoGenerated.2.2.1 none demoGenerated.2.2.2 =
      .ok demoSolved ∧
    demoGenerated.2.1 demoGenerated.2.2.1.y demoGenerated.2.2.1.x ≠ WALL ∧
    ∃ mid last, demoSolved.2.2 =
        Event.descend demoGenerated.2.2.1.x demoGenerated.2.2.1.y :: (mid ++ [last]) ∧
      (demoSolved.1 = true ↔ last = Event.solved demoGenerated.2.2.1.x demoGenerated.2.2.1.y) :=
  have hw : demoGenerated.2.1 demoGenerated.2.2.1.y demoGenerated.2.2.1.x ≠ WALL := by decide
  have h := (solve_maze_events_bracketed 26 demoGenerated.2.1 ⟨5, 5⟩ demoGenerated.2.2.1
    demoGenerated.2.2.2 none ⟨by decide, by decide⟩).1 demoSolved demoSolved_eq hw
  ⟨⟨by decide, by decide⟩, demoSolved_eq, hw,
    h.2.imp fun _ hm => hm.imp fun _ hl => ⟨hl.1, hl.2.1⟩⟩

/-- C17: for every grid of a size up to 254 by 254 and every `current`,
`previous` and `end`: a call of `solve_maze` that returns 0 leaves the grid
as it was; a call that returns 1 leaves in each cell either the state it had
or `SOLUTION`; in both cases every cell that held `WALL` still holds `WALL`. -/
theorem solve_maze_failure_keeps_grid (fuel : Nat) (g : Grid) (size cur end_ : Point)
    (prev : Option Point) (res : Bool × Grid × List Event)
    (hs : size.x ≤ 254 ∧ size.y ≤ 254)
    (h : solve_maze fuel g size cur prev end_ = .ok res) :
    (res.1 = false → res.2.1 = g) ∧
    (res.1 = true → ∀ y x, res.2.1 y x = g y x ∨ res.2.1 y x = SOLUTION) ∧
    (∀ y x, g y x = WALL → res.2.1 y x = WALL) := by
  have R := solve_maze_run size end_ hs g fuel cur prev res h
  refine ⟨fun hf => (R.failed hf).1, ?_, ?_⟩
  · intro ht y x
    obtain ⟨_, _, _, _, hg⟩ := R.found ht
    rw [hg]
    unfold markSolution
    by_cases hm : (⟨x, y⟩ : Point) ∈ solvedCells res.2.2
    · right; rw [if_pos hm]
    · left; rw [if_neg hm]
  · intro y x hw
    cases hr : res.1 with
    | false => rw [(R.failed hr).1]; exact hw
    | true =>
      obtain ⟨_, _, _, hc, hg⟩ := R.found hr
      rw [hg]
      unfold markSolution
      by_cases hm : (⟨x, y⟩ : Point) ∈ solvedCells res.2.2
      · exact absurd hw (hc _ hm).2
      · rw [if_neg hm]; exact hw

/-- The grid after the solver has run on the maze generated for width 5,
height 5, seed 1. -/
theorem solve_maze_failure_keeps_grid_witness :
    ((5 : Int) ≤ 254 ∧ (5 : Int) ≤ 254) ∧
    solve_maze 26 demoGenerated.2.1 ⟨5, 5⟩ demoGenerated.2.2.1 none demoGenerated.2.2.2 =
      .ok demoSolved ∧
    ((demoSolved.1 = false → demoSolved.2.1 = demoGenerated.2.1) ∧
    (demoSolved.1 = true →
      ∀ y x, demoSolved.2.1 y x = demoGenerated.2.1 y x ∨ demoSolved.2.1 y x = SOLUTION) ∧
    (∀ y x, demoGenerated.2.1 y x = WALL → demoSolved.2.1 y x = WALL)) :=
  ⟨⟨by decide, by decide⟩, demoSolved_eq,
    solve_maze_failure_keeps_grid 26 demoGenerated.2.1 ⟨5, 5⟩ demoGenerated.2.2.1
      demoGenerated.2.2.2 none demoSolved ⟨by decide, by decide⟩ demoSolved_eq⟩

/-- C20: for every grid of a size up to 254 by 254 and every call of
`solve_maze` that returns 1, the cells of the `solved` events, in the order of
the events, begin with `end` and finish with `current`; consecutive cells are
orthogonally adjacent; each is inside the grid and not `WALL` in the grid the
call was given; the grid after the call holds `SOLUTION` in each of them and
in every other cell the state it had. -/
theorem solve_maze_solved_events_path (fuel : Nat) (g : Grid) (size cur end_ : Point)
    (prev : Option Point) (g1 : Grid) (tr : List Event)
    (hs : size.x ≤ 254 ∧ size.y ≤ 254)
    (h : solve_maze fuel g size cur prev end_ = .ok (true, g1, tr)) :
    (solvedCells tr).head? = some end_ ∧ (solvedCells tr).getLast? = some cur ∧
    List.Chain' adjacent (solvedCells tr) ∧
    (∀ c ∈ solvedCells tr, inSize size c.y c.x ∧ g c.y c.x ≠ WALL) ∧
    (∀ c ∈ solvedCells tr, g1 c.y c.x = SOLUTION) ∧
    (∀ y x, (⟨x, y⟩ : Point) ∉ solvedCells tr → g1 y x = g y x) := by
  have R := solve_maze_run size end_ hs g fuel cur prev _ h
  obtain ⟨h1, h2, h3, h4, h5⟩ := R.found rfl
  simp only at h1 h2 h3 h4 h5
  refine ⟨h1, h2, h3, h4, ?_, ?_⟩
  · intro c hc
    rw [h5]
    unfold markSolution
    rw [if_pos hc]
  · intro y x hm
    rw [h5]
    unfold markSolution
    rw [if_neg hm]

/-- The cells of the `solved` events of the solver on the maze generated for
width 5, height 5, seed 1. -/
theorem solve_maze_solved_events_path_witness :
    ((5 : Int) ≤ 254 ∧ (5 : Int) ≤ 254) ∧
    solve_maze 26 demoGenerated.2.1 ⟨5, 5⟩ demoGenerated.2.2.1 none demoGenerated.2.2.2 =
      .ok (true, demoSolved.2.1, demoSolved.2.2) ∧
    ((solvedCells demoSolved.2.2).head? = some demoGenerated.2.2.2 ∧
    (solvedCells demoSolved.2.2).getLast? = some demoGenerated.2.2.1 ∧
    List.Chain' adjacent (solvedCells demoSolved.2.2) ∧
    (∀ c ∈ solvedCells demoSolved.2.2,
      inSize ⟨5, 5⟩ c.y c.x ∧ demoGenerated.2.1 c.y c.x ≠ WALL) ∧
    (∀ c ∈ solvedCells demoSolved.2.2, demoSolved.2.1 c.y c.x = SOLUTION) ∧
    (∀ y x, (⟨x, y⟩ : Point) ∉ solvedCells demoSolved.2.2 →
      demoSolved.2.1 y x = demoGenerated.2.1 y x)) :=
  ⟨⟨by decide, by decide⟩, demoSolved_eq,
    solve_maze_solved_events_path 26 demoGenerated.2.1 ⟨5, 5⟩ demoGenerated.2.2.1
      demoGenerated.2.2.2 none demoSolved.2.1 demoSolved.2.2 ⟨by decide, by decide⟩
      demoSolved_eq⟩

/-- On a grid with a cycle a call of the solver can enter its own cell again
in a nested call: on `cycleGrid`, from `(1, 1)` to `(2, 1)`, the call returns 1
and both `descend(1, 1)` and `solved(1, 1)` occur twice among its events. The
last event is still the only closing event at the end of the sequence. -/
theorem solve_maze_cycle_nested_call :
    ∃ g1 tr, solve_maze 12 cycleGrid ⟨3, 4⟩ ⟨1, 1⟩ none ⟨2, 1⟩ = .ok (true, g1, tr) ∧
      (descendCells tr).count ⟨1, 1⟩ = 2 ∧ (solvedCells tr).count ⟨1, 1⟩ = 2 :=
  ⟨_, _, rfl, by decide, by decide⟩
/-! ## The events of `render_maze` -/

theorem render_row (g : Grid) (w h : Int) (hw : 0 ≤ w ∧ w ≤ 254) (hh : 0 ≤ h ∧ h ≤ 254)
    (y : Nat) (hy : (y : Int) < h) (tr : List Event) :
    ∀ n : Nat, (n : Int) ≤ w →
      (List.range n).foldlM (fun tr (x : Nat) => do
        let v ← readCell g ⟨w, h⟩ (y : Int) (x : Int)
        pure (tr ++ [Event.cell (x : Int) (y : Int) v])) tr =
      Except.ok (tr ++ (List.range n).map
        fun (x : Nat) => Event.cell (x : Int) (y : Int) (g (y : Int) (x : Int))) := by
  intro n
  induction n with
  | zero => intro _; simp only [List.range_zero, List.foldlM_nil, List.map_nil, List.append_nil]; rfl
  | succ n ih =>
    intro hn
    have hr : readCell g ⟨w, h⟩ (y : Int) (n : Int) = .ok (g y n) :=
      readCell_ok g ⟨w, h⟩ y n (by unfold inSize; dsimp only; omega) ⟨hw.2, hh.2⟩
    rw [List.range_succ, List.foldlM_append, ih (by omega)]
    simp only [ok_bind, List.foldlM_cons, List.foldlM_nil, hr, List.map_append, List.map_cons,
      List.map_nil, List.append_assoc]
    rfl

theorem render_maze_eq (g : Grid) (w h : Int) (hw : 0 ≤ w ∧ w ≤ 254) (hh : 0 ≤ h ∧ h ≤ 254) :
    render_maze g ⟨w, h⟩ = .ok ((List.range (w.toNat * h.toNat)).map fun (k : Nat) =>
      Event.cell ((k % w.toNat : Nat) : Int) ((k / w.toNat : Nat) : Int)
        (g ((k / w.toNat : Nat) : Int) ((k % w.toNat : Nat) : Int))) := by
  unfold render_maze
  dsimp only
  have key : ∀ m : Nat, (m : Int) ≤ h →
      (List.range m).foldlM (fun tr (y : Nat) => (List.range w.toNat).foldlM
        (fun tr (x : Nat) => do
          let v ← readCell g ⟨w, h⟩ (y : Int) (x : Int)
          pure (tr ++ [Event.cell (x : Int) (y : Int) v])) tr) [] =
      Except.ok ((List.range (w.toNat * m)).map fun (k : Nat) =>
        Event.cell ((k % w.toNat : Nat) : Int) ((k / w.toNat : Nat) : Int)
          (g ((k / w.toNat : Nat) : Int) ((k % w.toNat : Nat) : Int))) := by
    intro m
    induction m with
    | zero => intro _; rfl
    | succ m ih =>
      intro hm
      rw [List.range_succ, List.foldlM_append, ih (by omega)]
      simp only [ok_bind, List.foldlM_cons, List.foldlM_nil]
      rw [render_row g w h hw hh m (by omega) _ w.toNat (by omega)]
      simp only [bind_ok_pure, Nat.mul_succ, List.range_add, List.map_append, List.map_map]
      congr 2
      apply List.map_congr_left
      intro x hx
      have hx1 : x < w.toNat := List.mem_range.1 hx
      simp only [Function.comp]
      rw [Nat.mul_add_mod, Nat.mod_eq_of_lt hx1, Nat.mul_add_div (by omega),
        Nat.div_eq_of_lt hx1, Nat.add_zero]
  exact key h.toNat (by omega)

/-- C11: for every grid and every size with `0 ≤ width ≤ 254` and
`0 ≤ height ≤ 254`, `render_maze` returns and emits exactly the
`width * height` cell events of the grid in row-major order, each with the
state stored at `maze[y][x]`; and when `generate_and_solve_maze` returns, its
events are these cell events of the generated grid followed by the events of
the solver, none of which is a cell event. -/
theorem render_maze_row_major (g : Grid) (w h : Int)
    (hw : 0 ≤ w ∧ w ≤ 254) (hh : 0 ≤ h ∧ h ≤ 254) :
    render_maze g ⟨w, h⟩ = .ok (rowMajorCells g w.toNat h.toNat) ∧
    (rowMajorCells g w.toNat h.toNat).length = w.toNat * h.toNat ∧
    ∀ fuel st maze seed o, generate_and_solve_maze fuel st maze w h seed = .ok o →
      ∃ r moves, generate_maze fuel (rand_seed st (toU32 seed)) maze ⟨w, h⟩ = .ok r ∧
        o.events = rowMajorCells r.2.1 w.toNat h.toNat ++ moves ∧
        (∀ e ∈ rowMajorCells r.2.1 w.toNat h.toNat, e.isCell = true) ∧
        (∀ e ∈ moves, e.isCell = false) := by
  refine ⟨render_maze_eq g w h hw hh, by simp [rowMajorCells], ?_⟩
  intro fuel st maze seed o ho
  unfold generate_and_solve_maze at ho
  rw [toShort_id w (by omega) (by omega), toShort_id h (by omega) (by omega)] at ho
  dsimp only at ho
  cases hg : generate_maze fuel (rand_seed st (toU32 seed)) maze ⟨w, h⟩ with
  | error e => rw [hg] at ho; cases ho
  | ok r =>
    simp only [hg] at ho
    obtain ⟨st1, g1, start, end_⟩ := r
    simp only [ok_bind, render_maze_eq g1 w h hw hh] at ho
    cases hsol : solve_maze fuel g1 ⟨w, h⟩ start none end_ with
    | error e => rw [hsol] at ho; cases ho
    | ok res =>
      rw [hsol] at ho
      obtain ⟨f, g2, moves⟩ := res
      simp only [ok_bind] at ho
      injection ho with ho
      subst ho
      have R := solve_maze_run ⟨w, h⟩ end_ ⟨hw.2, hh.2⟩ g1 fuel start none _ hsol
      refine ⟨(st1, g1, start, end_), moves, rfl, rfl, ?_, R.no_cell⟩
      intro e he
      simp only [rowMajorCells, List.mem_map] at he
      obtain ⟨k, _, rfl⟩ := he
      rfl

/-- The cell events of a grid of 3 columns and 2 rows, and the events of the
run at width 5, height 5, seed 1. -/
theorem render_maze_row_major_witness :
    ((0 : Int) ≤ 3 ∧ (3 : Int) ≤ 254) ∧ ((0 : Int) ≤ 2 ∧ (2 : Int) ≤ 254) ∧
    render_maze (fun y x => (3 * y + x).toNat) ⟨3, 2⟩ =
      .ok [Event.cell 0 0 0, Event.cell 1 0 1, Event.cell 2 0 2,
        Event.cell 0 1 3, Event.cell 1 1 4, Event.cell 2 1 5] :=
  ⟨⟨by decide, by decide⟩, ⟨by decide, by decide⟩,
    (render_maze_row_major (fun y x => (3 * y + x).toNat) 3 2 ⟨by decide, by decide⟩
      ⟨by decide, by decide⟩).1⟩
/-! ## Indices and divisors of the whole run -/

theorem tryNeighbours_safe (size cur : Point) (prev : Option Point)
    (hs : size.x ≤ 254 ∧ size.y ≤ 254)
    (rec : Grid → Point → Except Abort (Bool × Grid × List Event))
    (hcur : inSize size cur.y cur.x)
    (hrec : ∀ g n, inSize size n.y n.x →
      rec g n = .error .outOfFuel ∨ ∃ res, rec g n = .ok res)
    (blocks : List (Bool × Point))
    (hblocks : ∀ b ∈ blocks, b.1 = true → inSize size b.2.y b.2.x) :
    ∀ g, tryNeighbours rec size cur prev g blocks = .error .outOfFuel ∨
      ∃ res, tryNeighbours rec size cur prev g blocks = .ok res := by
  induction blocks with
  | nil => intro g; right; exact ⟨_, rfl⟩
  | cons b blocks ih =>
    intro g
    obtain ⟨guard, n⟩ := b
    have ih1 := ih (fun b hb => hblocks b (List.mem_cons_of_mem _ hb))
    unfold tryNeighbours
    by_cases hcond : (guard && !points_eql (some n) prev) = true
    · rw [if_pos hcond]
      simp only [Bool.and_eq_true] at hcond
      have hn := hblocks (guard, n) (List.mem_cons_self _ _) hcond.1
      rcases hrec g n hn with hr | ⟨⟨f1, g1, tr1⟩, hr⟩
      · left; rw [hr]
      · rw [hr]
        cases f1 with
        | true =>
          simp only
          rw [writeCell_ok g1 size cur.y cur.x SOLUTION hcur hs]
          right; exact ⟨_, rfl⟩
        | false =>
          simp only
          rcases ih1 g1 with h2 | ⟨⟨f2, g2, tr2⟩, h2⟩
          · left; rw [h2]
          · right; rw [h2]; exact ⟨_, rfl⟩
    · rw [if_neg hcond]
      exact ih1 g

theorem solve_maze_safe (size end_ : Point) (hs : size.x ≤ 254 ∧ size.y ≤ 254) :
    ∀ (fuel : Nat) (g : Grid) (cur : Point) (prev : Option Point), inSize size cur.y cur.x →
      solve_maze fuel g size cur prev end_ = .error .outOfFuel ∨
        ∃ res, solve_maze fuel g size cur prev end_ = .ok res := by
  intro fuel
  induction fuel with
  | zero => intro g cur prev _; left; rfl
  | succ fuel ih =>
    intro g cur prev hcur
    unfold solve_maze
    rw [readCell_ok g size cur.y cur.x hcur hs]
    simp only
    by_cases hw : g cur.y cur.x = WALL
    · rw [if_pos hw]; right; exact ⟨_, rfl⟩
    · rw [if_neg hw]
      by_cases hend : cur.x = end_.x ∧ cur.y = end_.y
      · rw [if_pos hend, writeCell_ok g size cur.y cur.x SOLUTION hcur hs]
        right; exact ⟨_, rfl⟩
      · rw [if_neg hend]
        rcases tryNeighbours_safe size cur prev hs
          (fun m next => solve_maze fuel m size next (some cur) end_) hcur
          (fun g n hn => ih g n (some cur) hn) (neighbourBlocks size cur)
          (fun b hb hb1 => (neighbourBlocks_sound size cur hs hcur b hb hb1).1) g with
          h1 | ⟨⟨f, g2, tr⟩, h1⟩
        · left; rw [h1]
        · right; rw [h1]
          cases f <;> exact ⟨_, rfl⟩
/-- C19: for every width and height in 2..254, every seed and every content of
the generator state and the array: no step of `generate_maze`, `render_maze`
and `solve_maze` (started at the generated `start`) indexes the grid outside
rows `0..height-1` and columns `0..width-1` or takes a remainder by zero, so
that `generate_and_solve_maze` either returns or is still running when the
fuel is used up; and in the walk, a one-step cell that passes the bounds test
from a position with both coordinates odd inside the grid has its two-step
neighbour inside the grid with both coordinates odd. -/
theorem generate_and_solve_maze_indices_in_range (fuel : Nat) (st : RandState) (maze : Grid)
    (w h seed : Int) (hw : 2 ≤ w ∧ w ≤ 254) (hh : 2 ≤ h ∧ h ≤ 254) :
    (generate_and_solve_maze fuel st maze w h seed = .error .outOfFuel ∨
      ∃ o, generate_and_solve_maze fuel st maze w h seed = .ok o) ∧
    (∀ r, generate_maze fuel (rand_seed st (toU32 seed)) maze ⟨w, h⟩ = .ok r →
      (∃ cells, render_maze r.2.1 ⟨w, h⟩ = .ok cells) ∧
      ∀ fuel1, solve_maze fuel1 r.2.1 ⟨w, h⟩ r.2.2.1 none r.2.2.2 = .error .outOfFuel ∨
        ∃ res, solve_maze fuel1 r.2.1 ⟨w, h⟩ r.2.2.1 none r.2.2.2 = .ok res) ∧
    (∀ p d : Point, isVertex ⟨w, h⟩ p → d ∈ [NORTH, EAST, SOUTH, WEST] →
      wallInBounds ⟨w, h⟩ ⟨p.x + d.x, p.y + d.y⟩ →
      inSize ⟨w, h⟩ (p.y + d.y) (p.x + d.x) ∧ isVertex ⟨w, h⟩ ⟨p.x + d.x * 2, p.y + d.y * 2⟩) := by
  have hs : (⟨w, h⟩ : Point).x ≤ 254 ∧ (⟨w, h⟩ : Point).y ≤ 254 := ⟨hw.2, hh.2⟩
  have hsolve : ∀ r, generate_maze fuel (rand_seed st (toU32 seed)) maze ⟨w, h⟩ = .ok r →
      ∀ fuel1, solve_maze fuel1 r.2.1 ⟨w, h⟩ r.2.2.1 none r.2.2.2 = .error .outOfFuel ∨
        ∃ res, solve_maze fuel1 r.2.1 ⟨w, h⟩ r.2.2.1 none r.2.2.2 = .ok res := by
    intro r hr fuel1
    obtain ⟨st1, g, start, end_⟩ := r
    have G := generate_maze_generated fuel _ st1 maze g w h start end_ hw hh hr
    exact solve_maze_safe ⟨w, h⟩ end_ hs fuel1 g start none G.start_in
  refine ⟨?_, fun r hr => ⟨⟨_, render_maze_eq r.2.1 w h ⟨by omega, hw.2⟩ ⟨by omega, hh.2⟩⟩,
    hsolve r hr⟩, fun p d hp hd hb => ⟨wall_inSize _ p d hp hd hb, neighbor_isVertex _ p d hp hd hb⟩⟩
  unfold generate_and_solve_maze
  rw [toShort_id w (by omega) (by omega), toShort_id h (by omega) (by omega)]
  dsimp only
  rcases generate_maze_safe fuel (rand_seed st (toU32 seed)) maze w h hw hh with hg | ⟨r, hg⟩
  · left; rw [hg]; rfl
  · have h2 := hsolve r hg fuel
    obtain ⟨st1, g, start, end_⟩ := r
    simp only [hg, ok_bind, render_maze_eq g w h ⟨by omega, hw.2⟩ ⟨by omega, hh.2⟩]
    rcases h2 with h2 | ⟨⟨f, g2, tr⟩, h2⟩
    · left; simp only at h2; rw [h2]; rfl
    · right; simp only at h2; rw [h2]; exact ⟨_, rfl⟩

/-- The run at width 5, height 5, seed 1 with fuel 100 returns. -/
theorem generate_and_solve_maze_indices_in_range_witness :
    ((2 : Int) ≤ 5 ∧ (5 : Int) ≤ 254) ∧ ((2 : Int) ≤ 5 ∧ (5 : Int) ≤ 254) ∧
    (generate_and_solve_maze 100 ⟨0, 0, 0, 0⟩ (fun _ _ => 0) 5 5 1 = .error .outOfFuel ∨
      ∃ o, generate_and_solve_maze 100 ⟨0, 0, 0, 0⟩ (fun _ _ => 0) 5 5 1 = .ok o) :=
  ⟨⟨by decide, by decide⟩, ⟨by decide, by decide⟩,
    (generate_and_solve_maze_indices_in_range 100 ⟨0, 0, 0, 0⟩ (fun _ _ => 0) 5 5 1
      ⟨by decide, by decide⟩ ⟨by decide, by decide⟩).1⟩
/-! ## Invariants along the iterations of the walk -/

theorem walkIterations_spec (size : Point) (hs : size.x ≤ 254 ∧ size.y ≤ 254)
    (I : WalkState → Prop) (hI : ∀ s, I s → isVertex size s.2.1)
    (hstep : ∀ s t, I s → 0 < s.2.2 → WalkStep size s t → I t) :
    ∀ (fuel : Nat) (st : RandState) (maze : Grid) (p : Point) (remain : Int),
      I (maze, p, remain) →
      ∀ it ∈ walkIterations fuel st maze size p remain,
        I it.1 ∧ 0 < it.1.2.2 ∧ it.2.1.Perm [NORTH, EAST, SOUTH, WEST] ∧
        scanDirections it.1.1 size it.1.2.1 it.1.2.2 it.2.1 = .ok it.2.2 ∧
        WalkStep size it.1 it.2.2 := by
  intro fuel
  induction fuel with
  | zero =>
    intro st maze p remain _ it hit
    unfold walkIterations at hit
    split_ifs at hit <;> cases hit
  | succ fuel ih =>
    intro st maze p remain hi it hit
    unfold walkIterations at hit
    by_cases hr : remain > 0
    · rw [if_pos hr] at hit
      simp only at hit
      have hperm := randomize_directions_perm4 st NORTH EAST SOUTH WEST
      obtain ⟨s, hs1, hs2⟩ := scanDirections_spec maze size p remain hs (hI _ hi)
        (randomize_directions st [NORTH, EAST, SOUTH, WEST]).2 (fun d hd => hperm.subset hd)
      rw [hs1] at hit
      obtain ⟨maze2, p2, remain2⟩ := s
      simp only [List.mem_cons] at hit
      rcases hit with rfl | hit
      · exact ⟨hi, hr, hperm, hs1, hs2⟩
      · exact ih _ maze2 p2 remain2 (hstep _ _ hi hr hs2) it hit
    · rw [if_neg hr] at hit
      cases hit

theorem CarvedInside.step_inside (size start end_ : Point) (s t : WalkState)
    (hv : isVertex size s.2.1) (inv : CarvedInside size start end_ s)
    (hstep : WalkStep size s t) : CarvedInside size start end_ t := by
  cases hstep with
  | stay => exact inv
  | move g p r d hd hb hu => exact inv
  | carve g p r d hd hb hu =>
    intro c hc hnv hpass
    simp only at hpass
    unfold setCell at hpass
    by_cases h1 : c.y = p.y + d.y ∧ c.x = p.x + d.x
    · right; right
      have e : c = ⟨p.x + d.x, p.y + d.y⟩ := point_eq h1.2 h1.1
      rw [e]; exact hb
    · rw [if_neg h1] at hpass
      by_cases h2 : c.y = p.y + d.y * 2 ∧ c.x = p.x + d.x * 2
      · exfalso
        apply hnv
        have e : c = ⟨p.x + d.x * 2, p.y + d.y * 2⟩ := point_eq h2.2 h2.1
        rw [e]
        exact neighbor_isVertex size p d hv hd hb
      · rw [if_neg h2] at hpass
        exact inv c hc hnv hpass

theorem CarvedInside.init_inside (maze : Grid) (size start end_ p : Point)
    (S : SetupShape size start end_ p) :
    CarvedInside size start end_
      (setupGrid maze size start end_ p, p, size.x / 2 * (size.y / 2) - 1) := by
  intro c hc hnv hpass
  rcases setup_passage_cases maze size start end_ p S c hc hpass with h | h
  · exact absurd (h ▸ S.p_vertex) hnv
  · rcases h.2 with h | h
    · left; exact h
    · right; left; exact h

theorem generate_maze_iterations (fuel : Nat) (st : RandState) (maze : Grid) (w h : Int)
    (hw : 2 ≤ w ∧ w ≤ 254) (hh : 2 ≤ h ∧ h ≤ 254) :
    ∃ start end_ : Point,
      (∀ r, generate_maze fuel st maze ⟨w, h⟩ = .ok r →
        r.2.2.1 = start ∧ r.2.2.2 = end_ ∧
        ∃ p, MazeInv ⟨w, h⟩ start end_ (r.2.1, p, 0) ∧
          CarvedInside ⟨w, h⟩ start end_ (r.2.1, p, 0)) ∧
      ∀ it ∈ generateIterations fuel st maze ⟨w, h⟩,
        MazeInv ⟨w, h⟩ start end_ it.1 ∧ CarvedInside ⟨w, h⟩ start end_ it.1 ∧
        0 < it.1.2.2 ∧ it.2.1.Perm [NORTH, EAST, SOUTH, WEST] ∧
        scanDirections it.1.1 ⟨w, h⟩ it.1.2.1 it.1.2.2 it.2.1 = .ok it.2.2 ∧
        WalkStep ⟨w, h⟩ it.1 it.2.2 ∧
        MazeInv ⟨w, h⟩ start end_ it.2.2 ∧ CarvedInside ⟨w, h⟩ start end_ it.2.2 := by
  obtain ⟨a, b, c, d, st2, ha, hb, hc, hd, hsetup⟩ := generateSetup_ok st maze w h hw hh
  have hs : (⟨w, h⟩ : Point).x ≤ 254 ∧ (⟨w, h⟩ : Point).y ≤ 254 := ⟨hw.2, hh.2⟩
  have S : SetupShape ⟨w, h⟩ ⟨2 * a + 1, 0⟩ ⟨2 * b + 1, h - 1⟩ ⟨2 * c + 1, 2 * d + 1⟩ :=
    { width := hw
      height := hh
      start_y := rfl
      start_x := by simp only; omega
      end_y := rfl
      end_x := by simp only; omega
      p_vertex := by unfold isVertex inSize; simp only; omega }
  have hinit := MazeInv.init maze ⟨w, h⟩ _ _ _ S
  have hinit2 := CarvedInside.init_inside maze ⟨w, h⟩ _ _ _ S
  have hstep : ∀ s t : WalkState,
      MazeInv ⟨w, h⟩ ⟨2 * a + 1, 0⟩ ⟨2 * b + 1, h - 1⟩ s ∧
        CarvedInside ⟨w, h⟩ ⟨2 * a + 1, 0⟩ ⟨2 * b + 1, h - 1⟩ s →
      0 < s.2.2 → WalkStep ⟨w, h⟩ s t →
      MazeInv ⟨w, h⟩ ⟨2 * a + 1, 0⟩ ⟨2 * b + 1, h - 1⟩ t ∧
        CarvedInside ⟨w, h⟩ ⟨2 * a + 1, 0⟩ ⟨2 * b + 1, h - 1⟩ t :=
    fun s t hI _ hst => ⟨MazeInv.step _ _ _ hs rfl rfl s t hI.1 hst,
      CarvedInside.step_inside _ _ _ s t hI.1.pos_vertex hI.2 hst⟩
  refine ⟨⟨2 * a + 1, 0⟩, ⟨2 * b + 1, h - 1⟩, ?_, ?_⟩
  · intro r hgen
    unfold generate_maze at hgen
    rw [hsetup] at hgen
    simp only [ok_bind] at hgen
    rcases walk_spec ⟨w, h⟩ hs
        (fun s => MazeInv ⟨w, h⟩ ⟨2 * a + 1, 0⟩ ⟨2 * b + 1, h - 1⟩ s ∧
          CarvedInside ⟨w, h⟩ ⟨2 * a + 1, 0⟩ ⟨2 * b + 1, h - 1⟩ s)
        (fun s hI => hI.1.pos_vertex) hstep
        fuel st2 _ _ _ ⟨hinit, hinit2⟩ with h1 | ⟨st3, maze3, p3, r3, h1, h2, h3⟩
    · rw [h1] at hgen; cases hgen
    · rw [h1] at hgen
      simp only [ok_bind] at hgen
      have e : (st3, maze3, (⟨2 * a + 1, 0⟩ : Point), (⟨2 * b + 1, h - 1⟩ : Point)) = r := by
        injection hgen
      rw [← e]
      have hr : r3 = 0 := by
        have := h2.1.remain_eq
        simp only at this
        omega
      subst hr
      exact ⟨rfl, rfl, p3, h2.1, h2.2⟩
  · intro it hit
    unfold generateIterations at hit
    rw [hsetup] at hit
    simp only at hit
    obtain ⟨h1, h2, h3, h4, h5⟩ := walkIterations_spec ⟨w, h⟩ hs
        (fun s => MazeInv ⟨w, h⟩ ⟨2 * a + 1, 0⟩ ⟨2 * b + 1, h - 1⟩ s ∧
          CarvedInside ⟨w, h⟩ ⟨2 * a + 1, 0⟩ ⟨2 * b + 1, h - 1⟩ s)
        (fun s hI => hI.1.pos_vertex) hstep
        fuel st2 _ _ _ ⟨hinit, hinit2⟩ it hit
    exact ⟨h1.1, h1.2, h2, h3, h4, h5, hstep _ _ h1 h2 h5⟩

theorem walkIterations_chain (size : Point) :
    ∀ (fuel : Nat) (st : RandState) (maze : Grid) (p : Point) (remain : Int),
      (∀ it, (walkIterations fuel st maze size p remain).head? = some it →
        it.1 = (maze, p, remain)) ∧
      List.Chain' (fun a b => b.1 = a.2.2) (walkIterations fuel st maze size p remain) ∧
      ∀ st1 g1, walk fuel st maze size p remain = .ok (st1, g1) →
        g1 = (((walkIterations fuel st maze size p remain).getLast?.map
          (fun it => it.2.2.1)).getD maze) := by
  intro fuel
  induction fuel with
  | zero =>
    intro st maze p remain
    unfold walkIterations walk
    by_cases hr : remain > 0
    · simp only [if_pos hr]
      exact ⟨fun it h => (by cases h), List.chain'_nil, fun st1 g1 h => (by cases h)⟩
    · simp only [if_neg hr]
      refine ⟨fun it h => (by cases h), List.chain'_nil, fun st1 g1 h => ?_⟩
      injection h with h
      exact (congrArg Prod.snd h).symm
  | succ fuel ih =>
    intro st maze p remain
    unfold walkIterations walk
    by_cases hr : remain > 0
    · simp only [if_pos hr]
      cases hsc : scanDirections maze size p remain
          (randomize_directions st [NORTH, EAST, SOUTH, WEST]).2 with
      | error e =>
        exact ⟨fun it h => (by cases h), List.chain'_nil, fun st1 g1 h => (by cases h)⟩
      | ok s =>
        obtain ⟨maze1, p1, remain1⟩ := s
        obtain ⟨h1, h2, h3⟩ := ih (randomize_directions st [NORTH, EAST, SOUTH, WEST]).1
          maze1 p1 remain1
        simp only
        refine ⟨?_, ?_, ?_⟩
        · intro it h
          simp only [List.head?_cons, Option.some.injEq] at h
          rw [← h]
        · rw [List.chain'_cons']
          refine ⟨?_, h2⟩
          intro b hb
          exact h1 b hb
        · intro st1 g1 h
          have h4 := h3 st1 g1 h
          cases hl : walkIterations fuel (randomize_directions st [NORTH, EAST, SOUTH, WEST]).1
              maze1 size p1 remain1 with
          | nil =>
            rw [hl] at h4
            simpa using h4
          | cons a t =>
            rw [hl] at h4
            rw [List.getLast?_cons_cons]
            exact h4
    · simp only [if_neg hr]
      refine ⟨fun it h => (by cases h), List.chain'_nil, fun st1 g1 h => ?_⟩
      injection h with h
      exact (congrArg Prod.snd h).symm
/-! ## The walk: the count of unvisited cells, the boundary, the directions -/

theorem MazeInv.unvisited_eq {size start end_ : Point} {s : WalkState}
    (inv : MazeInv size start end_ s) :
    unvisitedCells s.1 size = unvisitedVertices s.1 size := by
  unfold unvisitedCells unvisitedVertices
  apply Finset.filter_congr
  intro c hc
  have hin := (mem_gridCells size c).1 hc
  constructor
  · intro hu
    refine ⟨?_, hu⟩
    by_contra hnv
    rcases inv.other_state c hin hnv with h1 | h1 <;>
      (rw [h1] at hu; exact absurd hu (by decide))
  · intro hu
    exact hu.2

/-- C13: for width and height in 2..254, at the start of every iteration of
the walk loop of `generate_maze` that is entered, and again after it, `remain`
equals the number of cells of the grid holding `UNVISITED`; and when
`generate_maze` returns, no cell of the grid holds `UNVISITED` and every cell
of the grid with both coordinates odd holds `PASSAGE`. -/
theorem generate_maze_remain_counts_unvisited (fuel : Nat) (st : RandState) (maze : Grid)
    (w h : Int) (hw : 2 ≤ w ∧ w ≤ 254) (hh : 2 ≤ h ∧ h ≤ 254) :
    (∀ it ∈ generateIterations fuel st maze ⟨w, h⟩,
      it.1.2.2 = ((unvisitedCells it.1.1 ⟨w, h⟩).card : Int) ∧
      it.2.2.2.2 = ((unvisitedCells it.2.2.1 ⟨w, h⟩).card : Int)) ∧
    (∀ r, generate_maze fuel st maze ⟨w, h⟩ = .ok r →
      (∀ c : Point, inSize ⟨w, h⟩ c.y c.x → r.2.1 c.y c.x ≠ UNVISITED) ∧
      (∀ c : Point, isVertex ⟨w, h⟩ c → r.2.1 c.y c.x = PASSAGE)) := by
  obtain ⟨start, end_, hret, hits⟩ := generate_maze_iterations fuel st maze w h hw hh
  refine ⟨?_, ?_⟩
  · intro it hit
    obtain ⟨h1, _, _, _, _, _, h2, _⟩ := hits it hit
    rw [h1.unvisited_eq, h2.unvisited_eq]
    exact ⟨h1.remain_eq, h2.remain_eq⟩
  · intro r hr
    obtain ⟨_, _, p, inv, _⟩ := hret r hr
    have hcard : (unvisitedCells r.2.1 ⟨w, h⟩).card = 0 := by
      have h1 := inv.remain_eq
      rw [← inv.unvisited_eq] at h1
      simp only at h1
      omega
    have hno : ∀ c : Point, inSize ⟨w, h⟩ c.y c.x → r.2.1 c.y c.x ≠ UNVISITED := by
      intro c hc hu
      have hmem : c ∈ unvisitedCells r.2.1 ⟨w, h⟩ := by
        unfold unvisitedCells
        exact Finset.mem_filter.2 ⟨(mem_gridCells _ c).2 hc, hu⟩
      rw [Finset.card_eq_zero] at hcard
      rw [hcard] at hmem
      exact absurd hmem (Finset.not_mem_empty _)
    refine ⟨hno, ?_⟩
    intro c hc
    rcases inv.vertex_state c hc with h1 | h1
    · exact h1
    · exact absurd h1 (hno c hc.1)

/-- The count of `UNVISITED` cells along the run at width 5, height 5, seed 1. -/
theorem generate_maze_remain_counts_unvisited_witness :
    ((2 : Int) ≤ 5 ∧ (5 : Int) ≤ 254) ∧ ((2 : Int) ≤ 5 ∧ (5 : Int) ≤ 254) ∧
    generate_maze 100 (rand_seed ⟨0, 0, 0, 0⟩ 1) (fun _ _ => 0) ⟨5, 5⟩ = .ok demoGenerated ∧
    (∀ it ∈ generateIterations 100 (rand_seed ⟨0, 0, 0, 0⟩ 1) (fun _ _ => 0) ⟨5, 5⟩,
      it.1.2.2 = ((unvisitedCells it.1.1 ⟨5, 5⟩).card : Int) ∧
      it.2.2.2.2 = ((unvisitedCells it.2.2.1 ⟨5, 5⟩).card : Int)) ∧
    (∀ c : Point, inSize ⟨5, 5⟩ c.y c.x → demoGenerated.2.1 c.y c.x ≠ UNVISITED) ∧
    (∀ c : Point, isVertex ⟨5, 5⟩ c → demoGenerated.2.1 c.y c.x = PASSAGE) :=
  have h := generate_maze_remain_counts_unvisited 100 (rand_seed ⟨0, 0, 0, 0⟩ 1)
    (fun _ _ => 0) 5 5 ⟨by decide, by decide⟩ ⟨by decide, by decide⟩
  ⟨⟨by decide, by decide⟩, ⟨by decide, by decide⟩, demoGenerated_eq, h.1,
    h.2 demoGenerated demoGenerated_eq⟩

theorem WalkStep.changed {size : Point} {s t : WalkState} (hstep : WalkStep size s t)
    (c : Point) (hc : t.1 c.y c.x ≠ s.1 c.y c.x) : c = t.2.1 ∨ wallInBounds size c := by
  cases hstep with
  | stay => exact absurd rfl hc
  | move g p r d hd hb hu => exact absurd rfl hc
  | carve g p r d hd hb hu =>
    simp only at hc ⊢
    unfold setCell at hc
    by_cases h1 : c.y = p.y + d.y ∧ c.x = p.x + d.x
    · right
      have e : c = ⟨p.x + d.x, p.y + d.y⟩ := point_eq h1.2 h1.1
      rw [e]; exact hb
    · rw [if_neg h1] at hc
      by_cases h2 : c.y = p.y + d.y * 2 ∧ c.x = p.x + d.x * 2
      · left; exact point_eq h2.2 h2.1
      · rw [if_neg h2] at hc
        exact absurd rfl hc

/-- With width 4, height 3 and seed 0 the generator returns, and the cell
`(3, 1)` in column `width - 1`, which is neither `start` nor `end`, holds
`PASSAGE`, not `WALL`. -/
theorem generate_maze_last_column_open :
    ∃ r, generate_maze 10 (rand_seed ⟨0, 0, 0, 0⟩ 0) (fun _ _ => 0) ⟨4, 3⟩ = .ok r ∧
      onBoundary ⟨4, 3⟩ ⟨3, 1⟩ ∧ (⟨3, 1⟩ : Point) ≠ r.2.2.1 ∧ (⟨3, 1⟩ : Point) ≠ r.2.2.2 ∧
      r.2.1 1 3 = PASSAGE ∧ r.2.1 1 3 ≠ WALL :=
  ⟨_, rfl, by decide, by decide, by decide, by decide, by decide⟩

/-- C12, as amended: for width and height in 2..254, when `generate_maze`
returns, a cell on the outer boundary of the grid other than `start` and `end`
holds `WALL` when one of its coordinates is even and `PASSAGE` when both are
odd (as in column `width - 1` for an even width); and in every iteration of
the walk the position after the iteration has both coordinates odd and lies
inside the grid, and every cell whose state the iteration changes is that
position or lies inside the bounds `1..width-2` by `1..height-2`. -/
theorem generate_maze_boundary_cells (fuel : Nat) (st : RandState) (maze : Grid)
    (w h : Int) (hw : 2 ≤ w ∧ w ≤ 254) (hh : 2 ≤ h ∧ h ≤ 254) :
    (∀ r, generate_maze fuel st maze ⟨w, h⟩ = .ok r →
      ∀ c : Point, onBoundary ⟨w, h⟩ c → c ≠ r.2.2.1 → c ≠ r.2.2.2 →
        (¬ (c.x % 2 = 1 ∧ c.y % 2 = 1) → r.2.1 c.y c.x = WALL) ∧
        (c.x % 2 = 1 ∧ c.y % 2 = 1 → r.2.1 c.y c.x = PASSAGE)) ∧
    (∀ it ∈ generateIterations fuel st maze ⟨w, h⟩,
      (inSize ⟨w, h⟩ it.2.2.2.1.y it.2.2.2.1.x ∧
        it.2.2.2.1.x % 2 = 1 ∧ it.2.2.2.1.y % 2 = 1) ∧
      ∀ c : Point, it.2.2.1 c.y c.x ≠ it.1.1 c.y c.x →
        c = it.2.2.2.1 ∨ (1 ≤ c.x ∧ c.x ≤ w - 2 ∧ 1 ≤ c.y ∧ c.y ≤ h - 2)) := by
  obtain ⟨start, end_, hret, hits⟩ := generate_maze_iterations fuel st maze w h hw hh
  refine ⟨?_, ?_⟩
  · intro r hr c hc hns hne
    obtain ⟨e1, e2, p, inv, hcarved⟩ := hret r hr
    rw [e1] at hns
    rw [e2] at hne
    constructor
    · intro hodd
      have hnv : ¬ isVertex ⟨w, h⟩ c := fun hv => hodd hv.2
      rcases inv.other_state c hc.1 hnv with h1 | h1
      · exfalso
        rcases hcarved c hc.1 hnv h1 with h2 | h2 | h2
        · exact hns h2
        · exact hne h2
        · unfold wallInBounds at h2
          have hb := hc.2
          simp only at h2 hb
          omega
      · exact h1
    · intro hodd
      rcases inv.vertex_state c ⟨hc.1, hodd⟩ with h1 | h1
      · exact h1
      · exfalso
        have h2 := inv.remain_eq
        have hmem : c ∈ unvisitedVertices r.2.1 ⟨w, h⟩ := by
          unfold unvisitedVertices
          exact Finset.mem_filter.2 ⟨(mem_gridCells _ c).2 hc.1, ⟨hc.1, hodd⟩, h1⟩
        have hpos : 0 < (unvisitedVertices r.2.1 ⟨w, h⟩).card := Finset.card_pos.2 ⟨c, hmem⟩
        simp only at h2
        omega
  · intro it hit
    obtain ⟨_, _, _, _, _, hstep, inv2, _⟩ := hits it hit
    refine ⟨inv2.pos_vertex, ?_⟩
    intro c hc
    rcases hstep.changed c hc with h1 | h1
    · left; exact h1
    · right
      unfold wallInBounds at h1
      simp only at h1
      omega

/-- The boundary of the maze generated for width 5, height 5, seed 1. -/
theorem generate_maze_boundary_cells_witness :
    ((2 : Int) ≤ 5 ∧ (5 : Int) ≤ 254) ∧ ((2 : Int) ≤ 5 ∧ (5 : Int) ≤ 254) ∧
    generate_maze 100 (rand_seed ⟨0, 0, 0, 0⟩ 1) (fun _ _ => 0) ⟨5, 5⟩ = .ok demoGenerated ∧
    (∀ c : Point, onBoundary ⟨5, 5⟩ c → c ≠ demoGenerated.2.2.1 → c ≠ demoGenerated.2.2.2 →
      (¬ (c.x % 2 = 1 ∧ c.y % 2 = 1) → demoGenerated.2.1 c.y c.x = WALL) ∧
      (c.x % 2 = 1 ∧ c.y % 2 = 1 → demoGenerated.2.1 c.y c.x = PASSAGE)) :=
  ⟨⟨by decide, by decide⟩, ⟨by decide, by decide⟩, demoGenerated_eq,
    (generate_maze_boundary_cells 100 (rand_seed ⟨0, 0, 0, 0⟩ 1) (fun _ _ => 0) 5 5
      ⟨by decide, by decide⟩ ⟨by decide, by decide⟩).1 demoGenerated demoGenerated_eq⟩

theorem scanDirections_first (maze : Grid) (size p : Point) (remain : Int)
    (hs : size.x ≤ 254 ∧ size.y ≤ 254) (hp : isVertex size p) (dirs : List Point)
    (hdirs : ∀ d ∈ dirs, d ∈ [NORTH, EAST, SOUTH, WEST]) :
    ((∀ d ∈ dirs, ¬ wallInBounds size ⟨p.x + d.x, p.y + d.y⟩) ∧
      scanDirections maze size p remain dirs = .ok (maze, p, remain)) ∨
    ∃ pre d post, dirs = pre ++ d :: post ∧
      (∀ e ∈ pre, ¬ wallInBounds size ⟨p.x + e.x, p.y + e.y⟩) ∧
      wallInBounds size ⟨p.x + d.x, p.y + d.y⟩ ∧
      ∃ s, scanDirections maze size p remain dirs = .ok s ∧
        s.2.1 = ⟨p.x + d.x * 2, p.y + d.y * 2⟩ := by
  induction dirs with
  | nil => left; exact ⟨fun d hd => absurd hd (List.not_mem_nil _), rfl⟩
  | cons d rest ih =>
    have hd := hdirs d (List.mem_cons_self _ _)
    have hpb : 0 ≤ p.x ∧ p.x < 254 ∧ 0 ≤ p.y ∧ p.y < 254 := by
      unfold isVertex inSize at hp; omega
    have e1 : toShort (p.x + d.x) = p.x + d.x := by
      apply toShort_id <;> rcases dir_cases d hd with h | h | h | h <;> omega
    have e2 : toShort (p.y + d.y) = p.y + d.y := by
      apply toShort_id <;> rcases dir_cases d hd with h | h | h | h <;> omega
    have e3 : toShort (p.x + d.x * 2) = p.x + d.x * 2 := by
      apply toShort_id <;> rcases dir_cases d hd with h | h | h | h <;> omega
    have e4 : toShort (p.y + d.y * 2) = p.y + d.y * 2 := by
      apply toShort_id <;> rcases dir_cases d hd with h | h | h | h <;> omega
    unfold scanDirections
    simp only [e1, e2, e3, e4]
    by_cases hb : wallInBounds size ⟨p.x + d.x, p.y + d.y⟩
    · right
      refine ⟨[], d, rest, rfl, fun e he => absurd he (List.not_mem_nil _), hb, ?_⟩
      have hb1 := hb
      unfold wallInBounds at hb1
      simp only at hb1
      rw [if_neg hb1]
      have hn := neighbor_isVertex size p d hp hd hb
      have hw := wall_inSize size p d hp hd hb
      rw [readCell_ok _ _ _ _ hn.1 hs]
      simp only [ok_bind]
      by_cases hu : maze (p.y + d.y * 2) (p.x + d.x * 2) = UNVISITED
      · rw [if_pos hu, writeCell_ok _ _ _ _ _ hn.1 hs]
        simp only [ok_bind]
        rw [writeCell_ok _ _ _ _ _ hw hs]
        exact ⟨_, rfl, rfl⟩
      · rw [if_neg hu]
        exact ⟨_, rfl, rfl⟩
    · have hb1 := hb
      unfold wallInBounds at hb1
      simp only [not_not] at hb1
      rw [if_pos hb1]
      rcases ih (fun d hd => hdirs d (List.mem_cons_of_mem _ hd)) with
        ⟨h1, h2⟩ | ⟨pre, d1, post, hsplit, hpre, h1, h2⟩
      · left
        refine ⟨?_, h2⟩
        intro d2 hd2
        rcases List.mem_cons.1 hd2 with rfl | hd2
        · exact hb
        · exact h1 d2 hd2
      · right
        refine ⟨d :: pre, d1, post, by rw [hsplit]; rfl, ?_, h1, h2⟩
        intro e he
        rcases List.mem_cons.1 he with rfl | he
        · exact hb
        · exact hpre e he

theorem direction_passes (w h : Int) (p : Point) (hw : 3 ≤ w) (hh : 3 ≤ h)
    (hbig : 4 ≤ w ∨ 4 ≤ h) (hp : isVertex ⟨w, h⟩ p) (hc : p ≠ ⟨w - 1, h - 1⟩) :
    ∃ d ∈ [NORTH, EAST, SOUTH, WEST], wallInBounds ⟨w, h⟩ ⟨p.x + d.x, p.y + d.y⟩ := by
  have hne : ¬ (p.x = w - 1 ∧ p.y = h - 1) := fun e => hc (point_eq e.1 e.2)
  unfold isVertex inSize at hp
  simp only at hp
  unfold wallInBounds
  by_cases h1 : p.x ≤ w - 2 ∧ 3 ≤ p.y
  · exact ⟨NORTH, by simp, by simp only [NORTH]; omega⟩
  · by_cases h2 : p.x ≤ w - 2 ∧ p.y ≤ h - 3
    · exact ⟨SOUTH, by simp, by simp only [SOUTH]; omega⟩
    · by_cases h3 : p.y ≤ h - 2 ∧ 3 ≤ p.x
      · exact ⟨EAST, by simp, by simp only [EAST]; omega⟩
      · by_cases h4 : p.y ≤ h - 2 ∧ p.x ≤ w - 3
        · exact ⟨WEST, by simp, by simp only [WEST]; omega⟩
        · exfalso; omega

theorem generate_maze_narrow_sizes_never_return (fuel : Nat) (st : RandState) (maze : Grid)
    (w h : Int) (hw : 2 ≤ w ∧ w ≤ 254) (hh : 2 ≤ h ∧ h ≤ 254)
    (hnarrow : (w = 2 ∧ 4 ≤ h) ∨ (h = 2 ∧ 4 ≤ w)) :
    generate_maze fuel st maze ⟨w, h⟩ = .error .outOfFuel := by
  obtain ⟨a, b, c, d, st2, ha, hb, hc, hd, hsetup⟩ := generateSetup_ok st maze w h hw hh
  have hs : (⟨w, h⟩ : Point).x ≤ 254 ∧ (⟨w, h⟩ : Point).y ≤ 254 := ⟨hw.2, hh.2⟩
  have hrem : 0 < w / 2 * (h / 2) - 1 := by
    rcases hnarrow with ⟨e, h4⟩ | ⟨e, h4⟩
    · have e1 : w / 2 = 1 := by omega
      rw [e1]; omega
    · have e1 : h / 2 = 1 := by omega
      rw [e1]; omega
  have hclosed : ∀ c : Point, ¬ wallInBounds ⟨w, h⟩ c := by
    intro c hb
    unfold wallInBounds at hb
    simp only at hb
    omega
  unfold generate_maze
  rw [hsetup]
  simp only [ok_bind]
  rw [walk_never_returns ⟨w, h⟩ hs (fun s => isVertex ⟨w, h⟩ s.2.1 ∧ 0 < s.2.2)
    (fun s hI => hI)
    (fun s t hI hst => by
      cases hst with
      | stay => exact hI
      | move g p r d hd hb hu => exact absurd hb (hclosed _)
      | carve g p r d hd hb hu => exact absurd hb (hclosed _))
    fuel st2 _ _ _ ⟨by unfold isVertex inSize; simp only; omega, hrem⟩]
  rfl

/-- C14 (the code at the failing inputs): with width 2, height 4, seed 0 the
walk loop of `generate_maze` is entered with `remain > 0`, none of the four
shuffled directions passes the bounds test, and the position and `remain` are
the same after the iteration; the same happens with width 4, height 4, seed 0,
where the walk starts at the cell `(3, 3)`. In both runs the loop never ends:
whatever the fuel, `generate_maze` is still walking when it is used up. -/
theorem generate_maze_walk_stuck :
    (∃ it, generateIterations 1 (rand_seed ⟨0, 0, 0, 0⟩ 0) (fun _ _ => 0) ⟨2, 4⟩ = [it] ∧
      0 < it.1.2.2 ∧
      (∀ d ∈ it.2.1, ¬ wallInBounds ⟨2, 4⟩ ⟨it.1.2.1.x + d.x, it.1.2.1.y + d.y⟩) ∧
      it.2.2.2.1 = it.1.2.1 ∧ it.2.2.2.2 = it.1.2.2) ∧
    (∃ it, generateIterations 1 (rand_seed ⟨0, 0, 0, 0⟩ 0) (fun _ _ => 0) ⟨4, 4⟩ = [it] ∧
      0 < it.1.2.2 ∧ it.1.2.1 = ⟨3, 3⟩ ∧
      (∀ d ∈ it.2.1, ¬ wallInBounds ⟨4, 4⟩ ⟨it.1.2.1.x + d.x, it.1.2.1.y + d.y⟩) ∧
      it.2.2.2.1 = it.1.2.1 ∧ it.2.2.2.2 = it.1.2.2) ∧
    (∀ fuel, generate_maze fuel (rand_seed ⟨0, 0, 0, 0⟩ 0) (fun _ _ => 0) ⟨2, 4⟩ =
      .error .outOfFuel) ∧
    (∀ fuel, generate_maze fuel (rand_seed ⟨0, 0, 0, 0⟩ 0) (fun _ _ => 0) ⟨4, 4⟩ =
      .error .outOfFuel) :=
  ⟨⟨_, rfl, by decide, by decide, by decide, by decide⟩,
    ⟨_, rfl, by decide, by decide, by decide, by decide, by decide⟩,
    fun fuel => generate_maze_even_sizes_never_return fuel _ _ 2 4 ⟨by decide, by decide⟩
      ⟨by decide, by decide⟩ (by decide) (by decide) (Or.inr (by decide)),
    fun fuel => generate_maze_even_sizes_never_return fuel _ _ 4 4 ⟨by decide, by decide⟩
      ⟨by decide, by decide⟩ (by decide) (by decide) (Or.inl (by decide))⟩

/-- Where the walk is not stuck: for width and height in 3..254, in every
iteration of the walk loop of `generate_maze` that is entered, when the width
or the height is odd or the position is not the cell `(width - 1, height - 1)`,
one of the four shuffled directions passes the bounds test on its one-step
cell, and the position moves two cells in the first such direction, to a
different cell of the grid with both coordinates odd. -/
theorem walk_direction_passes (fuel : Nat) (st : RandState) (maze : Grid) (w h : Int)
    (hw : 3 ≤ w ∧ w ≤ 254) (hh : 3 ≤ h ∧ h ≤ 254) :
    ∀ it ∈ generateIterations fuel st maze ⟨w, h⟩,
      (w % 2 = 1 ∨ h % 2 = 1 ∨ it.1.2.1 ≠ ⟨w - 1, h - 1⟩) →
      (∃ pre d post, it.2.1 = pre ++ d :: post ∧
        (∀ e ∈ pre, ¬ wallInBounds ⟨w, h⟩ ⟨it.1.2.1.x + e.x, it.1.2.1.y + e.y⟩) ∧
        wallInBounds ⟨w, h⟩ ⟨it.1.2.1.x + d.x, it.1.2.1.y + d.y⟩ ∧
        it.2.2.2.1 = ⟨it.1.2.1.x + d.x * 2, it.1.2.1.y + d.y * 2⟩) ∧
      it.2.2.2.1 ≠ it.1.2.1 ∧
      (inSize ⟨w, h⟩ it.2.2.2.1.y it.2.2.2.1.x ∧
        it.2.2.2.1.x % 2 = 1 ∧ it.2.2.2.1.y % 2 = 1) := by
  intro it hit hcorner
  obtain ⟨start, end_, _, hits⟩ := generate_maze_iterations fuel st maze w h
    ⟨by omega, hw.2⟩ ⟨by omega, hh.2⟩
  obtain ⟨inv, _, hrem, hperm, hscan, _, inv2, _⟩ := hits it hit
  have hs : (⟨w, h⟩ : Point).x ≤ 254 ∧ (⟨w, h⟩ : Point).y ≤ 254 := ⟨hw.2, hh.2⟩
  have hp := inv.pos_vertex
  have hbig : 4 ≤ w ∨ 4 ≤ h := by
    by_contra hcon
    obtain rfl : w = 3 := by omega
    obtain rfl : h = 3 := by omega
    have h1 := inv.remain_eq
    have h2 := inv.edge_count
    rw [vertexSet_card] at h2
    have h3 : ((3 : Int) / 2).toNat * ((3 : Int) / 2).toNat = 1 := by decide
    simp only at h2
    rw [h3] at h2
    omega
  have hne : it.1.2.1 ≠ ⟨w - 1, h - 1⟩ := by
    rcases hcorner with h1 | h1 | h1
    · intro e
      have := hp.2.1
      rw [e] at this
      simp only at this
      omega
    · intro e
      have := hp.2.2
      rw [e] at this
      simp only at this
      omega
    · exact h1
  obtain ⟨d0, hd0, hb0⟩ := direction_passes w h it.1.2.1 hw.1 hh.1 hbig hp hne
  rcases scanDirections_first it.1.1 ⟨w, h⟩ it.1.2.1 it.1.2.2 hs hp it.2.1
      (fun d hd => hperm.subset hd) with
      ⟨h1, _⟩ | ⟨pre, d, post, hsplit, hpre, hb, s, hs1, hs2⟩
  · exact absurd hb0 (h1 d0 (hperm.symm.subset hd0))
  · rw [hscan] at hs1
    injection hs1 with hs1
    rw [← hs1] at hs2
    have hd : d ∈ it.2.1 := by rw [hsplit]; simp
    refine ⟨⟨pre, d, post, hsplit, hpre, hb, hs2⟩, ?_, inv2.pos_vertex⟩
    rw [hs2]
    intro e
    have e1 := congrArg Point.x e
    have e2 := congrArg Point.y e
    simp only at e1 e2
    rcases dir_cases d (hperm.subset hd) with h | h | h | h <;> omega
/-! ## The solver on a forest: each cell is entered once -/

theorem Trail.glue {P : Point → Prop} (m : Point) (Y : List Point) :
    ∀ X : List Point, Trail P (X ++ [m]) → Trail P (m :: Y) →
      (∀ x, X.getLast? = some x → Y.head? ≠ some x) → Trail P (X ++ m :: Y) := by
  intro X
  induction X with
  | nil => intro _ h2 _; exact h2
  | cons a t ih =>
    intro h1 h2 hne
    cases t with
    | nil =>
      simp only [List.cons_append, List.nil_append] at h1 ⊢
      exact ⟨h1.1, h1.2.1, hne a rfl, h2⟩
    | cons b t =>
      simp only [List.cons_append] at h1 ⊢
      refine ⟨h1.1, h1.2.1, ?_, ?_⟩
      · have h3 := h1.2.2.1
        cases t with
        | nil => simpa using h3
        | cons c t => simpa using h3
      · have := ih h1.2.2.2 h2 (fun x hx => hne x (by
          rw [List.getLast?_cons_cons]; exact hx))
        simpa using this

theorem Trail.reverse {P : Point → Prop} : ∀ l : List Point, Trail P l → Trail P l.reverse := by
  intro l
  induction l with
  | nil => intro _; trivial
  | cons a t ih =>
    intro h
    cases t with
    | nil => exact h
    | cons b t =>
      have h1 := ih h.2.2.2
      rw [List.reverse_cons] at h1
      rw [List.reverse_cons, List.reverse_cons, List.append_assoc]
      simp only [List.singleton_append]
      refine Trail.glue b [a] t.reverse h1 ⟨h.2.2.2.head_mem, adjacent_symm h.2.1, by simp, h.1⟩ ?_
      intro x hx
      rw [List.getLast?_reverse] at hx
      simp only [List.head?_cons, ne_eq, Option.some.injEq]
      intro e
      rw [← e] at hx
      exact h.2.2.1 hx

theorem Trail.front {P : Point → Prop} : ∀ (l1 l2 : List Point), Trail P (l1 ++ l2) →
    Trail P l1 := by
  intro l1
  induction l1 with
  | nil => intro _ _; trivial
  | cons a t ih =>
    intro l2 h
    cases t with
    | nil => exact h.head_mem
    | cons b t =>
      simp only [List.cons_append] at h
      refine ⟨h.1, h.2.1, ?_, ih l2 h.2.2.2⟩
      have h3 := h.2.2.1
      cases t with
      | nil => simp
      | cons c t => simpa using h3

theorem Forest.unique_entry {P : Point → Prop} (hF : Forest P) (A B : List Point) (cur : Point)
    (hA : Trail P (A ++ [cur])) (hB : Trail P (B ++ [cur]))
    (c : Point) (hAh : A.head? = some c) (hBh : B.head? = some c)
    (hlast : A.getLast? ≠ B.getLast?) : False := by
  have hBr := Trail.reverse _ hB
  rw [List.reverse_append, List.reverse_singleton, List.singleton_append] at hBr
  have hglue : Trail P (A ++ cur :: B.reverse) := by
    refine Trail.glue cur B.reverse A hA hBr ?_
    intro x hx
    rw [List.head?_reverse]
    intro e
    exact hlast (hx.trans e.symm)
  have hnd := hF _ hglue
  cases A with
  | nil => cases hAh
  | cons a A1 =>
    simp only [List.head?_cons, Option.some.injEq] at hAh
    subst hAh
    have hmem : a ∈ A1 ++ cur :: B.reverse := by
      apply List.mem_append_right
      apply List.mem_cons_of_mem
      rw [List.mem_reverse]
      exact List.mem_of_mem_head? hBh
    rw [List.cons_append] at hnd
    exact (List.nodup_cons.1 hnd).1 hmem

theorem neighbourBlocks_nodup (size cur : Point) (hs : size.x ≤ 254 ∧ size.y ≤ 254)
    (hcur : inSize size cur.y cur.x) : ((neighbourBlocks size cur).map Prod.snd).Nodup := by
  have hc := hcur
  unfold inSize at hc
  have e1 : toShort (cur.y - 1) = cur.y - 1 := toShort_id _ (by omega) (by omega)
  have e2 : toShort (cur.x - 1) = cur.x - 1 := toShort_id _ (by omega) (by omega)
  have e3 : toShort (cur.y + 1) = cur.y + 1 := toShort_id _ (by omega) (by omega)
  have e4 : toShort (cur.x + 1) = cur.x + 1 := toShort_id _ (by omega) (by omega)
  unfold neighbourBlocks
  rw [e1, e2, e3, e4]
  simp only [List.map_cons, List.map_nil, List.nodup_cons, List.mem_cons, List.mem_singleton,
    Point.mk.injEq, List.not_mem_nil, not_false_eq_true, List.nodup_nil, and_true, not_or]
  omega

theorem descendCells_nodup_append {a b : List Event} (ha : (descendCells a).Nodup)
    (hb : (descendCells b).Nodup)
    (hdis : ∀ c, c ∈ descendCells a → c ∈ descendCells b → False) :
    (descendCells (a ++ b)).Nodup := by
  rw [descendCells_append]
  exact List.Nodup.append ha hb (fun c h1 h2 => hdis c h1 h2)

theorem tryNeighbours_descends (g : Grid) (size end_ cur : Point) (rest : List Point)
    (hs : size.x ≤ 254 ∧ size.y ≤ 254) (hF : Forest (passable g size))
    (rec : Grid → Point → Except Abort (Bool × Grid × List Event))
    (hcur : inSize size cur.y cur.x)
    (hrun : ∀ n res, rec g n = .ok res → RunSpec g size end_ n res)
    (hrec : ∀ n, inSize size n.y n.x → adjacent n cur → rest.head? ≠ some n →
      ∃ res, rec g n = .ok res ∧ (descendCells res.2.2).Nodup ∧
        ∀ c ∈ descendCells res.2.2, ∃ ext,
          Trail (passable g size) (ext ++ n :: cur :: rest) ∧ (ext ++ [n]).head? = some c)
    (blocks : List (Bool × Point))
    (hblocks : ∀ b ∈ blocks, b.1 = true → inSize size b.2.y b.2.x ∧ adjacent b.2 cur)
    (hdist : (blocks.map Prod.snd).Nodup) :
    ∃ res, tryNeighbours rec size cur rest.head? g blocks = .ok res ∧
      (descendCells res.2.2).Nodup ∧
      ∀ c ∈ descendCells res.2.2, ∃ b ∈ blocks, ∃ ext,
        Trail (passable g size) (ext ++ b.2 :: cur :: rest) ∧ (ext ++ [b.2]).head? = some c := by
  induction blocks with
  | nil =>
    exact ⟨(false, g, []), rfl, List.nodup_nil, fun c hc => absurd hc (List.not_mem_nil _)⟩
  | cons b blocks ih =>
    obtain ⟨guard, n⟩ := b
    simp only [List.map_cons, List.nodup_cons] at hdist
    obtain ⟨res2, hres2, hnd2, hmem2⟩ :=
      ih (fun b hb => hblocks b (List.mem_cons_of_mem _ hb)) hdist.2
    unfold tryNeighbours
    by_cases hcond : (guard && !points_eql (some n) rest.head?) = true
    · rw [if_pos hcond]
      simp only [Bool.and_eq_true, Bool.not_eq_true', ← Bool.not_eq_true, points_eql_some] at hcond
      have hb := hblocks (guard, n) (List.mem_cons_self _ _) hcond.1
      obtain ⟨r1, hr1, hnd1, hmem1⟩ := hrec n hb.1 hb.2 hcond.2
      have R := hrun n r1 hr1
      rw [hr1]
      obtain ⟨f1, g1, tr1⟩ := r1
      cases f1 with
      | true =>
        simp only
        rw [writeCell_ok g1 size cur.y cur.x SOLUTION hcur hs]
        refine ⟨_, rfl, ?_, ?_⟩
        · simp only [descendCells_append, descendCells, List.append_nil]
          exact hnd1
        · intro c hc
          simp only [descendCells_append, descendCells, List.append_nil] at hc
          obtain ⟨ext, h1, h2⟩ := hmem1 c hc
          exact ⟨(guard, n), List.mem_cons_self _ _, ext, h1, h2⟩
      | false =>
        simp only
        have hg1 : g1 = g := (R.failed rfl).1
        subst hg1
        rw [hres2]
        obtain ⟨f2, g2, tr2⟩ := res2
        refine ⟨_, rfl, ?_, ?_⟩
        · apply descendCells_nodup_append hnd1 hnd2
          intro c hc1 hc2
          obtain ⟨ext1, h1, h2⟩ := hmem1 c hc1
          obtain ⟨b, hb2, ext2, h3, h4⟩ := hmem2 c hc2
          apply Forest.unique_entry hF (ext1 ++ [n]) (ext2 ++ [b.2]) cur
            (Trail.front _ rest (by simpa using h1)) (Trail.front _ rest (by simpa using h3))
            c h2 h4
          rw [List.getLast?_concat, List.getLast?_concat]
          simp only [ne_eq, Option.some.injEq]
          intro e
          apply hdist.1
          rw [e]
          exact List.mem_map_of_mem _ hb2
        · intro c hc
          simp only [descendCells_append, List.mem_append] at hc
          rcases hc with hc | hc
          · obtain ⟨ext, h1, h2⟩ := hmem1 c hc
            exact ⟨(guard, n), List.mem_cons_self _ _, ext, h1, h2⟩
          · obtain ⟨b, hb2, ext, h1, h2⟩ := hmem2 c hc
            exact ⟨b, List.mem_cons_of_mem _ hb2, ext, h1, h2⟩
    · rw [if_neg hcond]
      refine ⟨res2, hres2, hnd2, ?_⟩
      intro c hc
      obtain ⟨b, hb2, ext, h1, h2⟩ := hmem2 c hc
      exact ⟨b, List.mem_cons_of_mem _ hb2, ext, h1, h2⟩

theorem tryNeighbours_mono (size cur : Point) (prev : Option Point)
    (rec1 rec2 : Grid → Point → Except Abort (Bool × Grid × List Event))
    (h : ∀ g n res, rec1 g n = .ok res → rec2 g n = .ok res) :
    ∀ (blocks : List (Bool × Point)) (g : Grid) (res : Bool × Grid × List Event),
      tryNeighbours rec1 size cur prev g blocks = .ok res →
      tryNeighbours rec2 size cur prev g blocks = .ok res := by
  intro blocks
  induction blocks with
  | nil => intro g res hr; exact hr
  | cons b blocks ih =>
    intro g res hr
    obtain ⟨guard, n⟩ := b
    unfold tryNeighbours at hr ⊢
    by_cases hcond : (guard && !points_eql (some n) prev) = true
    · rw [if_pos hcond] at hr ⊢
      cases h1 : rec1 g n with
      | error e => rw [h1] at hr; cases hr
      | ok r1 =>
        rw [h1] at hr
        rw [h g n r1 h1]
        obtain ⟨f1, g1, tr1⟩ := r1
        cases f1 with
        | true => exact hr
        | false =>
          simp only at hr ⊢
          cases h2 : tryNeighbours rec1 size cur prev g1 blocks with
          | error e => rw [h2] at hr; cases hr
          | ok r2 =>
            rw [h2] at hr
            rw [ih g1 r2 h2]
            exact hr
    · rw [if_neg hcond] at hr ⊢
      exact ih g res hr

theorem solve_maze_mono_succ (size end_ : Point) :
    ∀ (fuel : Nat) (g : Grid) (cur : Point) (prev : Option Point)
      (res : Bool × Grid × List Event),
      solve_maze fuel g size cur prev end_ = .ok res →
      solve_maze (fuel + 1) g size cur prev end_ = .ok res := by
  intro fuel
  induction fuel with
  | zero => intro g cur prev res h; cases h
  | succ fuel ih =>
    intro g cur prev res h
    unfold solve_maze at h ⊢
    cases hrd : readCell g size cur.y cur.x with
    | error e => rw [hrd] at h; cases h
    | ok v =>
      rw [hrd] at h
      simp only at h ⊢
      by_cases hw : v = WALL
      · rw [if_pos hw] at h ⊢; exact h
      · rw [if_neg hw] at h ⊢
        by_cases hend : cur.x = end_.x ∧ cur.y = end_.y
        · rw [if_pos hend] at h ⊢; exact h
        · rw [if_neg hend] at h ⊢
          cases htn : tryNeighbours (fun m next => solve_maze fuel m size next (some cur) end_)
              size cur prev g (neighbourBlocks size cur) with
          | error e => rw [htn] at h; cases h
          | ok r =>
            rw [htn] at h
            rw [tryNeighbours_mono size cur prev _
              (fun m next => solve_maze (fuel + 1) m size next (some cur) end_)
              (fun g n res hr => ih g n (some cur) res hr) _ g r htn]
            exact h

theorem solve_maze_mono (size end_ : Point) (g : Grid) (cur : Point) (prev : Option Point)
    (res : Bool × Grid × List Event) (fuel fuel1 : Nat) (hle : fuel ≤ fuel1)
    (h : solve_maze fuel g size cur prev end_ = .ok res) :
    solve_maze fuel1 g size cur prev end_ = .ok res := by
  induction fuel1 with
  | zero =>
    have : fuel = 0 := by omega
    subst this; exact h
  | succ k ih =>
    by_cases hk : fuel ≤ k
    · exact solve_maze_mono_succ size end_ k g cur prev res (ih hk)
    · have : fuel = k + 1 := by omega
      subst this; exact h

theorem trail_length_le_nonWall (g : Grid) (size : Point) (hF : Forest (passable g size))
    (l : List Point) (hl : Trail (passable g size) l) :
    l.length ≤ (nonWallCells g size).card := by
  have hnd := hF l hl
  rw [← List.toFinset_card_of_nodup hnd]
  apply Finset.card_le_card
  intro c hc
  rw [List.mem_toFinset] at hc
  have hp := hl.all c hc
  unfold nonWallCells
  exact Finset.mem_filter.2 ⟨(mem_gridCells size c).2 hp.1, hp.2⟩

theorem solve_maze_descends (g : Grid) (size end_ : Point) (hs : size.x ≤ 254 ∧ size.y ≤ 254)
    (hF : Forest (passable g size)) :
    ∀ (fuel : Nat) (cur : Point) (rest : List Point),
      Trail (passable g size) (cur :: rest) →
      (nonWallCells g size).card + 2 ≤ fuel + (cur :: rest).length →
      ∃ res, solve_maze fuel g size cur rest.head? end_ = .ok res ∧
        (descendCells res.2.2).Nodup ∧
        ∀ c ∈ descendCells res.2.2, ∃ ext,
          Trail (passable g size) (ext ++ cur :: rest) ∧ (ext ++ [cur]).head? = some c := by
  intro fuel
  induction fuel with
  | zero =>
    intro cur rest ht hlen
    have := trail_length_le_nonWall g size hF _ ht
    omega
  | succ fuel ih =>
    intro cur rest ht hlen
    have hlen1 := trail_length_le_nonWall g size hF _ ht
    have hpass : passable g size cur := ht.head_mem
    have hcur : inSize size cur.y cur.x := hpass.1
    have hU := toU16_inSize hs hcur
    unfold solve_maze
    rw [readCell_ok _ _ _ _ hcur hs]
    simp only [hU.1, hU.2]
    rw [if_neg hpass.2]
    by_cases hend : cur.x = end_.x ∧ cur.y = end_.y
    · rw [if_pos hend, writeCell_ok _ _ _ _ _ hcur hs]
      refine ⟨_, rfl, by simp [descendCells], ?_⟩
      intro c hc
      simp only [descendCells, Point.eta_eq, List.mem_singleton] at hc
      exact ⟨[], ht, by rw [hc]; rfl⟩
    · rw [if_neg hend]
      obtain ⟨res, hres, hnd, hmem⟩ := tryNeighbours_descends g size end_ cur rest hs hF
        (fun m next => solve_maze fuel m size next (some cur) end_) hcur
        (fun n res hr => solve_maze_run size end_ hs g fuel n (some cur) res hr)
        (by
          intro n hn hadj hprev
          by_cases hw : g n.y n.x = WALL
          · obtain ⟨f1, hf1⟩ : ∃ f1, fuel = f1 + 1 :=
              ⟨fuel - 1, by simp only [List.length_cons] at hlen hlen1; omega⟩
            subst hf1
            exact ⟨(false, g, []), solve_maze_wall f1 g size n end_ _ hs hn hw,
              List.nodup_nil, fun c hc => absurd hc (List.not_mem_nil _)⟩
          · have ht1 : Trail (passable g size) (n :: cur :: rest) := ⟨⟨hn, hw⟩, hadj, hprev, ht⟩
            exact ih n (cur :: rest) ht1 (by simp only [List.length_cons] at hlen ⊢; omega))
        (neighbourBlocks size cur) (neighbourBlocks_sound size cur hs hcur)
        (neighbourBlocks_nodup size cur hs hcur)
      rw [hres]
      have hnot : cur ∉ descendCells res.2.2 := by
        intro hc
        obtain ⟨b, _, ext, h1, h2⟩ := hmem cur hc
        have hnd1 := hF _ h1
        have e : ext ++ b.2 :: cur :: rest = (ext ++ [b.2]) ++ cur :: rest := by simp
        rw [e] at hnd1
        exact List.disjoint_of_nodup_append hnd1 (List.mem_of_mem_head? h2)
          (List.mem_cons_self _ _)
      have hext : ∀ c ∈ descendCells res.2.2, ∃ ext,
          Trail (passable g size) (ext ++ cur :: rest) ∧ (ext ++ [cur]).head? = some c := by
        intro c hc
        obtain ⟨b, _, ext, h1, h2⟩ := hmem c hc
        refine ⟨ext ++ [b.2], by simpa using h1, ?_⟩
        rw [List.head?_append_of_ne_nil _ (by simp)]
        exact h2
      obtain ⟨found, g1, tr⟩ := res
      cases found with
      | true =>
        refine ⟨_, rfl, ?_, ?_⟩
        · simp only [descendCells, Point.eta_eq, List.nodup_cons]
          exact ⟨hnot, hnd⟩
        · intro c hc
          simp only [descendCells, Point.eta_eq, List.mem_cons] at hc
          rcases hc with rfl | hc
          · exact ⟨[], ht, rfl⟩
          · exact hext c hc
      | false =>
        refine ⟨_, rfl, ?_, ?_⟩
        · simp only [descendCells, descendCells_append, List.append_nil, Point.eta_eq,
            List.nodup_cons]
          exact ⟨hnot, hnd⟩
        · intro c hc
          simp only [descendCells, descendCells_append, List.append_nil, Point.eta_eq,
            List.mem_cons] at hc
          rcases hc with rfl | hc
          · exact ⟨[], ht, rfl⟩
          · exact hext c hc

/-- C15: for width and height in 2..254 and every seed, when `generate_maze`
returns, the run of `solve_maze` from `start` with `previous = NULL` returns 1
as soon as the recursion may go one level deeper than the number of cells that
are not `WALL`; no two `descend` events of the run carry the same cell, each
carries a cell of the grid that is not `WALL`, and so their number is at most
the number of such cells. -/
theorem solve_maze_never_descends_twice (fuel : Nat) (st0 : RandState) (maze : Grid)
    (w h seed : Int) (r : RandState × Grid × Point × Point)
    (hw : 2 ≤ w ∧ w ≤ 254) (hh : 2 ≤ h ∧ h ≤ 254)
    (hgen : generate_maze fuel (rand_seed st0 (toU32 seed)) maze ⟨w, h⟩ = .ok r) :
    ∀ fuel1, (nonWallCells r.2.1 ⟨w, h⟩).card + 1 ≤ fuel1 →
      ∃ g1 tr, solve_maze fuel1 r.2.1 ⟨w, h⟩ r.2.2.1 none r.2.2.2 = .ok (true, g1, tr) ∧
        (descendCells tr).Nodup ∧
        (∀ c ∈ descendCells tr, inSize ⟨w, h⟩ c.y c.x ∧ r.2.1 c.y c.x ≠ WALL) ∧
        (descendCells tr).length ≤ (nonWallCells r.2.1 ⟨w, h⟩).card := by
  obtain ⟨st1, g, start, end_⟩ := r
  intro fuel1 hfuel
  have G := generate_maze_generated fuel _ st1 maze g w h start end_ hw hh hgen
  obtain ⟨hF, _⟩ := G.forest_joined
  have hs : (⟨w, h⟩ : Point).x ≤ 254 ∧ (⟨w, h⟩ : Point).y ≤ 254 := ⟨hw.2, hh.2⟩
  have hps : passable g ⟨w, h⟩ start := (G.passable_iff start).2 (Or.inl (Or.inr rfl))
  obtain ⟨res, hres, hnd, hmem⟩ := solve_maze_descends g ⟨w, h⟩ end_ hs hF fuel1 start [] hps
    (by simp only [List.length_cons, List.length_nil] at hfuel ⊢; omega)
  simp only [List.head?_nil] at hres
  obtain ⟨g2, tr2, _, h2, _⟩ := solve_generated G (max fuel1 ((w * h).toNat + 1))
    (le_max_right _ _)
  have hmono := solve_maze_mono ⟨w, h⟩ end_ g start none res fuel1
    (max fuel1 ((w * h).toNat + 1)) (le_max_left _ _) hres
  rw [h2] at hmono
  injection hmono with hmono
  obtain ⟨found, g1, tr⟩ := res
  have hfound : found = true := (congrArg Prod.fst hmono).symm
  subst hfound
  have hpass : ∀ c ∈ descendCells tr, passable g ⟨w, h⟩ c := by
    intro c hc
    obtain ⟨ext, h1, h2⟩ := hmem c hc
    apply h1.all c
    have : c ∈ ext ++ [start] := List.mem_of_mem_head? h2
    simp only [List.mem_append, List.mem_singleton] at this
    simp only [List.mem_append, List.mem_cons]
    rcases this with h | h
    · left; exact h
    · right; left; exact h
  refine ⟨g1, tr, hres, hnd, hpass, ?_⟩
  simp only at hnd
  rw [← List.toFinset_card_of_nodup hnd]
  apply Finset.card_le_card
  intro c hc
  rw [List.mem_toFinset] at hc
  have hp := hpass c hc
  unfold nonWallCells
  exact Finset.mem_filter.2 ⟨(mem_gridCells _ c).2 hp.1, hp.2⟩

/-- The `descend` events of the solver on the maze generated for width 5,
height 5, seed 1. -/
theorem solve_maze_never_descends_twice_witness :
    ((2 : Int) ≤ 5 ∧ (5 : Int) ≤ 254) ∧ ((2 : Int) ≤ 5 ∧ (5 : Int) ≤ 254) ∧
    generate_maze 100 (rand_seed ⟨0, 0, 0, 0⟩ (toU32 1)) (fun _ _ => 0) ⟨5, 5⟩ =
      .ok demoGenerated ∧
    (∀ fuel1, (nonWallCells demoGenerated.2.1 ⟨5, 5⟩).card + 1 ≤ fuel1 →
      ∃ g1 tr, solve_maze fuel1 demoGenerated.2.1 ⟨5, 5⟩ demoGenerated.2.2.1 none
          demoGenerated.2.2.2 = .ok (true, g1, tr) ∧
        (descendCells tr).Nodup ∧
        (∀ c ∈ descendCells tr, inSize ⟨5, 5⟩ c.y c.x ∧ demoGenerated.2.1 c.y c.x ≠ WALL) ∧
        (descendCells tr).length ≤ (nonWallCells demoGenerated.2.1 ⟨5, 5⟩).card) :=
  ⟨⟨by decide, by decide⟩, ⟨by decide, by decide⟩, demoGenerated_eq,
    solve_maze_never_descends_twice 100 ⟨0, 0, 0, 0⟩ (fun _ _ => 0) 5 5 1 demoGenerated
      ⟨by decide, by decide⟩ ⟨by decide, by decide⟩ demoGenerated_eq⟩
/-! ## The generator never reaches the all-zero state -/

theorem testBit_high {x : Nat} (hx : x < 2 ^ 32) (i : Nat) (hi : 32 ≤ i) :
    x.testBit i = false := by
  apply Nat.testBit_lt_two_pow
  exact lt_of_lt_of_le hx (Nat.pow_le_pow_right (by decide) hi)

theorem xorshift_lt {x : Nat} (hx : x < 2 ^ 32) (k : Nat) : x ^^^ (x >>> k) < 2 ^ 32 :=
  Nat.xor_lt_two_pow hx (lt_of_le_of_lt
    (by rw [Nat.shiftRight_eq_div_pow]; exact Nat.div_le_self _ _) hx)

theorem xorshift16_inv {x : Nat} (hx : x < 2 ^ 32) :
    (x ^^^ (x >>> 16)) ^^^ ((x ^^^ (x >>> 16)) >>> 16) = x := by
  apply Nat.eq_of_testBit_eq
  intro i
  simp only [Nat.testBit_xor, Nat.testBit_shiftRight]
  have h1 : x.testBit (16 + (16 + i)) = false := testBit_high hx _ (by omega)
  rw [h1]
  cases x.testBit i <;> cases x.testBit (16 + i) <;> rfl

theorem xorshift13_inv {x : Nat} (hx : x < 2 ^ 32) :
    (x ^^^ (x >>> 13)) ^^^ ((x ^^^ (x >>> 13)) >>> 13) ^^^ ((x ^^^ (x >>> 13)) >>> 26) = x := by
  apply Nat.eq_of_testBit_eq
  intro i
  simp only [Nat.testBit_xor, Nat.testBit_shiftRight]
  have h1 : x.testBit (13 + (26 + i)) = false := testBit_high hx _ (by omega)
  have e1 : 13 + (13 + i) = 26 + i := by omega
  rw [h1, e1]
  cases x.testBit i <;> cases x.testBit (13 + i) <;> cases x.testBit (26 + i) <;> rfl

theorem xorshift16_inj {x y : Nat} (hx : x < 2 ^ 32) (hy : y < 2 ^ 32)
    (h : x ^^^ (x >>> 16) = y ^^^ (y >>> 16)) : x = y := by
  rw [← xorshift16_inv hx, ← xorshift16_inv hy, h]

theorem xorshift13_inj {x y : Nat} (hx : x < 2 ^ 32) (hy : y < 2 ^ 32)
    (h : x ^^^ (x >>> 13) = y ^^^ (y >>> 13)) : x = y := by
  rw [← xorshift13_inv hx, ← xorshift13_inv hy, h]

theorem mul_odd_inj {x y c : Nat} (hc : Nat.Coprime (2 ^ 32) c) (hx : x < 2 ^ 32)
    (hy : y < 2 ^ 32) (h : x * c % 2 ^ 32 = y * c % 2 ^ 32) : x = y := by
  have h1 : x ≡ y [MOD 2 ^ 32] := Nat.ModEq.cancel_right_of_coprime hc h
  unfold Nat.ModEq at h1
  rwa [Nat.mod_eq_of_lt hx, Nat.mod_eq_of_lt hy] at h1

theorem coprime_mul1 : Nat.Coprime (2 ^ 32) 0x85ebca6b := by decide

theorem coprime_mul2 : Nat.Coprime (2 ^ 32) 0xc2b2ae35 := by decide

theorem specMix_lt (a : Nat) : specMix a < 2 ^ 32 := by
  unfold specMix
  exact xorshift_lt (Nat.mod_lt _ (by decide)) 16

theorem specMix_inj {a b : Nat} (ha : a < 2 ^ 32) (hb : b < 2 ^ 32)
    (h : specMix a = specMix b) : a = b := by
  unfold specMix at h
  simp only at h
  have hpos : 0 < 2 ^ 32 := by decide
  have h1 := xorshift16_inj (Nat.mod_lt _ hpos) (Nat.mod_lt _ hpos) h
  have h2 := mul_odd_inj coprime_mul2 (xorshift_lt (Nat.mod_lt _ hpos) 13)
    (xorshift_lt (Nat.mod_lt _ hpos) 13) h1
  have h3 := xorshift13_inj (Nat.mod_lt _ hpos) (Nat.mod_lt _ hpos) h2
  have h4 := mul_odd_inj coprime_mul1 (xorshift_lt ha 16) (xorshift_lt hb 16) h3
  exact xorshift16_inj ha hb h4

theorem specRotl32_testBit {x : Nat} (hx : x < 2 ^ 32) (i : Nat) :
    (specRotl32 x 11).testBit i =
      if i < 11 then x.testBit (21 + i) else if i < 32 then x.testBit (i - 11) else false := by
  unfold specRotl32
  simp only [Nat.testBit_or, Nat.testBit_mod_two_pow, Nat.testBit_shiftLeft,
    Nat.testBit_shiftRight, Nat.reduceSub]
  by_cases h1 : i < 11
  · have h2 : ¬ (i ≥ 11) := by omega
    simp [h1, h2]
  · have h2 : i ≥ 11 := by omega
    have h3 : x.testBit (21 + i) = false := testBit_high hx _ (by omega)
    by_cases h4 : i < 32
    · simp [h1, h2, h3, h4]
    · simp [h1, h3, h4]

theorem specRotl32_lt (x : Nat) (hx : x < 2 ^ 32) : specRotl32 x 11 < 2 ^ 32 := by
  unfold specRotl32
  exact Nat.or_lt_two_pow (Nat.mod_lt _ (by decide)) (lt_of_le_of_lt
    (by rw [Nat.shiftRight_eq_div_pow]; exact Nat.div_le_self _ _) hx)

theorem specRotl32_inj {x y : Nat} (hx : x < 2 ^ 32) (hy : y < 2 ^ 32)
    (h : specRotl32 x 11 = specRotl32 y 11) : x = y := by
  apply Nat.eq_of_testBit_eq
  intro i
  by_cases h1 : 32 ≤ i
  · rw [testBit_high hx i h1, testBit_high hy i h1]
  · by_cases h2 : i < 21
    · have e := congrArg (fun z => z.testBit (i + 11)) h
      simp only [specRotl32_testBit hx, specRotl32_testBit hy] at e
      have h3 : ¬ (i + 11 < 11) := by omega
      have h4 : i + 11 < 32 := by omega
      simpa [h3, h4] using e
    · have e := congrArg (fun z => z.testBit (i - 21)) h
      simp only [specRotl32_testBit hx, specRotl32_testBit hy] at e
      have h3 : i - 21 < 11 := by omega
      have h4 : 21 + (i - 21) = i := by omega
      simpa [h3, h4] using e

theorem xorshiftLeft9_inj {x y : Nat}
    (h : x ^^^ ((x <<< 9) % 2 ^ 32) = y ^^^ ((y <<< 9) % 2 ^ 32)) : x = y := by
  apply Nat.eq_of_testBit_eq
  intro i
  induction i using Nat.strong_induction_on with
  | _ i ih =>
    have e := congrArg (fun z => z.testBit i) h
    simp only [Nat.testBit_xor, Nat.testBit_mod_two_pow, Nat.testBit_shiftLeft] at e
    by_cases h1 : i ≥ 9
    · have h2 := ih (i - 9) (by omega)
      rw [h2] at e
      exact Bool.xor_right_inj.1 e
    · simpa [h1] using e

theorem xor_mix_cancel (p q r t : Nat) : (p ^^^ q ^^^ r) ^^^ (q ^^^ r ^^^ t) = p ^^^ t := by
  apply Nat.eq_of_testBit_eq
  intro i
  simp only [Nat.testBit_xor]
  cases p.testBit i <;> cases q.testBit i <;> cases r.testBit i <;> cases t.testBit i <;> rfl

theorem specNextState_inj {a b : RandState} (ha : a ∈ states128) (hb : b ∈ states128)
    (h : specNextState a = specNextState b) : a = b := by
  obtain ⟨a0, a1, a2, a3⟩ := a
  obtain ⟨b0, b1, b2, b3⟩ := b
  obtain ⟨ha0, ha1, ha2, ha3⟩ := ha
  obtain ⟨hb0, hb1, hb2, hb3⟩ := hb
  simp only at ha0 ha1 ha2 ha3 hb0 hb1 hb2 hb3
  unfold specNextState at h
  simp only [RandState.mk.injEq] at h
  obtain ⟨e0, e1, e2, e3⟩ := h
  have d : a3 ^^^ a1 = b3 ^^^ b1 :=
    specRotl32_inj (Nat.xor_lt_two_pow ha3 ha1) (Nat.xor_lt_two_pow hb3 hb1) e3
  have h0 : a0 = b0 := by
    rw [Nat.xor_assoc, Nat.xor_assoc, d] at e0
    exact Nat.xor_left_inj.1 e0
  have h1 : a1 = b1 := by
    have e := congrArg₂ (fun u v => u ^^^ v) e1 e2
    simp only [xor_mix_cancel] at e
    exact xorshiftLeft9_inj e
  subst h0; subst h1
  have h3 : a3 = b3 := Nat.xor_left_inj.1 d
  have h2 : a2 = b2 := by
    rw [Nat.xor_left_inj] at e1
    exact Nat.xor_right_inj.1 e1
  subst h2; subst h3
  rfl

theorem specNextState_mapsTo {a : RandState} (ha : a ∈ states128) :
    specNextState a ∈ states128 := by
  obtain ⟨ha0, ha1, ha2, ha3⟩ := ha
  unfold specNextState
  refine ⟨?_, ?_, ?_, ?_⟩
  · exact Nat.xor_lt_two_pow (Nat.xor_lt_two_pow ha0 ha3) ha1
  · exact Nat.xor_lt_two_pow (Nat.xor_lt_two_pow ha1 ha2) ha0
  · exact Nat.xor_lt_two_pow (Nat.xor_lt_two_pow ha2 ha0) (Nat.mod_lt _ (by decide))
  · exact specRotl32_lt _ (Nat.xor_lt_two_pow ha3 ha1)

theorem states128_finite : states128.Finite := by
  have hsub : states128 ⊆
      (fun q : Nat × Nat × Nat × Nat => (⟨q.1, q.2.1, q.2.2.1, q.2.2.2⟩ : RandState)) ''
        (Set.Iio (2 ^ 32) ×ˢ Set.Iio (2 ^ 32) ×ˢ Set.Iio (2 ^ 32) ×ˢ Set.Iio (2 ^ 32)) := by
    intro st hst
    exact ⟨(st.s0, st.s1, st.s2, st.s3), ⟨hst.1, hst.2.1, hst.2.2.1, hst.2.2.2⟩, rfl⟩
  refine Set.Finite.subset (Set.Finite.image _ ?_) hsub
  exact (Set.finite_Iio _).prod ((Set.finite_Iio _).prod ((Set.finite_Iio _).prod
    (Set.finite_Iio _)))

theorem splitmix32_bijOn : Set.BijOn (fun a => (splitmix32 a).1) words32 words32 := by
  have hm : Set.MapsTo (fun a => (splitmix32 a).1) words32 words32 := by
    intro a _
    simp only [splitmix32_eq]
    exact specMix_lt _
  refine (Set.Finite.injOn_iff_bijOn_of_mapsTo (Set.finite_Iio (2 ^ 32)) hm).1 ?_
  intro a ha b hb hab
  simp only [splitmix32_eq] at hab
  have h1 := specMix_inj (Nat.mod_lt _ (by decide)) (Nat.mod_lt _ (by decide)) hab
  have ha1 : a < 2 ^ 32 := ha
  have hb1 : b < 2 ^ 32 := hb
  simp only [wrap32] at h1
  rw [two_pow_32] at ha1 hb1
  omega

theorem rand_next_bijOn : Set.BijOn (fun st => (rand_next st).2) states128 states128 := by
  have hm : Set.MapsTo (fun st => (rand_next st).2) states128 states128 := by
    intro a ha
    simp only [rand_next_eq]
    exact specNextState_mapsTo ha
  refine (Set.Finite.injOn_iff_bijOn_of_mapsTo states128_finite hm).1 ?_
  intro a ha b hb hab
  simp only [rand_next_eq] at hab
  exact specNextState_inj ha hb hab

theorem rand_seed_distinct (st : RandState) (seed : Nat) :
    (rand_seed st seed).s0 ≠ (rand_seed st seed).s1 ∧
    (rand_seed st seed).s0 ≠ (rand_seed st seed).s2 ∧
    (rand_seed st seed).s0 ≠ (rand_seed st seed).s3 ∧
    (rand_seed st seed).s1 ≠ (rand_seed st seed).s2 ∧
    (rand_seed st seed).s1 ≠ (rand_seed st seed).s3 ∧
    (rand_seed st seed).s2 ≠ (rand_seed st seed).s3 := by
  rw [rand_seed_eq]
  have hlt : ∀ k, specAcc seed k < 2 ^ 32 := fun k => Nat.mod_lt _ (by decide)
  have hne : ∀ j k, specAcc seed j ≠ specAcc seed k → specMix (specAcc seed j) ≠
      specMix (specAcc seed k) := fun j k h e => h (specMix_inj (hlt j) (hlt k) e)
  refine ⟨hne 1 2 ?_, hne 1 3 ?_, hne 1 4 ?_, hne 2 3 ?_, hne 2 4 ?_, hne 3 4 ?_⟩ <;>
    (simp only [specAcc, two_pow_32]; omega)

theorem rand_seed_mem (st : RandState) (seed : Nat) : rand_seed st seed ∈ states128 := by
  rw [rand_seed_eq]
  exact ⟨specMix_lt _, specMix_lt _, specMix_lt _, specMix_lt _⟩

theorem randIter_ne_zero : ∀ (n : Nat) (s : RandState), s ∈ states128 → s ≠ ⟨0, 0, 0, 0⟩ →
    randIter n s ≠ ⟨0, 0, 0, 0⟩ := by
  intro n
  induction n with
  | zero => intro s _ hs; exact hs
  | succ n ih =>
    intro s hmem hs
    unfold randIter
    rw [rand_next_eq]
    apply ih _ (specNextState_mapsTo hmem)
    intro e
    apply hs
    have hz : (⟨0, 0, 0, 0⟩ : RandState) ∈ states128 := by
      refine ⟨?_, ?_, ?_, ?_⟩ <;> decide
    have e0 : specNextState ⟨0, 0, 0, 0⟩ = ⟨0, 0, 0, 0⟩ := by decide
    exact specNextState_inj hmem hz (e.trans e0.symm)

/-- C18: for every seed the four words set by `rand_seed` are pairwise
distinct; the output of `splitmix32` as a function of the accumulator is a
bijection on the 32-bit words; the state transition of `rand_next` is a
bijection on the states of four 32-bit words and maps the all-zero state to
itself; and after `rand_seed` and any number of calls of `rand_next` the state
is not all zero. -/
theorem rand_state_never_all_zero :
    (∀ (st : RandState) (seed : Nat),
      (rand_seed st seed).s0 ≠ (rand_seed st seed).s1 ∧
      (rand_seed st seed).s0 ≠ (rand_seed st seed).s2 ∧
      (rand_seed st seed).s0 ≠ (rand_seed st seed).s3 ∧
      (rand_seed st seed).s1 ≠ (rand_seed st seed).s2 ∧
      (rand_seed st seed).s1 ≠ (rand_seed st seed).s3 ∧
      (rand_seed st seed).s2 ≠ (rand_seed st seed).s3) ∧
    Set.BijOn (fun a => (splitmix32 a).1) words32 words32 ∧
    Set.BijOn (fun st => (rand_next st).2) states128 states128 ∧
    (rand_next ⟨0, 0, 0, 0⟩).2 = ⟨0, 0, 0, 0⟩ ∧
    ∀ (st : RandState) (seed n : Nat), randIter n (rand_seed st seed) ≠ ⟨0, 0, 0, 0⟩ := by
  refine ⟨rand_seed_distinct, splitmix32_bijOn, rand_next_bijOn, by decide, ?_⟩
  intro st seed n
  apply randIter_ne_zero n _ (rand_seed_mem st seed)
  intro e
  have h := (rand_seed_distinct st seed).1
  rw [e] at h
  exact h rfl

end Maze
